import Mathlib

/-
  Verification development for the C115 Logic Analyzer solver core
  (src/solver.py, src/solve.py, src/matrix.py).

  The Python source is shallowly embedded: matrices become lists of rows
  (lists of naturals), implicants become records, the heterogeneous
  tagged-array AST becomes a closed inductive type, and the mutable
  implicant arena of the join engine becomes explicit state passing with
  an append-only arena addressed by index.  Python index accesses that can
  raise IndexError or TypeError are modelled with Option; in-contract
  accesses use getD with a junk default and carry bounds hypotheses in the
  theorems.
-/

namespace C115

/-! ### State values (solver.py lines 5-10) -/

def ZERO : Nat := 0
def ONE : Nat := 1
def EITHER : Nat := 2

/-! ### Implicant data (solver.py class Implicant)

  `Values`, `Optional` and `Minterms` are the construction-time fields of
  the Python Implicant object; the mutable fields `Covered` and
  `MintermCoverCount` are modelled as per-index maps in the join-engine
  state below.  `Minterms` stores arena indices of the originating
  level-0 minterm implicants (the Python object references). -/

structure ImpData where
  Values : List Nat
  Optional : Bool
  Minterms : List Nat
deriving DecidableEq, Repr

instance : Inhabited ImpData := ⟨⟨[], false, []⟩⟩

/-- OneCount: the number of ONE entries in the values (solver.py lines 54-56). -/
def oneCount (vs : List Nat) : Nat := vs.countP (fun v => v = ONE)

/-- Hash: `h = 2; for v in inputs: h += v; h <<= 2` (solver.py lines 60-63). -/
def hashOf (vs : List Nat) : Nat := vs.foldl (fun h v => (h + v) * 4) 2

/-! ### Expression AST (solver.py imp_list_to_ast doc, lines 303-330)

  The source stores nodes as tagged Python lists; here it is a closed
  tagged-variant type.  Children of Sum and Prod keep their list order. -/

inductive Ast where
  | V : Nat → Ast
  | K : Nat → Ast
  | Neg : Ast → Ast
  | Sum : List Ast → Ast
  | Prod : List Ast → Ast
deriving Repr

instance : Inhabited Ast := ⟨Ast.K 0⟩

mutual

/-- Structural (syntactic) equality test for AST nodes. -/
def astBeq : Ast → Ast → Bool
  | Ast.V n, Ast.V m => n == m
  | Ast.K n, Ast.K m => n == m
  | Ast.Neg x, Ast.Neg y => astBeq x y
  | Ast.Sum xs, Ast.Sum ys => astListBeq xs ys
  | Ast.Prod xs, Ast.Prod ys => astListBeq xs ys
  | _, _ => false

def astListBeq : List Ast → List Ast → Bool
  | [], [] => true
  | x :: xs, y :: ys => astBeq x y && astListBeq xs ys
  | _, _ => false

end

mutual

theorem astBeq_sound : ∀ a b : Ast, astBeq a b = true → a = b
  | Ast.V _, Ast.V _, h => by
      simp only [astBeq, Nat.beq_eq_true_eq] at h; exact congrArg Ast.V h
  | Ast.K _, Ast.K _, h => by
      simp only [astBeq, Nat.beq_eq_true_eq] at h; exact congrArg Ast.K h
  | Ast.Neg x, Ast.Neg y, h => by
      exact congrArg Ast.Neg (astBeq_sound x y h)
  | Ast.Sum xs, Ast.Sum ys, h => by
      exact congrArg Ast.Sum (astListBeq_sound xs ys h)
  | Ast.Prod xs, Ast.Prod ys, h => by
      exact congrArg Ast.Prod (astListBeq_sound xs ys h)

theorem astListBeq_sound : ∀ xs ys : List Ast, astListBeq xs ys = true → xs = ys
  | [], [], _ => rfl
  | x :: xs, y :: ys, h => by
      simp only [astListBeq, Bool.and_eq_true] at h
      rw [astBeq_sound x y h.1, astListBeq_sound xs ys h.2]

end

mutual

theorem astBeq_refl : ∀ a : Ast, astBeq a a = true
  | Ast.V _ => by simp [astBeq]
  | Ast.K _ => by simp [astBeq]
  | Ast.Neg x => astBeq_refl x
  | Ast.Sum xs => astListBeq_refl xs
  | Ast.Prod xs => astListBeq_refl xs

theorem astListBeq_refl : ∀ xs : List Ast, astListBeq xs xs = true
  | [] => rfl
  | x :: xs => by
      simp only [astListBeq, Bool.and_eq_true]
      exact ⟨astBeq_refl x, astListBeq_refl xs⟩

end

instance : DecidableEq Ast := fun a b =>
  if h : astBeq a b = true then isTrue (astBeq_sound a b h)
  else isFalse (fun e => h (e ▸ astBeq_refl a))

/-! ### Node size and literal count -/

mutual

/-- Number of AST nodes. -/
def sizeA : Ast → Nat
  | Ast.V _ => 1
  | Ast.K _ => 1
  | Ast.Neg x => 1 + sizeA x
  | Ast.Sum l => 1 + sizeListA l
  | Ast.Prod l => 1 + sizeListA l

def sizeListA : List Ast → Nat
  | [] => 0
  | x :: xs => sizeA x + sizeListA xs

end

mutual

/-- Total literal count: the number of variable occurrences in the tree. -/
def litCount : Ast → Nat
  | Ast.V _ => 1
  | Ast.K _ => 0
  | Ast.Neg x => litCount x
  | Ast.Sum l => litCountList l
  | Ast.Prod l => litCountList l

def litCountList : List Ast → Nat
  | [] => 0
  | x :: xs => litCount x + litCountList xs

end

/-! ### Python ordering of AST nodes

  _ast_equiv sorts child lists with Python sorted, which compares the
  tagged-list representations lexicographically; the tag strings order as
  the product tag, then sum, then constant, then variable, then negation.
  On well-formed nodes this comparison is total. -/

def tagRank : Ast → Nat
  | Ast.Prod _ => 0
  | Ast.Sum _ => 1
  | Ast.K _ => 2
  | Ast.V _ => 3
  | Ast.Neg _ => 4

theorem sizeA_pos (a : Ast) : 0 < sizeA a := by
  cases a <;> simp only [sizeA] <;> omega

mutual

/-- Strict order on nodes matching the Python list comparison of their
  tagged-array representations, with explicit recursion fuel so that the
  definition stays kernel-reducible; each nested comparison consumes one
  unit and the combined node size bounds the recursion depth. -/
def astLtF : Nat → Ast → Ast → Bool
  | 0, _, _ => false
  | f + 1, a, b =>
      match a, b with
      | Ast.V n, Ast.V m => n < m
      | Ast.K n, Ast.K m => n < m
      | Ast.Neg x, Ast.Neg y => astLtF f x y
      | Ast.Sum xs, Ast.Sum ys => astListLtF f xs ys
      | Ast.Prod xs, Ast.Prod ys => astListLtF f xs ys
      | a, b => tagRank a < tagRank b

/-- Lexicographic order on child lists with the shorter-prefix rule. -/
def astListLtF : Nat → List Ast → List Ast → Bool
  | 0, _, _ => false
  | f + 1, l1, l2 =>
      match l1, l2 with
      | [], [] => false
      | [], _ :: _ => true
      | _ :: _, [] => false
      | x :: xs, y :: ys =>
          if astLtF f x y then true
          else if astLtF f y x then false
          else astListLtF f xs ys

end

def astLt (a b : Ast) : Bool := astLtF (2 * (sizeA a + sizeA b) + 2) a b

/-- Stable ascending insertion for the embedding of Python sorted. -/
def pyInsert (x : Ast) : List Ast → List Ast
  | [] => [x]
  | y :: ys => if astLt x y then x :: y :: ys else y :: pyInsert x ys

/-- Python sorted on a list of nodes (stable, ascending). -/
def pySorted (l : List Ast) : List Ast :=
  l.foldl (fun acc x => pyInsert x acc) []

theorem pyInsert_perm (x : Ast) (l : List Ast) : (pyInsert x l).Perm (x :: l) := by
  induction l with
  | nil => simp [pyInsert]
  | cons y ys ih =>
      by_cases h : astLt x y = true
      · simp [pyInsert, h]
      · simp only [pyInsert, h, if_false, Bool.false_eq_true]
        exact (ih.cons y).trans (List.Perm.swap x y ys)

theorem pySorted_perm (l : List Ast) : (pySorted l).Perm l := by
  suffices h : ∀ acc : List Ast,
      (l.foldl (fun acc x => pyInsert x acc) acc).Perm (acc ++ l) by
    simpa using h []
  induction l with
  | nil => intro acc; simp
  | cons x xs ih =>
      intro acc
      simp only [List.foldl_cons]
      refine (ih (pyInsert x acc)).trans ?_
      exact (List.Perm.append_right xs (pyInsert_perm x acc)).trans List.perm_middle.symm

theorem sizeListA_perm {l1 l2 : List Ast} (h : l1.Perm l2) :
    sizeListA l1 = sizeListA l2 := by
  induction h with
  | nil => rfl
  | cons x _ ih => simp [sizeListA, ih]
  | swap x y l => simp only [sizeListA]; omega
  | trans _ _ ih1 ih2 => omega

theorem sizeListA_pySorted (l : List Ast) : sizeListA (pySorted l) = sizeListA l :=
  sizeListA_perm (pySorted_perm l)

theorem sizeA_mem_le {x : Ast} {l : List Ast} (h : x ∈ l) : sizeA x ≤ sizeListA l := by
  induction l with
  | nil => cases h
  | cons y ys ih =>
      rcases List.mem_cons.mp h with rfl | h2
      · simp only [sizeListA]; omega
      · have := ih h2; simp only [sizeListA]; omega

/-! ### _ast_equiv (solver.py lines 362-385)

  Equivalence of nodes up to one-level sorted alignment of sum and
  product children.  The source compares the sorted child lists pairwise
  and bails out on the first mismatch.  Comparing two constant nodes
  reaches _ast_equiv on their raw integer payloads, which raises
  TypeError in the source; that case is modelled as `none`. -/

mutual

def astEquivF : Nat → Ast → Ast → Option Bool
  | 0, _, _ => none
  | f + 1, a, b =>
      match a, b with
      | Ast.V n, b =>
          match b with
          | Ast.V m => some (n == m)
          | _ => some false
      | Ast.K _, b =>
          match b with
          | Ast.K _ => none
          | _ => some false
      | Ast.Neg x, b =>
          match b with
          | Ast.Neg y => astEquivF f x y
          | _ => some false
      | Ast.Sum xs, b =>
          match b with
          | Ast.Sum ys =>
              if xs.length = ys.length then
                astEquivListF f (pySorted xs) (pySorted ys)
              else some false
          | _ => some false
      | Ast.Prod xs, b =>
          match b with
          | Ast.Prod ys =>
              if xs.length = ys.length then
                astEquivListF f (pySorted xs) (pySorted ys)
              else some false
          | _ => some false

def astEquivListF : Nat → List Ast → List Ast → Option Bool
  | 0, _, _ => none
  | f + 1, l1, l2 =>
      match l1, l2 with
      | x :: xs, y :: ys => do
          let e ← astEquivF f x y
          if e then astEquivListF f xs ys else pure false
      | _, _ => some true

end

/-- _ast_equiv on two nodes.  The recursion fuel is explicit so the
  definition stays kernel-reducible; twice the combined node size
  dominates the recursion depth, so the stated fuel never runs out. -/
def astEquiv (a b : Ast) : Option Bool :=
  astEquivF (2 * (sizeA a + sizeA b) + 2) a b

/-! ### Option-monad list combinators

  Structural recursions with transparent equations, used in place of the
  library mapM and foldlM; evaluation is left to right and the first
  failure aborts, matching Python exception flow. -/

def omap {α β : Type} (f : α → Option β) : List α → Option (List β)
  | [] => some []
  | x :: xs => do
      let y ← f x
      let ys ← omap f xs
      pure (y :: ys)

def ofoldl {α β : Type} (f : β → α → Option β) : β → List α → Option β
  | b, [] => some b
  | b, x :: xs => do
      let b2 ← f b x
      ofoldl f b2 xs

def ofilter {α : Type} (p : α → Option Bool) : List α → Option (List α)
  | [] => some []
  | x :: xs => do
      let b ← p x
      let rest ← ofilter p xs
      pure (if b then x :: rest else rest)

/-! ### _ast_children (solver.py lines 390-396)

  The generator yields astnode[i] for i in range(1, len(astnode)).  For
  Variable and Constant nodes that entry is the raw integer payload, not
  a node; PyVal distinguishes the two cases. -/

inductive PyVal where
  | node : Ast → PyVal
  | int : Nat → PyVal
deriving DecidableEq, Repr

def astChildren : Ast → List PyVal
  | Ast.V n => [PyVal.int n]
  | Ast.K b => [PyVal.int b]
  | Ast.Neg x => [PyVal.node x]
  | Ast.Sum l => l.map PyVal.node
  | Ast.Prod l => l.map PyVal.node

/-- Python len of the tagged-array representation of a node. -/
def pyLen : Ast → Nat
  | Ast.V _ => 2
  | Ast.K _ => 2
  | Ast.Neg _ => 2
  | Ast.Sum l => l.length + 1
  | Ast.Prod l => l.length + 1

/-- _ast_equiv applied to a node and a raw child entry: subscripting the
  raw integer raises TypeError in the source, modelled as none. -/
def equivNodeVal (f : Ast) : PyVal → Option Bool
  | PyVal.node b => astEquiv f b
  | PyVal.int _ => none

/-- _ast_equiv applied with the raw child entry first (the argument
  order of the factor-removal loop, solver.py line 529). -/
def equivValNode : PyVal → Ast → Option Bool
  | PyVal.node a, f => astEquiv a f
  | PyVal.int _, _ => none

/-! ### _simplify_sum: the candidate scan (solver.py lines 434-502) -/

/-- itertools.combinations: the length-n sublists in index order. -/
def combinations {α : Type} : Nat → List α → List (List α)
  | 0, _ => [[]]
  | _ + 1, [] => []
  | n + 1, x :: xs =>
      (combinations n xs).map (fun c => x :: c) ++ combinations (n + 1) xs

/-- One (term, factor subset) candidate: the base term position, the
  chosen factor positions within it, and the ascending list of later
  term positions sharing every chosen factor.  Positions are zero-based
  counterparts of the one-based Python ast indices. -/
structure Cand where
  termIdx : Nat
  facIdxs : List Nat
  inter : List Nat
deriving DecidableEq, Repr

/-- The heuristic of a candidate (solver.py lines 497, 501):
  the number of sharing terms times the number of chosen factors. -/
def candScore (c : Cand) : Nat := c.inter.length * c.facIdxs.length

/-- Does some child of the other term compare equivalent to the factor
  (solver.py lines 460-463)?  Every child is compared, so a TypeError in
  any comparison aborts the pass. -/
def sharesFactor (f : Ast) (other : Ast) : Option Bool :=
  ofoldl (fun hit c => do
    let e ← equivNodeVal f c
    pure (hit || e)) false (astChildren other)

/-- The (factor position, sharing term positions) pairs for one base
  term (solver.py lines 450-477); empty when the term is not a product.
  Factors sharing with no later term are dropped. -/
def sharesPerFactor (ts : List Ast) (ti : Nat) : Option (List (Nat × List Nat)) :=
  match ts.getD ti default with
  | Ast.Prod fs =>
      ofoldl (fun acc p => do
        let sharing ← ofoldl
          (fun s oi => do
            let hit ← sharesFactor p.2 (ts.getD oi default)
            pure (if hit then s ++ [oi] else s)) ([] : List Nat)
          (List.range' (ti + 1) (ts.length - (ti + 1)))
        pure (if 0 < sharing.length then acc ++ [(p.1, sharing)] else acc)) [] fs.enum
  | _ => pure []

/-- Python set intersection on ascending index lists. -/
def interSets (a b : List Nat) : List Nat := a.filter (fun i => b.contains i)

/-- The candidates produced for one base term (solver.py lines 479-502):
  subset sizes ascending from 1 to the factor count minus one, subsets
  in generation order, keeping those with a nonempty intersection. -/
def termCands (ts : List Ast) (ti : Nat) (shares : List (Nat × List Nat)) : List Cand :=
  (List.range' 1 (pyLen (ts.getD ti default) - 2)).foldl (fun acc i =>
    acc ++ (combinations i shares).filterMap (fun comb =>
      match comb with
      | [] => none
      | c0 :: _ =>
          if 0 < (comb.foldl (fun acc2 p => interSets acc2 p.2) c0.2).length
          then some ⟨ti, comb.map Prod.fst,
            comb.foldl (fun acc2 p => interSets acc2 p.2) c0.2⟩
          else none)) []

/-- All candidates of one scanning pass in discovery order. -/
def scanCands (ts : List Ast) : Option (List Cand) :=
  ofoldl (fun acc ti => do
    let shares ← sharesPerFactor ts ti
    pure (acc ++ termCands ts ti shares)) [] (List.range ts.length)

/-- The final best-candidate state of the scan. -/
structure ScanBest where
  best : Option Cand
  bestH : Nat
  numCand : Nat
deriving DecidableEq, Repr

/-- One best-candidate update (solver.py lines 493-502): any candidate
  whose heuristic is at least the current best replaces it. -/
def bestStep (s : ScanBest) (c : Cand) : ScanBest :=
  if s.bestH ≤ candScore c then ⟨some c, candScore c, s.numCand + 1⟩ else s

/-- The running best-candidate fold over the scan candidates in
  discovery order (solver.py lines 437-502). -/
def bestFold (cands : List Cand) : ScanBest :=
  cands.foldl bestStep ⟨none, 0, 0⟩

/-! ### _simplify_sum: factoring and recursion (solver.py lines 507-587) -/

/-- Does some pulled factor compare equivalent to the child?  The source
  breaks at the first match (solver.py lines 528-530). -/
def hitsPulled (ch : PyVal) : List Ast → Option Bool
  | [] => some false
  | f :: fs => do
      let e ← equivValNode ch f
      if e then pure true else hitsPulled ch fs

/-- Rebuild one matching term with the pulled factors removed
  (solver.py lines 525-539): the kept children form a new product, a
  single kept child stands alone, and zero kept children leave the empty
  product. -/
def reduceTerm (t : Ast) (pulled : List Ast) : Option Ast := do
  let kept ← ofilter (fun ch => do
      let hit ← hitsPulled ch pulled
      pure (!hit)) (astChildren t)
  let keptN ← omap (fun v =>
      match v with
      | PyVal.node a => some a
      | PyVal.int _ => none) kept
  match keptN with
  | [x] => pure x
  | l => pure (Ast.Prod l)

/-- The factors pulled out of the selected base term (solver.py lines
  515-523): the children of the base at the chosen factor positions. -/
def pulledOf (base : Ast) (fi : List Nat) : List Ast :=
  (astChildren base).enum.filterMap (fun p =>
    if fi.contains p.1 then
      match p.2 with
      | PyVal.node a => some a
      | PyVal.int _ => none
    else none)

/-- The terms at the joined positions, in position order (solver.py
  lines 541-556, the ast_prime sum of reduced matching terms). -/
def selIn (jw : List Nat) (reduced : List Ast) : List Ast :=
  reduced.enum.filterMap (fun p => if jw.contains p.1 then some p.2 else none)

/-- The terms left out of the join, in position order (solver.py lines
  541-556, the terms kept in the outer sum). -/
def selOut (jw : List Nat) (reduced : List Ast) : List Ast :=
  reduced.enum.filterMap (fun p => if jw.contains p.1 then none else some p.2)

/-- _simplify_sum (solver.py lines 401-587), with explicit fuel for the
  self-recursion; exhausted fuel yields none (shown unreachable with
  enough fuel by the stability theorem below). -/
def simpSum : Nat → Ast → Option Ast
  | 0, _ => none
  | fuel + 1, t =>
      match t with
      | Ast.Sum ts => do
          let cands ← scanCands ts
          let sb := bestFold cands
          match sb.best with
          | none => pure (Ast.Sum ts)
          | some c => do
              let pulled := pulledOf (ts.getD c.termIdx default) c.facIdxs
              let joinWith := c.inter ++ [c.termIdx]
              let reduced ← omap (fun p =>
                  if joinWith.contains p.1 then reduceTerm p.2 pulled
                  else pure p.2) ts.enum
              let innerS ← simpSum fuel (Ast.Sum (selIn joinWith reduced))
              let result := match selOut joinWith reduced with
                | [] => Ast.Prod (pulled ++ [innerS])
                | _ => Ast.Sum (Ast.Prod (pulled ++ [innerS]) ::
                    selOut joinWith reduced)
              simpSum fuel result
      | other => pure other

/-- simplify_ast (solver.py lines 592-598).  The source recursion
  carries no fuel; the bound used here is proven sufficient for
  sum-of-products inputs by the termination theorem below. -/
def simplify_ast (t : Ast) : Option Ast :=
  simpSum (2 * litCount t + sizeA t + 1) t

/-- _simplify_sum (solver.py lines 401-587) once more, with the
  embedding artifact separated from the source's actual outcomes:
  `none` means only that the fuel ran out before the self-recursion
  finished (no verdict about the source), `some none` means the source
  raises (the TypeError paths of _ast_equiv reached through the scan or
  the term reduction), and `some (some r)` is a normal return of r.
  Collapsing the two error levels with Option.join recovers simpSum
  (proved below), so this is the same translation of the source at a
  finer error discipline. -/
def simpSumE : Nat → Ast → Option (Option Ast)
  | 0, _ => none
  | fuel + 1, t =>
      match t with
      | Ast.Sum ts =>
          match scanCands ts with
          | none => some none
          | some cands =>
              match (bestFold cands).best with
              | none => some (some (Ast.Sum ts))
              | some c =>
                  match omap (fun p =>
                      if (c.inter ++ [c.termIdx]).contains p.1 then
                        reduceTerm p.2
                          (pulledOf (ts.getD c.termIdx default) c.facIdxs)
                      else pure p.2) ts.enum with
                  | none => some none
                  | some reduced =>
                      match simpSumE fuel (Ast.Sum
                          (selIn (c.inter ++ [c.termIdx]) reduced)) with
                      | none => none
                      | some none => some none
                      | some (some innerS) =>
                          simpSumE fuel
                            (match selOut (c.inter ++ [c.termIdx]) reduced with
                             | [] => Ast.Prod
                                 (pulledOf (ts.getD c.termIdx default) c.facIdxs
                                   ++ [innerS])
                             | _ => Ast.Sum (Ast.Prod
                                 (pulledOf (ts.getD c.termIdx default) c.facIdxs
                                   ++ [innerS])
                                 :: selOut (c.inter ++ [c.termIdx]) reduced))
      | other => some (some other)

/-! ### ast_to_string (solver.py lines 663-690) -/

/-- The apostrophe appended to negated atoms. -/
def primeStr : String := (Char.ofNat 39).toString

mutual

def ast_to_string (names : List String) : Ast → String
  | Ast.Sum l => String.intercalate " + " (sumStrings names l)
  | Ast.Prod l => String.join (prodStrings names l)
  | Ast.Neg x =>
      match x with
      | Ast.V _ => ast_to_string names x ++ primeStr
      | Ast.K _ => ast_to_string names x ++ primeStr
      | _ => "(" ++ ast_to_string names x ++ ")" ++ primeStr
  | Ast.V n => names.getD n ""
  | Ast.K b => toString b

def sumStrings (names : List String) : List Ast → List String
  | [] => []
  | x :: xs => ast_to_string names x :: sumStrings names xs

def prodStrings (names : List String) : List Ast → List String
  | [] => []
  | x :: xs =>
      (match x with
       | Ast.V _ => ast_to_string names x
       | Ast.K _ => ast_to_string names x
       | Ast.Neg _ => ast_to_string names x
       | _ => "(" ++ ast_to_string names x ++ ")") :: prodStrings names xs

end

/-! ### Join engine (solver.py _fast_bucketed_join, lines 87-246)

  The mutable Python objects are modelled by an append-only arena
  `imps : List ImpData` addressed by index, together with maps
  `cov : Nat → Bool` (the Covered flags) and `cnt : Nat → Nat`
  (the MintermCoverCount values).  Buckets hold arena indices. -/

/-- Join eligibility (solver.py lines 160-164): the value vectors must
  agree at every position except where imp_a holds ZERO and imp_b ONE.
  The source loops i over range(nvars); both vectors have length nvars. -/
def joinableVals (a b : List Nat) : Bool :=
  (a.zip b).all (fun p => p.1 = p.2 || (p.1 = ZERO && p.2 = ONE))

/-- The joined value vector (solver.py lines 168-173): EITHER where the
  parents differ, the common value elsewhere. -/
def joinVals (a b : List Nat) : List Nat :=
  (a.zip b).map (fun p => if p.1 ≠ p.2 then EITHER else p.1)

/-- Per-level mutable state (arena plus Covered flags, cover counts, the
  next-level buckets and the next-level hash set). -/
structure LSt where
  imps : List ImpData
  cov : Nat → Bool
  cnt : Nat → Nat
  nextB : Nat → List Nat
  hashes : List Nat

/-- Increment the cover count of every lineage minterm (solver.py 207-208). -/
def bumpAll (cnt : Nat → Nat) (lin : List Nat) : Nat → Nat :=
  lin.foldl (fun c m => fun j => if j = m then c j + 1 else c j) cnt

/-- Decrement the cover count of every lineage minterm (solver.py 240-241). -/
def dropAll (cnt : Nat → Nat) (lin : List Nat) : Nat → Nat :=
  lin.foldl (fun c m => fun j => if j = m then c j - 1 else c j) cnt

/-- One join attempt between arena entries ia and ib
  (solver.py lines 152-208).  On a successful join both parents are
  marked Covered; the child is appended to the arena and to the
  next-level bucket for its OneCount unless its hash is already present
  (the odd-parity deduplication), in which case nothing else happens. -/
def tryJoin (st : LSt) (ia ib : Nat) : LSt :=
  let A := st.imps.getD ia default
  let B := st.imps.getD ib default
  if joinableVals A.Values B.Values then
    let nv := joinVals A.Values B.Values
    let h := hashOf nv
    let st1 : LSt := { st with cov := fun j => if j = ia ∨ j = ib then true else st.cov j }
    if st1.hashes.contains h then st1
    else
      let lin := A.Minterms ++ B.Minterms
      let idx := st1.imps.length
      { imps := st1.imps ++ [⟨nv, A.Optional && B.Optional, lin⟩]
        cov := st1.cov
        cnt := bumpAll st1.cnt lin
        nextB := fun k => if k = oneCount nv then st1.nextB k ++ [idx] else st1.nextB k
        hashes := st1.hashes ++ [h] }
  else st

/-- The join phase of one level (solver.py lines 149-208): for each
  number of ones, join every implicant of that bucket with every
  implicant of the next bucket. -/
def joinPhase (nvars : Nat) (curB : Nat → List Nat) (st : LSt) : LSt :=
  (List.range nvars).foldl (fun st na =>
    (curB na).foldl (fun st ia =>
      (curB (na + 1)).foldl (fun st ib => tryJoin st ia ib) st) st) st

/-- EPI gathering for the current level (solver.py lines 214-219):
  uncovered non-optional implicants are essential prime implicants. -/
def emitEpis (nvars : Nat) (curB : Nat → List Nat) (st : LSt) (epis : List Nat) : List Nat :=
  (List.range (nvars + 1)).foldl (fun acc k =>
    acc ++ (curB k).filter
      (fun i => !(st.cov i) && !((st.imps.getD i default).Optional))) epis

/-- One step of the false-EPI heuristic (solver.py lines 232-242): if all
  lineage minterms of the implicant have cover count > 1, decrement them
  all and mark the implicant Covered. -/
def heurImp (st : LSt) (i : Nat) : LSt :=
  let lin := (st.imps.getD i default).Minterms
  if lin.all (fun m => decide (1 < st.cnt m)) then
    { st with cnt := dropAll st.cnt lin
              cov := fun j => if j = i then true else st.cov j }
  else st

/-- The false-EPI marking pass over the freshly generated level
  (solver.py lines 226-242). -/
def heurPhase (nvars : Nat) (newB : Nat → List Nat) (st : LSt) : LSt :=
  (List.range (nvars + 1)).foldl (fun st k => (newB k).foldl heurImp st) st

/-- Whole-algorithm state between levels. -/
structure GSt where
  imps : List ImpData
  cov : Nat → Bool
  buckets : Nat → List Nat
  epis : List Nat

/-- One iteration of the level loop (solver.py lines 136-242): reset the
  minterm cover counts, join, gather this level's EPIs, advance the
  buckets, then run the false-EPI heuristic on the new level. -/
def levelStep (nvars : Nat) (g : GSt) : GSt :=
  let st0 : LSt := ⟨g.imps, g.cov, fun _ => 0, fun _ => [], []⟩
  let st1 := joinPhase nvars g.buckets st0
  let epis := emitEpis nvars g.buckets st1 g.epis
  let st2 := heurPhase nvars st1.nextB st1
  ⟨st2.imps, st2.cov, st2.nextB, epis⟩

/-- The initial arena (solver.py lines 96-116): one implicant per input
  minterm, each with itself as its only lineage minterm. -/
def initArena (minterms : List (List Nat × Bool)) : List ImpData :=
  minterms.enum.map (fun p => ⟨p.2.1, p.2.2, [p.1]⟩)

/-- The initial buckets: arena indices grouped by OneCount. -/
def initBuckets (arena : List ImpData) : Nat → List Nat := fun k =>
  (List.range arena.length).filter
    (fun i => oneCount ((arena.getD i default).Values) = k)

/-- _fast_bucketed_join (solver.py lines 87-246).  The input is the list
  of minterm implicants as (values, optional) pairs in construction
  order. -/
def fastBucketedJoin (minterms : List (List Nat × Bool)) (nvars : Nat) : List ImpData :=
  let g0 : GSt := ⟨initArena minterms, fun _ => false,
    initBuckets (initArena minterms), []⟩
  let gN := (List.range (nvars + 1)).foldl (fun g _ => levelStep nvars g) g0
  gN.epis.map (fun i => gN.imps.getD i default)

/-- solve_and_or (solver.py lines 251-293): rows whose output column is
  ONE or EITHER become minterm implicants (optional for EITHER) over the
  columns of input_index_list, then the join engine reduces them to the
  essential prime implicants. -/
def solve_and_or (m : List (List Nat)) (output_index : Nat)
    (input_index_list : List Nat) : List ImpData :=
  let imp_list : List (List Nat × Bool) :=
    m.filterMap (fun row =>
      if row.getD output_index 0 = ONE ∨ row.getD output_index 0 = EITHER then
        some (input_index_list.map (fun i => row.getD i 0),
              decide (row.getD output_index 0 = EITHER))
      else none)
  fastBucketedJoin imp_list input_index_list.length

/-! ### Expression builder (solver.py imp_list_to_ast, lines 298-357) -/

/-- The non-dont-care literals of an implicant value vector, in position
  order: ONE at i gives `V i`, ZERO gives `Neg (V i)`, EITHER is skipped
  (solver.py lines 340-346). -/
def impLiterals (vs : List Nat) : List Ast :=
  vs.enum.filterMap (fun p =>
    if p.2 = ONE then some (Ast.V p.1)
    else if p.2 = ZERO then some (Ast.Neg (Ast.V p.1))
    else none)

/-- One sum term per implicant: the product of its literals, or the
  constant 1 when there is no literal (solver.py lines 339-351). -/
def impTerm (imp : ImpData) : Ast :=
  let lits := impLiterals imp.Values
  if lits.length = 0 then Ast.K 1 else Ast.Prod lits

/-- imp_list_to_ast (solver.py lines 298-357). -/
def imp_list_to_ast (imps : List ImpData) : Ast :=
  match imps with
  | [] => Ast.K 0
  | _ =>
    let terms := imps.map impTerm
    match terms with
    | [t] => t
    | ts => Ast.Sum ts

/-! ### solve_system (solve.py lines 4-155)

  The matrix is a list of equal-length rows.  Out-of-range Python list
  subscripts raise IndexError, modelled with Option. -/

/-- The JK excitation pair appended for one state bit with current value
  a and next value b (solve.py lines 83-101).  The final branch of the
  source is an else catching everything outside the three explicit
  cases. -/
def jkOf (a b : Nat) : List Nat :=
  if a = 0 ∧ b = 1 then [1, EITHER]
  else if a = 0 ∧ b = 0 then [0, EITHER]
  else if a = 1 ∧ b = 0 then [EITHER, 1]
  else [EITHER, 0]

/-- The transcription of one data row into the solve matrix row format
  `inputs ++ current states ++ outputs ++ JK pairs`
  (solve.py lines 62-101). -/
def transcribeRow (row : List Nat) (input_i state_i output_i nstate_i : List Nat) :
    Option (List Nat) := do
  let ins ← omap (fun i => row.get? i) input_i
  let sts ← omap (fun i => row.get? i) state_i
  let outs ← omap (fun i => row.get? i) output_i
  let jks ← omap (fun k => do
      let si ← state_i.get? k
      let nsi ← nstate_i.get? k
      let a ← row.get? si
      let b ← row.get? nsi
      pure (jkOf a b)) (List.range nstate_i.length)
  pure (ins ++ sts ++ outs ++ jks.flatten)

/-- The whole transcribed matrix (solve.py lines 55-105): ncols columns
  per row; positions beyond the transcribed entries keep the fill value
  0; a transcribed row longer than ncols would make set_val raise. -/
def transcribeMatrix (m : List (List Nat)) (input_i state_i output_i nstate_i : List Nat) :
    Option (List (List Nat)) :=
  let ncols := input_i.length + output_i.length + state_i.length * 3
  omap (fun row => do
    let nr ← transcribeRow row input_i state_i output_i nstate_i
    if nr.length ≤ ncols then pure (nr ++ List.replicate (ncols - nr.length) 0)
    else none) m

/-- One minimize-and-render step shared by every target column
  (solve.py lines 125-131 and analogues). -/
def solveColumn (new_m : List (List Nat)) (col : Nat)
    (idxs : List Nat) (names : List String) : Option String := do
  let ast ← simplify_ast (imp_list_to_ast (solve_and_or new_m col idxs))
  pure (ast_to_string names ast)

/-- solve_system (solve.py lines 4-155): transcribe the matrix, then for
  each state variable solve the J and the K excitation columns, then for
  each output solve its column; results are labelled
  (state name ++ _J / _K, expression) and (output name, expression). -/
def solve_system (m : List (List Nat)) (input_i output_i state_i nstate_i : List Nat)
    (input_n output_n state_n : List String) :
    Option (List (String × String)) := do
  let new_m ← transcribeMatrix m input_i state_i output_i nstate_i
  let all_input_index_list :=
    (List.range input_i.length) ++
      (List.range state_i.length).map (fun i => input_i.length + i)
  let inNames ← omap (fun i => input_n.get? i) (List.range input_i.length)
  let stNames ← omap (fun i => state_n.get? i) (List.range state_i.length)
  let all_input_name_list := inNames ++ stNames
  let jkResults ← omap (fun st => do
      let sJ ← solveColumn new_m
          (input_i.length + state_i.length + output_i.length + 2 * st)
          all_input_index_list all_input_name_list
      let nmJ ← state_n.get? st
      let sK ← solveColumn new_m
          (input_i.length + state_i.length + output_i.length + 2 * st + 1)
          all_input_index_list all_input_name_list
      let nmK ← state_n.get? st
      pure [(nmJ ++ "_J", sJ), (nmK ++ "_K", sK)]) (List.range state_i.length)
  let outResults ← omap (fun oi => do
      let s ← solveColumn new_m (input_i.length + state_i.length + oi)
          all_input_index_list all_input_name_list
      let nm ← output_n.get? oi
      pure (nm, s)) (List.range output_i.length)
  pure (jkResults.flatten ++ outResults)

/-! ### Specification-side definitions

  The following definitions transcribe sentences of the specification
  (not the source); the claims compare them with the source embedding
  above. -/

/-- Modelled from the spec: the excitation table of section 4.1,
  (a,b) = (0,1) gives (1, DONT_CARE); (0,0) gives (0, DONT_CARE);
  (1,0) gives (DONT_CARE, 1); (1,1) gives (DONT_CARE, 0). -/
def jkSpecTable : Nat → Nat → Nat × Nat
  | 0, 1 => (1, EITHER)
  | 0, 0 => (0, EITHER)
  | 1, 0 => (EITHER, 1)
  | 1, 1 => (EITHER, 0)
  | _, _ => (EITHER, EITHER)

/-- Modelled from the spec (section 4.3): the non-DONT_CARE literals of a
  value vector starting at variable index i. -/
def specLitsAux : Nat → List Nat → List Ast
  | _, [] => []
  | i, v :: vs =>
      if v = ONE then Ast.V i :: specLitsAux (i + 1) vs
      else if v = ZERO then Ast.Neg (Ast.V i) :: specLitsAux (i + 1) vs
      else specLitsAux (i + 1) vs

/-- Modelled from the spec (section 4.3): one Product per EPI from its
  non-DONT_CARE literals, Constant 1 for an EPI without literals,
  Constant 0 for the empty list, and a singleton sum collapses. -/
def builderSpec (imps : List ImpData) : Ast :=
  if imps.isEmpty then Ast.K 0
  else
    let ts := imps.map (fun imp =>
      match specLitsAux 0 imp.Values with
      | [] => Ast.K 1
      | ls => Ast.Prod ls)
    if ts.length = 1 then ts.headD default else Ast.Sum ts

/-- Modelled from the spec (section 4.4): the best-candidate fold that
  keeps the first discovered candidate on ties, i.e. updates only on a
  strictly larger score. -/
def firstBestSpec (cands : List Cand) : Option Cand :=
  (cands.foldl (fun s c =>
    if s.2 < candScore c then (some c, candScore c) else s)
    ((none : Option Cand), 0)).1

/-- The number of positions where two equal-length vectors differ. -/
def countDiffL : List Nat → List Nat → Nat
  | x :: xs, y :: ys => (if x = y then 0 else 1) + countDiffL xs ys
  | _, _ => 0

/-- A (boolean) assignment v satisfies an implicant value vector vs when
  they have the same length and every non-EITHER position agrees. -/
def satL : List Nat → List Nat → Prop
  | [], [] => True
  | x :: xs, v :: vv => (x = EITHER ∨ v = x) ∧ satL xs vv
  | _, _ => False

/-- Semantic well-formedness of a generated implicant over n variables
  with respect to a cube property P: its values have length n and range
  over the tri-state alphabet, and every boolean assignment inside its
  cube satisfies P. -/
def CubeOK (P : List Nat → Prop) (n : Nat) (imp : ImpData) : Prop :=
  imp.Values.length = n ∧ (∀ x ∈ imp.Values, x = 0 ∨ x = 1 ∨ x = 2) ∧
  ∀ v, v.length = n → (∀ y ∈ v, y = 0 ∨ y = 1) → satL imp.Values v → P v

/-- All arena entries are cube-correct. -/
def ArenaOK (P : List Nat → Prop) (n : Nat) (imps : List ImpData) : Prop :=
  ∀ imp ∈ imps, CubeOK P n imp

/-- Bucket indices are valid and sorted by OneCount. -/
def BucketsOK (imps : List ImpData) (buckets : Nat → List Nat) : Prop :=
  ∀ k, ∀ i ∈ buckets k, i < imps.length ∧
    oneCount ((imps.getD i default).Values) = k

/-- Join-phase invariant: the arena extends the level-start arena, all
  entries are cube-correct, and the next-level buckets are valid. -/
def LInv (P : List Nat → Prop) (n : Nat) (base : List ImpData) (st : LSt) : Prop :=
  (∃ ext, st.imps = base ++ ext) ∧ ArenaOK P n st.imps ∧
  BucketsOK st.imps st.nextB

/-- Whole-algorithm invariant between levels. -/
def GInv (P : List Nat → Prop) (n : Nat) (g : GSt) : Prop :=
  ArenaOK P n g.imps ∧ BucketsOK g.imps g.buckets ∧
  ∀ i ∈ g.epis, i < g.imps.length

/-! ### Termination measures for the simplifier (verification apparatus)

  The stability proof for simpSum uses the weight 2 * literals + size of
  a node and the number of top-level sum terms; each recursive call of
  the simplifier strictly decreases the pair (term count, weight)
  lexicographically. -/

/-- Node weight: twice the literal count plus the node size. -/
def muA (t : Ast) : Nat := 2 * litCount t + sizeA t

/-- List weight. -/
def muL (l : List Ast) : Nat := 2 * litCountList l + sizeListA l

/-- Weight of a raw child entry; integer payloads weigh nothing. -/
def muV : PyVal → Nat
  | PyVal.node a => muA a
  | PyVal.int _ => 0

/-- Weight of a raw child list. -/
def muVL : List PyVal → Nat
  | [] => 0
  | v :: vs => muV v + muVL vs

/-- The number of top-level terms of a sum; zero for any other node. -/
def countT : Ast → Nat
  | Ast.Sum l => l.length
  | _ => 0

/-- Positional selection: the elements whose position satisfies q, in
  order.  selIn jw l is gsel over the contains test (proved below). -/
def gsel (q : Nat → Bool) : List Ast → List Ast
  | [] => []
  | a :: l => (if q 0 then [a] else []) ++ gsel (fun i => q (i + 1)) l

/-- Positional co-selection: the elements whose position fails q. -/
def gselN (q : Nat → Bool) : List Ast → List Ast
  | [] => []
  | a :: l => (if q 0 then [] else [a]) ++ gselN (fun i => q (i + 1)) l

/-! ### Cover-soundness invariants for the join engine (verification
  apparatus for C1)

  The liveness argument tracks, for the assignment v of a non-optional
  input minterm, an uncovered non-optional implicant whose cube contains
  v, through joins (the child or its hash twin takes over), emission
  (surviving current-level witnesses become EPIs) and the false-EPI
  heuristic (the cover counts guarantee a replacement witness). -/

/-- The number of DONT_CARE entries of a value vector. -/
def eitherCount (vs : List Nat) : Nat := vs.countP (fun v => v = EITHER)

/-- Per-implicant lineage invariant: well-formed values, duplicate-free
  lineage of valid minterm indices whose assignments lie in the cube,
  optionality forced by an all-optional lineage, and every boolean
  assignment of the cube realised by some lineage minterm. -/
def NodeOK (mt : List (List Nat × Bool)) (n : Nat) (imp : ImpData) : Prop :=
  imp.Values.length = n ∧ (∀ x ∈ imp.Values, x = 0 ∨ x = 1 ∨ x = 2) ∧
  imp.Minterms.Nodup ∧
  (∀ mi ∈ imp.Minterms, mi < mt.length ∧
    satL imp.Values ((mt.getD mi default).1) ∧
    (imp.Optional = true → (mt.getD mi default).2 = true)) ∧
  (∀ v, v.length = n → (∀ y ∈ v, y = 0 ∨ y = 1) → satL imp.Values v →
    ∃ mi ∈ imp.Minterms, (mt.getD mi default).1 = v)

/-- All arena entries satisfy the lineage invariant. -/
def ANodeOK (mt : List (List Nat × Bool)) (n : Nat) (imps : List ImpData) : Prop :=
  ∀ imp ∈ imps, NodeOK mt n imp

/-- Next-level bucket invariant: entries are fresh duplicate-free arena
  indices bucketed by OneCount, all at DONT_CARE level lvl. -/
def BOK2 (base lvl : Nat) (imps : List ImpData) (nb : Nat → List Nat) : Prop :=
  (∀ k, ∀ j ∈ nb k, base ≤ j ∧ j < imps.length ∧
    oneCount ((imps.getD j default).Values) = k ∧
    eitherCount ((imps.getD j default).Values) = lvl) ∧
  (∀ k, (nb k).Nodup)

/-- Indices beyond the arena are not yet Covered. -/
def CovFresh (len : Nat) (cov : Nat → Bool) : Prop :=
  ∀ j, len ≤ j → cov j = false

/-- Every recorded hash belongs to some next-level bucket entry. -/
def HashOK (imps : List ImpData) (nb : Nat → List Nat) (hs : List Nat) : Prop :=
  ∀ h ∈ hs, ∃ k, ∃ j ∈ nb k, hashOf ((imps.getD j default).Values) = h

/-- All next-level entries in one list (bucket order). -/
def pendingList (n : Nat) (nb : Nat → List Nat) : List Nat :=
  (List.range (n + 1)).flatMap nb

/-- How many uncovered entries of l carry minterm m in their lineage. -/
def pendingOcc (imps : List ImpData) (cov : Nat → Bool) (l : List Nat)
    (m : Nat) : Nat :=
  l.countP (fun j => !cov j && decide (m ∈ (imps.getD j default).Minterms))

/-- The cover counts never exceed the uncovered lineage occurrences. -/
def CntLe (n : Nat) (st : LSt) : Prop :=
  ∀ m, st.cnt m ≤ pendingOcc st.imps st.cov (pendingList n st.nextB) m

/-- No next-level entry is Covered (during the join phase). -/
def NextUncov (st : LSt) : Prop :=
  ∀ k, ∀ j ∈ st.nextB k, st.cov j = false

/-- A live bucket witness for assignment v: an uncovered non-optional
  implicant whose cube contains v. -/
def BWit (v : List Nat) (imps : List ImpData) (cov : Nat → Bool)
    (b : Nat → List Nat) : Prop :=
  ∃ k, ∃ i ∈ b k, cov i = false ∧ (imps.getD i default).Optional = false ∧
    satL ((imps.getD i default).Values) v

/-- An emitted witness for assignment v. -/
def EWit (v : List Nat) (imps : List ImpData) (epis : List Nat) : Prop :=
  ∃ i ∈ epis, satL ((imps.getD i default).Values) v

/-- Liveness between levels. -/
def LiveG (v : List Nat) (g : GSt) : Prop :=
  EWit v g.imps g.epis ∨ BWit v g.imps g.cov g.buckets

/-- Current-level bucket facts. -/
def CurOK (base : List ImpData) (lvl : Nat) (curB : Nat → List Nat) : Prop :=
  ∀ k, ∀ i ∈ curB k, i < base.length ∧
    oneCount ((base.getD i default).Values) = k ∧
    eitherCount ((base.getD i default).Values) = lvl

/-- The join-phase invariant for C1. -/
def LInv1 (mt : List (List Nat × Bool)) (n lvl : Nat) (v : List Nat)
    (E : Prop) (base : List ImpData) (curB : Nat → List Nat) (st : LSt) : Prop :=
  (∃ ext, st.imps = base ++ ext) ∧
  ANodeOK mt n st.imps ∧
  BOK2 base.length (lvl + 1) st.imps st.nextB ∧
  CovFresh st.imps.length st.cov ∧
  NextUncov st ∧
  HashOK st.imps st.nextB st.hashes ∧
  CntLe n st ∧
  (E ∨ BWit v st.imps st.cov curB ∨ BWit v st.imps st.cov st.nextB)

/-- A heuristic-phase witness in lineage form. -/
def HWit (v : List Nat) (mt : List (List Nat × Bool)) (st : LSt) : Prop :=
  ∃ k, ∃ j ∈ st.nextB k, st.cov j = false ∧
    (st.imps.getD j default).Optional = false ∧
    ∃ mi ∈ (st.imps.getD j default).Minterms, (mt.getD mi default).1 = v

/-- The global invariant between levels for C1. -/
def GOK (mt : List (List Nat × Bool)) (n lvl : Nat) (g : GSt) : Prop :=
  ANodeOK mt n g.imps ∧
  CurOK g.imps lvl g.buckets ∧
  CovFresh g.imps.length g.cov ∧
  (∀ i ∈ g.epis, i < g.imps.length)

/-! ## Theorems -/

/-! ### Generic lemmas about the Option combinators -/

theorem omap_length {α β : Type} {f : α → Option β} :
    ∀ {l : List α} {l2 : List β}, omap f l = some l2 → l2.length = l.length := by
  intro l
  induction l with
  | nil => intro l2 h; simp only [omap] at h; cases h; rfl
  | cons x xs ih =>
      intro l2 h
      simp only [omap, Option.bind_eq_bind] at h
      rcases Option.bind_eq_some.mp h with ⟨y, _, h2⟩
      rcases Option.bind_eq_some.mp h2 with ⟨ys, hys, h3⟩
      cases h3
      simp [ih hys]

theorem omap_get {α β : Type} {f : α → Option β} :
    ∀ {l : List α} {l2 : List β} {k : Nat} {x : α},
      omap f l = some l2 → l.get? k = some x → l2.get? k = f x := by
  intro l
  induction l with
  | nil => intro l2 k x _ hx; simp at hx
  | cons a xs ih =>
      intro l2 k x h hx
      simp only [omap, Option.bind_eq_bind] at h
      rcases Option.bind_eq_some.mp h with ⟨y, hy, h2⟩
      rcases Option.bind_eq_some.mp h2 with ⟨ys, hys, h3⟩
      cases h3
      cases k with
      | zero => simp at hx; cases hx; simpa using hy.symm
      | succ k => simp only [List.get?_cons_succ] at hx ⊢; exact ih hys hx

theorem omap_mem {α β : Type} {f : α → Option β} :
    ∀ {l : List α} {l2 : List β} {y : β},
      omap f l = some l2 → y ∈ l2 → ∃ x ∈ l, f x = some y := by
  intro l
  induction l with
  | nil => intro l2 y h hy; simp only [omap] at h; cases h; simp at hy
  | cons a xs ih =>
      intro l2 y h hy
      simp only [omap, Option.bind_eq_bind] at h
      rcases Option.bind_eq_some.mp h with ⟨b, hb, h2⟩
      rcases Option.bind_eq_some.mp h2 with ⟨ys, hys, h3⟩
      cases h3
      rcases List.mem_cons.mp hy with rfl | hy2
      · exact ⟨a, List.mem_cons_self a xs, hb⟩
      · rcases ih hys hy2 with ⟨x, hx, hfx⟩
        exact ⟨x, List.mem_cons_of_mem a hx, hfx⟩

/-! ### Claim C10: the expression builder -/

theorem specLitsAux_eq (vs : List Nat) :
    ∀ i : Nat,
      (List.enumFrom i vs).filterMap (fun p =>
        if p.2 = ONE then some (Ast.V p.1)
        else if p.2 = ZERO then some (Ast.Neg (Ast.V p.1))
        else none) = specLitsAux i vs := by
  induction vs with
  | nil => intro i; rfl
  | cons v vs ih =>
      intro i
      have hf : (fun p : Nat × Nat => if p.2 = ONE then some (Ast.V p.1)
          else if p.2 = ZERO then some (Ast.Neg (Ast.V p.1)) else none) (i, v)
          = if v = ONE then some (Ast.V i)
            else if v = ZERO then some (Ast.Neg (Ast.V i)) else none := rfl
      simp only [List.enumFrom, List.filterMap_cons, hf, specLitsAux]
      by_cases h1 : v = ONE
      · rw [if_pos h1, if_pos h1]
        exact congrArg (fun l => Ast.V i :: l) (ih (i + 1))
      · by_cases h0 : v = ZERO
        · rw [if_neg h1, if_neg h1, if_pos h0, if_pos h0]
          exact congrArg (fun l => Ast.Neg (Ast.V i) :: l) (ih (i + 1))
        · rw [if_neg h1, if_neg h1, if_neg h0, if_neg h0]
          exact ih (i + 1)

theorem impLiterals_eq_spec (vs : List Nat) : impLiterals vs = specLitsAux 0 vs := by
  simpa [impLiterals, List.enum] using specLitsAux_eq vs 0

theorem impTerm_eq_spec (imp : ImpData) :
    impTerm imp = (match specLitsAux 0 imp.Values with
      | [] => Ast.K 1
      | ls => Ast.Prod ls) := by
  unfold impTerm
  rw [impLiterals_eq_spec]
  cases specLitsAux 0 imp.Values with
  | nil => simp
  | cons a l => simp

/-- C10: imp_list_to_ast maps the empty EPI list to Constant 0; maps
  each EPI to a Product of its non-DONT_CARE literals with ONE at
  position i giving Variable i and ZERO giving Negation (Variable i);
  maps an EPI with no non-DONT_CARE literal to Constant 1; and a
  singleton sum collapses to its single term.  Stated as agreement with
  the independently written specification-side builder. -/
theorem claim_C10_builder (imps : List ImpData) :
    imp_list_to_ast imps = builderSpec imps := by
  have hmap : imps.map impTerm = imps.map (fun imp =>
      match specLitsAux 0 imp.Values with
      | [] => Ast.K 1
      | ls => Ast.Prod ls) := by
    induction imps with
    | nil => rfl
    | cons x xs ih => simp only [List.map_cons, impTerm_eq_spec x, ih]
  cases imps with
  | nil => rfl
  | cons a rest =>
      cases rest with
      | nil =>
          have h1 : imp_list_to_ast [a] = impTerm a := rfl
          rw [h1, impTerm_eq_spec a]; rfl
      | cons b r2 =>
          have h1 : imp_list_to_ast (a :: b :: r2) =
              Ast.Sum ((a :: b :: r2).map impTerm) := rfl
          rw [h1, hmap]
          unfold builderSpec
          rw [if_neg (by simp)]
          rw [if_neg (by simp)]

/-! ### Claim C3: the excitation encoding -/

theorem jkOf_length (a b : Nat) : (jkOf a b).length = 2 := by
  unfold jkOf
  by_cases h1 : a = 0 ∧ b = 1 <;> by_cases h2 : a = 0 ∧ b = 0 <;>
    by_cases h3 : a = 1 ∧ b = 0 <;> simp [h1, h2, h3]

theorem jkOf_eq_specTable {a b : Nat}
    (ha : a = 0 ∨ a = 1) (hb : b = 0 ∨ b = 1) :
    jkOf a b = [(jkSpecTable a b).1, (jkSpecTable a b).2] := by
  rcases ha with rfl | rfl <;> rcases hb with rfl | rfl <;> rfl

theorem flatten_pairs_get :
    ∀ (ls : List (List Nat)) (k : Nat) (x y : Nat),
      (∀ l ∈ ls, l.length = 2) → ls.get? k = some [x, y] →
      ls.flatten.get? (2 * k) = some x ∧ ls.flatten.get? (2 * k + 1) = some y := by
  intro ls
  induction ls with
  | nil => intro k x y _ h; simp at h
  | cons l rest ih =>
      intro k x y hlen hk
      cases k with
      | zero =>
          simp only [List.get?_cons_zero] at hk
          cases hk
          simp [List.flatten_cons]
      | succ k =>
          simp only [List.get?_cons_succ] at hk
          have hl2 : l.length = 2 := hlen l (List.mem_cons_self l rest)
          have hrest : ∀ l2 ∈ rest, l2.length = 2 :=
            fun l2 h2 => hlen l2 (List.mem_cons_of_mem l h2)
          have := ih k x y hrest hk
          constructor
          · rw [List.flatten_cons, List.get?_append_right (by omega)]
            have : 2 * (k + 1) - l.length = 2 * k := by omega
            rw [this]
            exact (ih k x y hrest hk).1
          · rw [List.flatten_cons, List.get?_append_right (by omega)]
            have : 2 * (k + 1) + 1 - l.length = 2 * k + 1 := by omega
            rw [this]
            exact (ih k x y hrest hk).2

/-- C3: for every row transcribed by solve_system (solve.py lines
  62-105) and every state-bit position k with current value a and next
  value b, both boolean, the transcribed row holds exactly the two
  tri-state values of the specification excitation table as the J and K
  columns of that state bit, as a pure mapping depending only on (a,b). -/
theorem claim_C3_excitation
    (row input_i state_i output_i nstate_i nr : List Nat)
    (k si nsi a b : Nat)
    (ht : transcribeRow row input_i state_i output_i nstate_i = some nr)
    (hsi : state_i.get? k = some si) (hnsi : nstate_i.get? k = some nsi)
    (ha : row.get? si = some a) (hb : row.get? nsi = some b)
    (ha01 : a = 0 ∨ a = 1) (hb01 : b = 0 ∨ b = 1) :
    nr.get? (input_i.length + state_i.length + output_i.length + 2 * k) =
        some (jkSpecTable a b).1 ∧
    nr.get? (input_i.length + state_i.length + output_i.length + 2 * k + 1) =
        some (jkSpecTable a b).2 := by
  unfold transcribeRow at ht
  simp only [Option.bind_eq_bind] at ht
  rcases Option.bind_eq_some.mp ht with ⟨ins, hins, ht2⟩
  rcases Option.bind_eq_some.mp ht2 with ⟨sts, hsts, ht3⟩
  rcases Option.bind_eq_some.mp ht3 with ⟨outs, houts, ht4⟩
  rcases Option.bind_eq_some.mp ht4 with ⟨jks, hjks, ht5⟩
  simp only [Option.pure_def, Option.some_inj] at ht5
  subst ht5
  have hkn : k < nstate_i.length := by
    rcases List.get?_eq_some.mp hnsi with ⟨h, _⟩
    exact h
  have hjk : jks.get? k = some (jkOf a b) := by
    have hrk : (List.range nstate_i.length).get? k = some k :=
      List.get?_range hkn
    have h2 := omap_get hjks hrk
    simp only [hsi, hnsi, ha, hb, Option.some_bind, Option.pure_def] at h2
    exact h2
  have hjlens : ∀ l ∈ jks, l.length = 2 := by
    intro l hl
    rcases omap_mem hjks hl with ⟨x, _, hfx⟩
    rcases Option.bind_eq_some.mp hfx with ⟨si2, _, hfx2⟩
    rcases Option.bind_eq_some.mp hfx2 with ⟨nsi2, _, hfx3⟩
    rcases Option.bind_eq_some.mp hfx3 with ⟨a2, _, hfx4⟩
    rcases Option.bind_eq_some.mp hfx4 with ⟨b2, _, hfx5⟩
    simp only [Option.pure_def, Option.some_inj] at hfx5
    rw [← hfx5]
    exact jkOf_length a2 b2
  have hjk2 : jks.get? k = some [(jkSpecTable a b).1, (jkSpecTable a b).2] := by
    rw [hjk, jkOf_eq_specTable ha01 hb01]
  have hflat := flatten_pairs_get jks k _ _ hjlens hjk2
  have hI : ins.length = input_i.length := omap_length hins
  have hS : sts.length = state_i.length := omap_length hsts
  have hO : outs.length = output_i.length := omap_length houts
  have hlen3 : (ins ++ sts ++ outs).length =
      input_i.length + state_i.length + output_i.length := by
    simp only [List.length_append, hI, hS, hO]
  constructor
  · rw [List.get?_append_right (by omega)]
    have heq : input_i.length + state_i.length + output_i.length + 2 * k -
        (ins ++ sts ++ outs).length = 2 * k := by omega
    rw [heq]
    exact hflat.1
  · rw [List.get?_append_right (by omega)]
    have heq : input_i.length + state_i.length + output_i.length + 2 * k + 1 -
        (ins ++ sts ++ outs).length = 2 * k + 1 := by omega
    rw [heq]
    exact hflat.2

/-! ### Claim C4: result ordering of solve_system -/

theorem getD_of_get? {α : Type} (l : List α) (n : Nat) (d x : α)
    (h : l.get? n = some x) : l.getD n d = x := by
  induction l generalizing n with
  | nil => simp at h
  | cons a xs ih =>
      cases n with
      | zero => simp at h; simp [List.getD, h]
      | succ n =>
          simp only [List.get?_cons_succ] at h
          simpa [List.getD] using ih n h

theorem omap_map_rel {α β γ : Type} {f : α → Option β} {g : β → γ} {spec : α → γ} :
    ∀ {l : List α} {l2 : List β},
      omap f l = some l2 → (∀ x ∈ l, ∀ y, f x = some y → g y = spec x) →
      l2.map g = l.map spec := by
  intro l
  induction l with
  | nil => intro l2 h _; simp only [omap] at h; cases h; rfl
  | cons a xs ih =>
      intro l2 h hrel
      simp only [omap, Option.bind_eq_bind] at h
      rcases Option.bind_eq_some.mp h with ⟨y, hy, h2⟩
      rcases Option.bind_eq_some.mp h2 with ⟨ys, hys, h3⟩
      cases h3
      simp only [List.map_cons]
      rw [hrel a (List.mem_cons_self a xs) y hy,
        ih hys (fun x hx => hrel x (List.mem_cons_of_mem a hx))]

/-- C4 counterexample: at a concrete one-row system with one output and
  one state variable, solve_system returns the excitation entries first
  and the output entry last, not the output-first order the claim
  states. -/
theorem claim_C4_counterexample :
    (solve_system [[0,1,0]] [] [1] [0] [2] [] ["x"] ["i"]).map
        (fun res => res.map Prod.fst) = some ["i_J", "i_K", "x"] ∧
    (["i_J", "i_K", "x"] : List String) ≠ ["x", "i_J", "i_K"] := by
  exact ⟨rfl, by decide⟩

/-- C4 amended: the result list of solve_system is ordered with each
  state variable's J and K excitation entries first (in caller-requested
  state order), followed by one entry per output signal (in
  caller-requested output order). -/
theorem claim_C4_amended
    (m : List (List Nat)) (input_i output_i state_i nstate_i : List Nat)
    (input_n output_n state_n : List String) (res : List (String × String))
    (h : solve_system m input_i output_i state_i nstate_i input_n output_n state_n
      = some res) :
    res.map Prod.fst =
      ((List.range state_i.length).map (fun st =>
        [state_n.getD st "" ++ "_J", state_n.getD st "" ++ "_K"])).flatten ++
      (List.range output_i.length).map (fun oi => output_n.getD oi "") := by
  unfold solve_system at h
  rcases Option.bind_eq_some.mp h with ⟨new_m, hm, h2⟩
  rcases Option.bind_eq_some.mp h2 with ⟨inNames, hin, h3⟩
  rcases Option.bind_eq_some.mp h3 with ⟨stNames, hst, h4⟩
  rcases Option.bind_eq_some.mp h4 with ⟨jkResults, hjk, h5⟩
  rcases Option.bind_eq_some.mp h5 with ⟨outResults, hout, h6⟩
  simp only [Option.pure_def, Option.some_inj] at h6
  subst h6
  have hjkmap : jkResults.map (fun grp => grp.map Prod.fst) =
      (List.range state_i.length).map (fun st =>
        [state_n.getD st "" ++ "_J", state_n.getD st "" ++ "_K"]) := by
    refine omap_map_rel hjk ?_
    intro st _ y hy
    rcases Option.bind_eq_some.mp hy with ⟨sJ, _, hy2⟩
    rcases Option.bind_eq_some.mp hy2 with ⟨nmJ, hnmJ, hy3⟩
    rcases Option.bind_eq_some.mp hy3 with ⟨sK, _, hy4⟩
    rcases Option.bind_eq_some.mp hy4 with ⟨nmK, hnmK, hy5⟩
    simp only [Option.pure_def, Option.some_inj] at hy5
    subst hy5
    have hkk : nmK = nmJ := by
      rw [hnmJ] at hnmK
      exact (Option.some_inj.mp hnmK).symm
    subst hkk
    have h2 : state_n[st]? = some nmK := by
      rw [← List.get?_eq_getElem?]
      exact hnmJ
    simp [h2]
  have houtmap : outResults.map Prod.fst =
      (List.range output_i.length).map (fun oi => output_n.getD oi "") := by
    refine omap_map_rel hout ?_
    intro oi _ y hy
    rcases Option.bind_eq_some.mp hy with ⟨s, _, hy2⟩
    rcases Option.bind_eq_some.mp hy2 with ⟨nm, hnm, hy3⟩
    simp only [Option.pure_def, Option.some_inj] at hy3
    subst hy3
    have h2 : output_n[oi]? = some nm := by
      rw [← List.get?_eq_getElem?]
      exact hnm
    simp [h2]
  rw [List.map_append, ← houtmap, ← hjkmap, List.map_flatten]

/-- Witness for the amended C4 at a concrete input. -/
theorem claim_C4_amended_witness :
    (solve_system [[0,1,0]] [] [1] [0] [2] [] ["x"] ["i"] =
      some [("i_J", "0"), ("i_K", "0"), ("x", "i" ++ primeStr)]) ∧
    ([("i_J", "0"), ("i_K", "0"), ("x", "i" ++ primeStr)].map Prod.fst =
      ((List.range ([0] : List Nat).length).map (fun st =>
        [["i"].getD st "" ++ "_J", ["i"].getD st "" ++ "_K"])).flatten ++
      (List.range ([1] : List Nat).length).map (fun oi => ["x"].getD oi "")) :=
  ⟨rfl, claim_C4_amended [[0,1,0]] [] [1] [0] [2] [] ["x"] ["i"] _ rfl⟩

/-! ### Claim C5: mismatched state-column lists -/

theorem omap_some_of_forall {α β : Type} {f : α → Option β} :
    ∀ {l : List α}, (∀ x ∈ l, ∃ y, f x = some y) → ∃ l2, omap f l = some l2 := by
  intro l
  induction l with
  | nil => intro _; exact ⟨[], rfl⟩
  | cons a xs ih =>
      intro h
      rcases h a (List.mem_cons_self a xs) with ⟨y, hy⟩
      rcases ih (fun x hx => h x (List.mem_cons_of_mem a hx)) with ⟨ys, hys⟩
      exact ⟨y :: ys, by simp [omap, hy, hys]⟩

theorem length_flatten_pairs :
    ∀ (ls : List (List Nat)), (∀ x ∈ ls, x.length = 2) →
      ls.flatten.length = 2 * ls.length := by
  intro ls
  induction ls with
  | nil => intro _; rfl
  | cons l rest ih =>
      intro h
      have h1 : l.length = 2 := h l (List.mem_cons_self l rest)
      have h2 := ih (fun x hx => h x (List.mem_cons_of_mem l hx))
      simp only [List.flatten_cons, List.length_append, List.length_cons, h1, h2]
      omega

/-- C5 counterexample: with mismatched state lists (two current-state
  columns, one next-state column) solve_system raises nothing, runs
  minimization, and returns a complete result list. -/
theorem claim_C5_counterexample :
    solve_system [[0,0,0]] [] [] [0,1] [2] [] [] ["p","q"] =
      some [("p_J","0"), ("p_K","0"), ("q_J","0"), ("q_K","0")] ∧
    ([0,1] : List Nat).length ≠ ([2] : List Nat).length :=
  ⟨rfl, by decide⟩

/-- C5 amended: solve_system performs no length validation of the
  state-column lists.  Whenever the next-state list is no longer than
  the current-state list and all referenced column indices are in range,
  the row transcription succeeds for every row (missing excitation
  columns keep the fill value 0), so minimization is reached and a
  result list is produced rather than a configuration error; only a
  longer next-state list makes the per-row transcription fail with an
  index error. -/
theorem claim_C5_amended
    (m : List (List Nat)) (input_i state_i output_i nstate_i : List Nat)
    (hlen : nstate_i.length ≤ state_i.length)
    (hbound : ∀ row ∈ m, (∀ i ∈ input_i, i < row.length) ∧
      (∀ i ∈ state_i, i < row.length) ∧ (∀ i ∈ output_i, i < row.length) ∧
      (∀ i ∈ nstate_i, i < row.length)) :
    ∃ nm, transcribeMatrix m input_i state_i output_i nstate_i = some nm := by
  unfold transcribeMatrix
  refine omap_some_of_forall ?_
  intro row hrow
  rcases hbound row hrow with ⟨hbi, hbs, hbo, hbn⟩
  have hget : ∀ (idxs : List Nat), (∀ i ∈ idxs, i < row.length) →
      ∃ l2, omap (fun i => row.get? i) idxs = some l2 := by
    intro idxs hb
    refine omap_some_of_forall ?_
    intro i hi
    exact ⟨row.get (⟨i, hb i hi⟩ : Fin row.length), List.get?_eq_get (hb i hi)⟩
  rcases hget input_i hbi with ⟨ins, hins⟩
  rcases hget state_i hbs with ⟨sts, hsts⟩
  rcases hget output_i hbo with ⟨outs, houts⟩
  have hjks : ∃ jks, omap (fun k => do
      let si ← state_i.get? k
      let nsi ← nstate_i.get? k
      let a ← row.get? si
      let b ← row.get? nsi
      pure (jkOf a b)) (List.range nstate_i.length) = some jks := by
    refine omap_some_of_forall ?_
    intro k hk
    have hk2 : k < nstate_i.length := List.mem_range.mp hk
    have hk3 : k < state_i.length := lt_of_lt_of_le hk2 hlen
    have hsi : state_i.get? k = some (state_i.get ⟨k, hk3⟩) := List.get?_eq_get hk3
    have hnsi : nstate_i.get? k = some (nstate_i.get ⟨k, hk2⟩) := List.get?_eq_get hk2
    have hsival : state_i.get ⟨k, hk3⟩ ∈ state_i := List.get_mem state_i k hk3
    have hnsival : nstate_i.get ⟨k, hk2⟩ ∈ nstate_i := List.get_mem nstate_i k hk2
    have hra : row.get? (state_i.get ⟨k, hk3⟩) =
        some (row.get ⟨state_i.get ⟨k, hk3⟩, hbs _ hsival⟩) :=
      List.get?_eq_get (hbs _ hsival)
    have hrb : row.get? (nstate_i.get ⟨k, hk2⟩) =
        some (row.get ⟨nstate_i.get ⟨k, hk2⟩, hbn _ hnsival⟩) :=
      List.get?_eq_get (hbn _ hnsival)
    refine ⟨jkOf (row.get ⟨state_i.get ⟨k, hk3⟩, hbs (state_i.get ⟨k, hk3⟩) hsival⟩)
        (row.get ⟨nstate_i.get ⟨k, hk2⟩, hbn (nstate_i.get ⟨k, hk2⟩) hnsival⟩), ?_⟩
    simp only [Option.bind_eq_bind, hsi, hnsi, hra, hrb, Option.some_bind,
      Option.pure_def]
  rcases hjks with ⟨jks, hjks⟩
  simp only [Option.bind_eq_bind] at hjks
  have hjlens : ∀ l ∈ jks, l.length = 2 := by
    intro l hl
    rcases omap_mem hjks hl with ⟨x, _, hfx⟩
    rcases Option.bind_eq_some.mp hfx with ⟨si2, _, hfx2⟩
    rcases Option.bind_eq_some.mp hfx2 with ⟨nsi2, _, hfx3⟩
    rcases Option.bind_eq_some.mp hfx3 with ⟨a2, _, hfx4⟩
    rcases Option.bind_eq_some.mp hfx4 with ⟨b2, _, hfx5⟩
    simp only [Option.pure_def, Option.some_inj] at hfx5
    rw [← hfx5]
    exact jkOf_length a2 b2
  have hrowtr : transcribeRow row input_i state_i output_i nstate_i =
      some (ins ++ sts ++ outs ++ jks.flatten) := by
    unfold transcribeRow
    simp only [Option.bind_eq_bind]
    rw [hins]
    simp only [Option.some_bind]
    rw [hsts]
    simp only [Option.some_bind]
    rw [houts]
    simp only [Option.some_bind]
    rw [hjks]
    simp only [Option.some_bind, Option.pure_def]
  have hI : ins.length = input_i.length := omap_length hins
  have hS : sts.length = state_i.length := omap_length hsts
  have hO : outs.length = output_i.length := omap_length houts
  have hJ : jks.length = nstate_i.length := by
    have := omap_length hjks
    simpa using this
  have hflatlen : jks.flatten.length = 2 * nstate_i.length := by
    rw [length_flatten_pairs jks hjlens, hJ]
  have hle : (ins ++ sts ++ outs ++ jks.flatten).length ≤
      input_i.length + output_i.length + state_i.length * 3 := by
    simp only [List.length_append, hI, hS, hO, hflatlen]
    omega
  refine ⟨(ins ++ sts ++ outs ++ jks.flatten) ++
      List.replicate (input_i.length + output_i.length + state_i.length * 3 -
        (ins ++ sts ++ outs ++ jks.flatten).length) 0, ?_⟩
  rw [hrowtr]
  simp only [Option.bind_eq_bind, Option.some_bind, if_pos hle, Option.pure_def]

/-- Witness for the amended C5 at the mismatched concrete input. -/
theorem claim_C5_amended_witness :
    ([2] : List Nat).length ≤ ([0,1] : List Nat).length ∧
    ∃ nm, transcribeMatrix [[0,0,0]] [] [0,1] [] [2] = some nm :=
  ⟨by decide, claim_C5_amended [[0,0,0]] [] [0,1] [] [2] (by decide) (by decide)⟩

/-! ### Claims C6 and C7: the candidate scan of _simplify_sum -/

theorem foldl_preserve {α β : Type} {P : β → Prop} (f : β → α → β) :
    ∀ (l : List α) (b : β), P b → (∀ b2 a, a ∈ l → P b2 → P (f b2 a)) →
      P (l.foldl f b) := by
  intro l
  induction l with
  | nil => intro b hb _; exact hb
  | cons x xs ih =>
      intro b hb hf
      exact ih (f b x) (hf b x (List.mem_cons_self x xs) hb)
        (fun b2 a ha => hf b2 a (List.mem_cons_of_mem x ha))

/-- If the fold selects a candidate, its stored heuristic is that
  candidate's score and the candidate was among those scanned. -/
theorem bestFold_best_score (cands : List Cand) (c : Cand)
    (h : (bestFold cands).best = some c) :
    (bestFold cands).bestH = candScore c ∧ c ∈ cands := by
  unfold bestFold at *
  refine foldl_preserve (P := fun s => ∀ c2, s.best = some c2 →
    s.bestH = candScore c2 ∧ c2 ∈ cands) bestStep cands ⟨none, 0, 0⟩ ?_ ?_ c h
  · intro c2 h2; simp at h2
  · intro s a ha hP c2 h2
    unfold bestStep at h2 ⊢
    by_cases hc : s.bestH ≤ candScore a
    · simp only [if_pos hc] at h2 ⊢
      cases h2
      exact ⟨rfl, ha⟩
    · simp only [if_neg hc] at h2 ⊢
      exact hP c2 h2

theorem bestStep_bestH_le (s : ScanBest) (c : Cand) : s.bestH ≤ (bestStep s c).bestH := by
  unfold bestStep
  by_cases hc : s.bestH ≤ candScore c
  · simp [if_pos hc]; omega
  · simp [if_neg hc]

theorem foldl_bestStep_bestH_le :
    ∀ (l : List Cand) (s : ScanBest), s.bestH ≤ (l.foldl bestStep s).bestH := by
  intro l
  induction l with
  | nil => intro s; exact Nat.le_refl _
  | cons x xs ih =>
      intro s
      exact Nat.le_trans (bestStep_bestH_le s x) (ih (bestStep s x))

/-- Every scanned candidate's score is bounded by the final best
  heuristic. -/
theorem bestFold_ub :
    ∀ (l : List Cand) (s : ScanBest) (x : Cand), x ∈ l →
      candScore x ≤ (l.foldl bestStep s).bestH := by
  intro l
  induction l with
  | nil => intro s x hx; cases hx
  | cons a xs ih =>
      intro s x hx
      rcases List.mem_cons.mp hx with rfl | hx2
      · refine Nat.le_trans ?_ (foldl_bestStep_bestH_le xs (bestStep s x))
        unfold bestStep
        by_cases hc : s.bestH ≤ candScore x
        · simp [if_pos hc]
        · simp only [if_neg hc]
          omega
      · exact ih (bestStep s a) x hx2

/-- C6 counterexample: on the concrete sum AB + AC + BC the scan finds
  three candidates of equal score; the source selects the last
  discovered, not the first the claim requires. -/
theorem claim_C6_counterexample :
    scanCands [Ast.Prod [Ast.V 0, Ast.V 1], Ast.Prod [Ast.V 0, Ast.V 2],
        Ast.Prod [Ast.V 1, Ast.V 2]] =
      some [⟨0, [0], [1]⟩, ⟨0, [1], [2]⟩, ⟨1, [1], [2]⟩] ∧
    candScore ⟨0, [0], [1]⟩ = candScore ⟨1, [1], [2]⟩ ∧
    (bestFold [⟨0, [0], [1]⟩, ⟨0, [1], [2]⟩, ⟨1, [1], [2]⟩]).best =
      some ⟨1, [1], [2]⟩ ∧
    firstBestSpec [⟨0, [0], [1]⟩, ⟨0, [1], [2]⟩, ⟨1, [1], [2]⟩] =
      some ⟨0, [0], [1]⟩ ∧
    (⟨1, [1], [2]⟩ : Cand) ≠ ⟨0, [0], [1]⟩ := by
  refine ⟨by decide, by decide, by decide, by decide, by decide⟩

/-- C6 amended: the candidate selected by the scan attains the maximum
  score, and every candidate discovered after it scores strictly less;
  on ties the LAST discovered candidate is kept, not the first. -/
theorem claim_C6_amended (cands : List Cand) (c : Cand)
    (hb : (bestFold cands).best = some c) :
    ∃ l1 l2, cands = l1 ++ c :: l2 ∧
      (∀ x ∈ cands, candScore x ≤ candScore c) ∧
      (∀ x ∈ l2, candScore x < candScore c) := by
  induction cands using List.reverseRecOn with
  | nil => simp [bestFold] at hb
  | append_singleton l a ih =>
      have hfold : bestFold (l ++ [a]) = bestStep (bestFold l) a := by
        unfold bestFold
        rw [List.foldl_append]
        rfl
      rw [hfold] at hb
      by_cases hc : (bestFold l).bestH ≤ candScore a
      · have hca : c = a := by
          unfold bestStep at hb
          simp only [if_pos hc] at hb
          exact (Option.some_inj.mp hb).symm
        subst hca
        refine ⟨l, [], rfl, ?_, by intro x hx; cases hx⟩
        intro x hx
        rcases List.mem_append.mp hx with hx2 | hx2
        · have h2 : candScore x ≤ (bestFold l).bestH := bestFold_ub l _ x hx2
          omega
        · rcases List.mem_cons.mp hx2 with rfl | h3
          · exact Nat.le_refl _
          · cases h3
      · have hbl : (bestFold l).best = some c := by
          unfold bestStep at hb
          simp only [if_neg hc] at hb
          exact hb
        have hlt : candScore a < candScore c := by
          have h1 := bestFold_best_score l c hbl
          omega
        rcases ih hbl with ⟨l1, l2, heq, hmax, hstrict⟩
        refine ⟨l1, l2 ++ [a], by rw [heq]; simp, ?_, ?_⟩
        · intro x hx
          rcases List.mem_append.mp hx with hx2 | hx2
          · exact hmax x hx2
          · rcases List.mem_cons.mp hx2 with rfl | h3
            · exact Nat.le_of_lt hlt
            · cases h3
        · intro x hx
          rcases List.mem_append.mp hx with hx2 | hx2
          · exact hstrict x hx2
          · rcases List.mem_cons.mp hx2 with rfl | h3
            · exact hlt
            · cases h3

/-- Witness for the amended C6 at the concrete tie input. -/
theorem claim_C6_amended_witness :
    (bestFold [⟨0, [0], [1]⟩, ⟨0, [1], [2]⟩, ⟨1, [1], [2]⟩]).best =
      some ⟨1, [1], [2]⟩ ∧
    ∃ l1 l2, ([⟨0, [0], [1]⟩, ⟨0, [1], [2]⟩, ⟨1, [1], [2]⟩] : List Cand) =
        l1 ++ (⟨1, [1], [2]⟩ : Cand) :: l2 ∧
      (∀ x ∈ ([⟨0, [0], [1]⟩, ⟨0, [1], [2]⟩, ⟨1, [1], [2]⟩] : List Cand),
        candScore x ≤ candScore ⟨1, [1], [2]⟩) ∧
      (∀ x ∈ l2, candScore x < candScore ⟨1, [1], [2]⟩) :=
  ⟨by decide, claim_C6_amended [⟨0, [0], [1]⟩, ⟨0, [1], [2]⟩, ⟨1, [1], [2]⟩]
    ⟨1, [1], [2]⟩ (by decide)⟩

/-! #### Provenance of the scanned candidates -/

theorem ofoldl_acc_mem {α β : Type} {f : List β → α → Option (List β)} {Q : β → Prop} :
    ∀ {l : List α} {acc out : List β},
      ofoldl f acc l = some out →
      (∀ acc2 x out2, x ∈ l → f acc2 x = some out2 → ∀ c ∈ out2, c ∈ acc2 ∨ Q c) →
      ∀ c ∈ out, c ∈ acc ∨ Q c := by
  intro l
  induction l with
  | nil =>
      intro acc out h _ c hc
      simp only [ofoldl] at h
      cases h
      exact Or.inl hc
  | cons x xs ih =>
      intro acc out h hstep c hc
      simp only [ofoldl, Option.bind_eq_bind] at h
      rcases Option.bind_eq_some.mp h with ⟨acc1, hacc1, h2⟩
      have hrec := ih h2
        (fun a2 y o2 hy => hstep a2 y o2 (List.mem_cons_of_mem x hy)) c hc
      rcases hrec with hin | hq
      · exact hstep acc x acc1 (List.mem_cons_self x xs) hacc1 c hin
      · exact Or.inr hq

theorem combinations_mem {α : Type} :
    ∀ (l : List α) (n : Nat) (comb : List α),
      comb ∈ combinations n l → ∀ x ∈ comb, x ∈ l := by
  intro l
  induction l with
  | nil =>
      intro n comb h x hx
      cases n with
      | zero => simp only [combinations, List.mem_singleton] at h; subst h; cases hx
      | succ n => simp [combinations] at h
  | cons a xs ih =>
      intro n comb h x hx
      cases n with
      | zero =>
          simp only [combinations, List.mem_singleton] at h; subst h; cases hx
      | succ n =>
          simp only [combinations, List.mem_append, List.mem_map] at h
          rcases h with ⟨c2, hc2, rfl⟩ | h2
          · rcases List.mem_cons.mp hx with rfl | hx2
            · exact List.mem_cons_self x xs
            · exact List.mem_cons_of_mem a (ih n c2 hc2 x hx2)
          · exact List.mem_cons_of_mem a (ih (n + 1) comb h2 x hx)

theorem interFold_subset :
    ∀ (comb : List (Nat × List Nat)) (init : List Nat) (j : Nat),
      j ∈ comb.foldl (fun acc p => interSets acc p.2) init → j ∈ init := by
  intro comb
  induction comb with
  | nil => intro init j h; exact h
  | cons p ps ih =>
      intro init j h
      have h2 := ih (interSets init p.2) j h
      exact (List.mem_filter.mp h2).1

/-- Every index recorded in a sharing set points at a term strictly
  after the base term. -/
theorem sharesPerFactor_after (ts : List Ast) (ti : Nat)
    (shares : List (Nat × List Nat))
    (h : sharesPerFactor ts ti = some shares) :
    ∀ p ∈ shares, ∀ j ∈ p.2, ti < j := by
  unfold sharesPerFactor at h
  rcases hterm : ts.getD ti default with v | k | x | l | fs <;> rw [hterm] at h
  case V => cases h; intro p hp; cases hp
  case K => cases h; intro p hp; cases hp
  case Neg => cases h; intro p hp; cases hp
  case Sum => cases h; intro p hp; cases hp
  case Prod =>
    intro p hp
    have := ofoldl_acc_mem (Q := fun q : Nat × List Nat => ∀ j ∈ q.2, ti < j) h
      ?_ p hp
    · rcases this with h2 | h2
      · cases h2
      · exact h2
    · intro acc2 x out2 _ hf q hq
      rcases Option.bind_eq_some.mp hf with ⟨sharing, hsh, hf2⟩
      simp only [Option.pure_def, Option.some_inj] at hf2
      subst hf2
      by_cases hlen : 0 < sharing.length
      · rw [if_pos hlen] at hq
        rcases List.mem_append.mp hq with h3 | h3
        · exact Or.inl h3
        · rcases List.mem_cons.mp h3 with rfl | h4
          · refine Or.inr ?_
            intro j hj
            have hcollect := ofoldl_acc_mem (Q := fun j : Nat => ti < j) hsh
              ?_ j hj
            · rcases hcollect with h5 | h5
              · cases h5
              · exact h5
            · intro acc3 oi out3 hoi hg j2 hj2
              rcases Option.bind_eq_some.mp hg with ⟨hit, _, hg2⟩
              simp only [Option.pure_def, Option.some_inj] at hg2
              subst hg2
              by_cases hhit : hit = true
              · rw [if_pos hhit] at hj2
                rcases List.mem_append.mp hj2 with h6 | h6
                · exact Or.inl h6
                · rcases List.mem_cons.mp h6 with rfl | h7
                  · have := List.mem_range'_1.mp hoi
                    exact Or.inr (by omega)
                  · cases h7
              · rw [if_neg hhit] at hj2
                exact Or.inl hj2
          · cases h4
      · rw [if_neg hlen] at hq
        exact Or.inl hq

theorem foldl_append_mem {α β : Type} (h : α → List β) :
    ∀ (l : List α) (acc : List β) (c : β),
      c ∈ l.foldl (fun acc2 i => acc2 ++ h i) acc →
      c ∈ acc ∨ ∃ i ∈ l, c ∈ h i := by
  intro l
  induction l with
  | nil => intro acc c hc; exact Or.inl hc
  | cons x xs ih =>
      intro acc c hc
      rcases ih (acc ++ h x) c hc with h2 | ⟨i, hi, h3⟩
      · rcases List.mem_append.mp h2 with h3 | h3
        · exact Or.inl h3
        · exact Or.inr ⟨x, List.mem_cons_self x xs, h3⟩
      · exact Or.inr ⟨i, List.mem_cons_of_mem x hi, h3⟩

/-- Every candidate generated for a base term records that base term
  position, and all its intersection members are strictly later term
  positions. -/
theorem termCands_after (ts : List Ast) (ti : Nat)
    (shares : List (Nat × List Nat))
    (hsh : ∀ p ∈ shares, ∀ j ∈ p.2, ti < j) :
    ∀ c ∈ termCands ts ti shares, c.termIdx = ti ∧ ∀ j ∈ c.inter, ti < j := by
  intro c hc
  unfold termCands at hc
  rcases foldl_append_mem _ _ _ _ hc with h2 | ⟨i, _, h3⟩
  · cases h2
  · rcases List.mem_filterMap.mp h3 with ⟨comb, hcomb, hf⟩
    cases comb with
    | nil => simp at hf
    | cons c0 rest =>
        dsimp only [] at hf
        by_cases hlen : 0 < ((c0 :: rest).foldl
            (fun acc2 p => interSets acc2 p.2) c0.2).length
        · rw [if_pos hlen] at hf
          cases hf
          refine ⟨rfl, ?_⟩
          intro j hj
          have hj2 := interFold_subset (c0 :: rest) c0.2 j hj
          have hc0 : c0 ∈ shares :=
            combinations_mem shares i (c0 :: rest) hcomb c0
              (List.mem_cons_self c0 rest)
          exact hsh c0 hc0 j hj2
        · rw [if_neg hlen] at hf
          cases hf

/-- Provenance for the whole scan: every candidate points at later
  sharing terms only. -/
theorem scanCands_after (ts : List Ast) (cands : List Cand)
    (h : scanCands ts = some cands) :
    ∀ c ∈ cands, ∀ j ∈ c.inter, c.termIdx < j := by
  unfold scanCands at h
  intro c hc
  have := ofoldl_acc_mem
    (Q := fun c : Cand => ∀ j ∈ c.inter, c.termIdx < j) h ?_ c hc
  · rcases this with h2 | h2
    · cases h2
    · exact h2
  · intro acc2 ti out2 _ hf c2 hc2
    rcases Option.bind_eq_some.mp hf with ⟨shares, hsh, hf2⟩
    simp only [Option.pure_def, Option.some_inj] at hf2
    subst hf2
    rcases List.mem_append.mp hc2 with h3 | h3
    · exact Or.inl h3
    · refine Or.inr ?_
      have hafter := sharesPerFactor_after ts ti shares hsh
      have := termCands_after ts ti shares hafter c2 h3
      intro j hj
      rw [this.1]
      exact this.2 j hj

/-- C7 counterexample: on the concrete sum AB + AC the single candidate
  has one other matching term and one factor; the score the scan stores
  and compares is 1, not the 2 the claim (which counts the base term)
  requires. -/
theorem claim_C7_counterexample :
    scanCands [Ast.Prod [Ast.V 0, Ast.V 1], Ast.Prod [Ast.V 0, Ast.V 2]] =
      some [⟨0, [0], [1]⟩] ∧
    (bestFold [⟨0, [0], [1]⟩]).bestH = 1 ∧
    ((⟨0, [0], [1]⟩ : Cand).inter.length + 1) *
      (⟨0, [0], [1]⟩ : Cand).facIdxs.length = 2 ∧
    (1 : Nat) ≠ 2 := by
  refine ⟨by decide, by decide, by decide, by decide⟩

/-- C7 amended: the score compared by the scan equals the number of
  OTHER matching terms (all strictly later than the base term, the base
  itself excluded) times the number of chosen factors. -/
theorem claim_C7_amended (ts : List Ast) (cands : List Cand) (c : Cand)
    (hsc : scanCands ts = some cands)
    (hb : (bestFold cands).best = some c) :
    (bestFold cands).bestH = c.inter.length * c.facIdxs.length ∧
    c ∈ cands ∧ ∀ j ∈ c.inter, c.termIdx < j := by
  have h1 := bestFold_best_score cands c hb
  refine ⟨h1.1, h1.2, ?_⟩
  exact scanCands_after ts cands hsc c h1.2

/-- Witness for the amended C7 at the concrete input AB + AC. -/
theorem claim_C7_amended_witness :
    scanCands [Ast.Prod [Ast.V 0, Ast.V 1], Ast.Prod [Ast.V 0, Ast.V 2]] =
      some [⟨0, [0], [1]⟩] ∧
    (bestFold [⟨0, [0], [1]⟩]).bestH =
      (⟨0, [0], [1]⟩ : Cand).inter.length * (⟨0, [0], [1]⟩ : Cand).facIdxs.length ∧
    (⟨0, [0], [1]⟩ : Cand) ∈ ([⟨0, [0], [1]⟩] : List Cand) ∧
    ∀ j ∈ (⟨0, [0], [1]⟩ : Cand).inter, (⟨0, [0], [1]⟩ : Cand).termIdx < j :=
  ⟨by decide,
    claim_C7_amended [Ast.Prod [Ast.V 0, Ast.V 1], Ast.Prod [Ast.V 0, Ast.V 2]]
      [⟨0, [0], [1]⟩] ⟨0, [0], [1]⟩ (by decide) (by decide)⟩

/-! ### Claim C2: non-contradiction of the produced cover

  The semantic core: every implicant the join engine ever creates covers
  only assignments that appear as input minterms (rows whose target is
  ONE or EITHER).  Joins preserve this because two bucket-adjacent
  joinable implicants differ in exactly one position, a ZERO/ONE pair,
  so the joined cube is the union of the parents' cubes. -/

theorem oneCount_cons (x : Nat) (xs : List Nat) :
    oneCount (x :: xs) = (if x = 1 then 1 else 0) + oneCount xs := by
  unfold oneCount ONE
  rw [List.countP_cons]
  simp only [decide_eq_true_eq]
  split_ifs <;> omega

/-- Joinability forces the ONE counts to differ by the number of
  differing positions. -/
theorem joinable_count :
    ∀ (xs ys : List Nat), xs.length = ys.length → joinableVals xs ys = true →
      oneCount ys = oneCount xs + countDiffL xs ys := by
  intro xs
  induction xs with
  | nil =>
      intro ys hlen _
      cases ys with
      | nil => rfl
      | cons y ys => simp at hlen
  | cons x xs ih =>
      intro ys hlen hj
      cases ys with
      | nil => simp at hlen
      | cons y ys =>
          simp only [List.length_cons, Nat.succ.injEq] at hlen
          simp only [joinableVals, List.zip_cons_cons, List.all_cons,
            Bool.and_eq_true] at hj
          have hrec := ih ys hlen (by
            unfold joinableVals
            exact hj.2)
          have hj1 : x = y ∨ (x = ZERO ∧ y = ONE) := by simpa using hj.1
          simp only [countDiffL, oneCount_cons]
          rcases hj1 with h1 | h1
          · subst h1
            rw [if_pos rfl]
            omega
          · rcases h1 with ⟨rfl, rfl⟩
            rw [if_neg (show ¬(ZERO = ONE) by decide)]
            rw [if_pos (show (ONE : Nat) = 1 from rfl)]
            rw [if_neg (show ¬((ZERO : Nat) = 1) by decide)]
            omega

theorem countDiffL_zero_eq :
    ∀ (xs ys : List Nat), xs.length = ys.length → countDiffL xs ys = 0 →
      xs = ys := by
  intro xs
  induction xs with
  | nil => intro ys hlen _; cases ys with
      | nil => rfl
      | cons y ys => simp at hlen
  | cons x xs ih =>
      intro ys hlen hz
      cases ys with
      | nil => simp at hlen
      | cons y ys =>
          simp only [List.length_cons, Nat.succ.injEq] at hlen
          simp only [countDiffL] at hz
          by_cases hxy : x = y
          · rw [if_pos hxy] at hz
            rw [hxy, ih ys hlen (by omega)]
          · rw [if_neg hxy] at hz
            omega

theorem joinable_eq_of_count (xs ys : List Nat) (hlen : xs.length = ys.length)
    (hj : joinableVals xs ys = true) (hcnt : oneCount ys = oneCount xs) :
    xs = ys := by
  have h := joinable_count xs ys hlen hj
  exact countDiffL_zero_eq xs ys hlen (by omega)

theorem joinVals_self : ∀ (xs : List Nat), joinVals xs xs = xs := by
  intro xs
  induction xs with
  | nil => rfl
  | cons x xs ih =>
      unfold joinVals
      rw [List.zip_cons_cons, List.map_cons]
      show (if x ≠ x then EITHER else x) :: _ = x :: xs
      rw [if_neg (by simp)]
      exact congrArg (fun l => x :: l) ih

/-- The cube of a bucket-adjacent join is contained in the union of the
  parents' cubes. -/
theorem cube_union :
    ∀ (a b v : List Nat), a.length = b.length →
      joinableVals a b = true → oneCount b = oneCount a + 1 →
      (∀ y ∈ v, y = 0 ∨ y = 1) → satL (joinVals a b) v →
      satL a v ∨ satL b v := by
  intro a
  induction a with
  | nil =>
      intro b v hlen _ hcnt _ _
      cases b with
      | nil => simp [oneCount] at hcnt
      | cons y ys => simp at hlen
  | cons x xs ih =>
      intro b v hlen hj hcnt hbool hv
      cases b with
      | nil => simp at hlen
      | cons y ys =>
          simp only [List.length_cons, Nat.succ.injEq] at hlen
          simp only [joinableVals, List.zip_cons_cons, List.all_cons,
            Bool.and_eq_true] at hj
          cases v with
          | nil =>
              simp only [joinVals, List.zip_cons_cons, List.map_cons] at hv
              cases hv
          | cons w ws =>
              have hjrest : joinableVals xs ys = true := by
                unfold joinableVals; exact hj.2
              have hj1 : x = y ∨ (x = ZERO ∧ y = ONE) := by simpa using hj.1
              rcases hj1 with h1 | h1
              · have hxy : x = y := h1
                subst hxy
                simp only [joinVals, List.zip_cons_cons, List.map_cons,
                  if_neg (by simp : ¬x ≠ x)] at hv
                have hv2 : (x = EITHER ∨ w = x) ∧ satL (joinVals xs ys) ws := by
                  exact hv
                have hcnt2 : oneCount ys = oneCount xs + 1 := by
                  simp only [oneCount_cons] at hcnt
                  omega
                have hbool2 : ∀ y2 ∈ ws, y2 = 0 ∨ y2 = 1 :=
                  fun y2 hy2 => hbool y2 (List.mem_cons_of_mem w hy2)
                rcases ih ys ws hlen hjrest hcnt2 hbool2 hv2.2 with h2 | h2
                · exact Or.inl ⟨hv2.1, h2⟩
                · exact Or.inr ⟨hv2.1, h2⟩
              · rcases h1 with ⟨rfl, rfl⟩
                simp only [joinVals, List.zip_cons_cons, List.map_cons] at hv
                rw [if_pos (by norm_num [ZERO, ONE])] at hv
                have hv2 : satL (joinVals xs ys) ws := hv.2
                have hcnt2 : oneCount ys = oneCount xs := by
                  simp only [oneCount_cons] at hcnt
                  norm_num [ZERO, ONE] at hcnt
                  omega
                have hxy : xs = ys := joinable_eq_of_count xs ys hlen hjrest hcnt2
                subst hxy
                rw [joinVals_self] at hv2
                rcases hbool w (List.mem_cons_self w ws) with rfl | rfl
                · exact Or.inl ⟨Or.inr rfl, hv2⟩
                · exact Or.inr ⟨Or.inr rfl, hv2⟩

/-! #### satL helper lemmas -/

theorem satL_of_getD :
    ∀ (vs v : List Nat), vs.length = v.length →
      (∀ i, i < vs.length → vs.getD i 0 = EITHER ∨ v.getD i 0 = vs.getD i 0) →
      satL vs v := by
  intro vs
  induction vs with
  | nil => intro v hlen _; cases v with
      | nil => trivial
      | cons w ws => simp at hlen
  | cons x xs ih =>
      intro v hlen hp
      cases v with
      | nil => simp at hlen
      | cons w ws =>
          simp only [List.length_cons, Nat.succ.injEq] at hlen
          refine ⟨?_, ih ws hlen ?_⟩
          · have := hp 0 (by simp)
            simpa using this
          · intro i hi
            have := hp (i + 1) (by simpa using Nat.succ_lt_succ hi)
            simpa using this

theorem satL_noEither :
    ∀ (vs v : List Nat), (∀ x ∈ vs, x = 0 ∨ x = 1) → satL vs v → v = vs := by
  intro vs
  induction vs with
  | nil => intro v _ hs; cases v with
      | nil => rfl
      | cons w ws => cases hs
  | cons x xs ih =>
      intro v hb hs
      cases v with
      | nil => cases hs
      | cons w ws =>
          rcases hs with ⟨hh, ht⟩
          have hx := hb x (List.mem_cons_self x xs)
          have hwx : w = x := by
            rcases hh with h2 | h2
            · rcases hx with rfl | rfl <;> simp [EITHER] at h2
            · exact h2
          rw [hwx, ih ws (fun y hy => hb y (List.mem_cons_of_mem x hy)) ht]

theorem joinVals_length (a b : List Nat) (h : a.length = b.length) :
    (joinVals a b).length = a.length := by
  unfold joinVals
  rw [List.length_map, List.length_zip]
  omega

theorem joinVals_mem (a b : List Nat) :
    ∀ x ∈ joinVals a b, x = EITHER ∨ x ∈ a := by
  intro x hx
  unfold joinVals at hx
  rcases List.mem_map.mp hx with ⟨p, hp, heq⟩
  by_cases hne : p.1 ≠ p.2
  · rw [if_pos hne] at heq; exact Or.inl heq.symm
  · rw [if_neg hne] at heq
    exact Or.inr (heq ▸ (List.of_mem_zip hp).1)

theorem getD_mem_of_lt {α : Type} [Inhabited α] :
    ∀ (l : List α) (i : Nat), i < l.length → l.getD i default ∈ l := by
  intro l
  induction l with
  | nil => intro i h; cases h
  | cons y ys ih =>
      intro i h
      cases i with
      | zero => exact List.mem_cons_self y ys
      | succ j =>
          rw [List.getD_cons_succ]
          exact List.mem_cons_of_mem y (ih j (by simpa using h))

theorem getD_append_left {α : Type} [Inhabited α] :
    ∀ (l l2 : List α) (i : Nat), i < l.length →
      (l ++ l2).getD i default = l.getD i default := by
  intro l
  induction l with
  | nil => intro l2 i h; cases h
  | cons y ys ih =>
      intro l2 i h
      cases i with
      | zero => rfl
      | succ j =>
          rw [List.cons_append, List.getD_cons_succ, List.getD_cons_succ]
          exact ih l2 j (by simpa using h)

theorem getD_append_last {α : Type} [Inhabited α] :
    ∀ (l : List α) (x : α), (l ++ [x]).getD l.length default = x := by
  intro l
  induction l with
  | nil => intro x; rfl
  | cons y ys ih =>
      intro x
      rw [List.cons_append, List.length_cons, List.getD_cons_succ]
      exact ih x

/-! #### Preservation of the cube invariant -/

theorem tryJoin_inv {P : List Nat → Prop} {n : Nat} {base : List ImpData}
    (st : LSt) (ia ib na : Nat)
    (hinv : LInv P n base st)
    (hA : ia < base.length) (hB : ib < base.length)
    (hcA : oneCount ((base.getD ia default).Values) = na)
    (hcB : oneCount ((base.getD ib default).Values) = na + 1) :
    LInv P n base (tryJoin st ia ib) := by
  rcases hinv with ⟨⟨ext, hext⟩, hArena, hNB⟩
  have hbaseA : st.imps.getD ia default = base.getD ia default := by
    rw [hext]; exact getD_append_left base ext ia hA
  have hbaseB : st.imps.getD ib default = base.getD ib default := by
    rw [hext]; exact getD_append_left base ext ib hB
  have hlenbase : base.length ≤ st.imps.length := by
    rw [hext, List.length_append]; omega
  have hmemA : st.imps.getD ia default ∈ st.imps :=
    getD_mem_of_lt st.imps ia (by omega)
  have hmemB : st.imps.getD ib default ∈ st.imps :=
    getD_mem_of_lt st.imps ib (by omega)
  have hOkA := hArena _ hmemA
  have hOkB := hArena _ hmemB
  unfold tryJoin
  by_cases hjoin : joinableVals (st.imps.getD ia default).Values
      (st.imps.getD ib default).Values = true
  · rw [if_pos hjoin]
    by_cases hdup : st.hashes.contains
        (hashOf (joinVals (st.imps.getD ia default).Values
          (st.imps.getD ib default).Values)) = true
    · simp only [if_pos hdup]
      exact ⟨⟨ext, hext⟩, hArena, hNB⟩
    · simp only [if_neg hdup]
      have hlenA : (st.imps.getD ia default).Values.length = n := hOkA.1
      have hlenB : (st.imps.getD ib default).Values.length = n := hOkB.1
      have hNewCube : CubeOK P n
          ⟨joinVals (st.imps.getD ia default).Values
              (st.imps.getD ib default).Values,
            (st.imps.getD ia default).Optional &&
              (st.imps.getD ib default).Optional,
            (st.imps.getD ia default).Minterms ++
              (st.imps.getD ib default).Minterms⟩ := by
        refine ⟨?_, ?_, ?_⟩
        · rw [joinVals_length _ _ (hlenA.trans hlenB.symm)]
          exact hlenA
        · intro x hx
          rcases joinVals_mem _ _ x hx with rfl | hx2
          · right; right; rfl
          · exact hOkA.2.1 x hx2
        · intro v hvlen hvbool hsat
          have hcu := cube_union (st.imps.getD ia default).Values
            (st.imps.getD ib default).Values v (by omega) hjoin
            (by rw [hbaseA, hbaseB, hcA, hcB]) hvbool hsat
          rcases hcu with h2 | h2
          · exact hOkA.2.2 v hvlen hvbool h2
          · exact hOkB.2.2 v hvlen hvbool h2
      refine ⟨⟨ext ++ [_], by rw [hext, List.append_assoc]⟩, ?_, ?_⟩
      · intro imp himp
        rcases List.mem_append.mp himp with h2 | h2
        · exact hArena imp h2
        · rcases List.mem_singleton.mp h2 with rfl
          exact hNewCube
      · intro k i hi
        dsimp only at hi ⊢
        by_cases hk : k = oneCount (joinVals (st.imps.getD ia default).Values
            (st.imps.getD ib default).Values)
        · rw [if_pos hk] at hi
          rcases List.mem_append.mp hi with h2 | h2
          · have := hNB k i h2
            constructor
            · simp only [List.length_append, List.length_singleton]; omega
            · rw [getD_append_left st.imps _ i this.1]
              exact this.2
          · rcases List.mem_singleton.mp h2 with rfl
            constructor
            · simp
            · rw [getD_append_last]
              exact hk.symm
        · rw [if_neg hk] at hi
          have := hNB k i hi
          constructor
          · simp only [List.length_append, List.length_singleton]; omega
          · rw [getD_append_left st.imps _ i this.1]
            exact this.2
  · rw [if_neg hjoin]
    exact ⟨⟨ext, hext⟩, hArena, hNB⟩

theorem joinPhase_inv {P : List Nat → Prop} {n : Nat} {base : List ImpData}
    (curB : Nat → List Nat) (hB : BucketsOK base curB) (nvars : Nat)
    (st : LSt) (hinv : LInv P n base st) :
    LInv P n base (joinPhase nvars curB st) := by
  unfold joinPhase
  refine foldl_preserve _ _ _ hinv ?_
  intro st2 na _ h2
  refine foldl_preserve _ _ _ h2 ?_
  intro st3 ia hia h3
  refine foldl_preserve _ _ _ h3 ?_
  intro st4 ib hib h4
  exact tryJoin_inv st4 ia ib na h4 (hB na ia hia).1 (hB (na + 1) ib hib).1
    (hB na ia hia).2 (hB (na + 1) ib hib).2

theorem heurImp_fields (st : LSt) (i : Nat) :
    (heurImp st i).imps = st.imps ∧ (heurImp st i).nextB = st.nextB := by
  simp only [heurImp]
  split <;> exact ⟨rfl, rfl⟩

theorem heurPhase_fields (nvars : Nat) (nb : Nat → List Nat) (st : LSt) :
    (heurPhase nvars nb st).imps = st.imps ∧
    (heurPhase nvars nb st).nextB = st.nextB := by
  unfold heurPhase
  refine foldl_preserve
    (P := fun st2 : LSt => st2.imps = st.imps ∧ st2.nextB = st.nextB)
    _ _ _ ⟨rfl, rfl⟩ ?_
  intro st2 k _ h2
  refine foldl_preserve
    (P := fun st3 : LSt => st3.imps = st.imps ∧ st3.nextB = st.nextB)
    _ _ _ h2 ?_
  intro st3 i _ h3
  have := heurImp_fields st3 i
  exact ⟨this.1.trans h3.1, this.2.trans h3.2⟩

theorem emitEpis_mem (nvars : Nat) (curB : Nat → List Nat) (st : LSt)
    (epis : List Nat) (i : Nat) (hi : i ∈ emitEpis nvars curB st epis) :
    i ∈ epis ∨ ∃ k, i ∈ curB k := by
  unfold emitEpis at hi
  rcases foldl_append_mem _ _ _ _ hi with h2 | ⟨k, _, h3⟩
  · exact Or.inl h2
  · exact Or.inr ⟨k, List.mem_of_mem_filter h3⟩

theorem levelStep_inv {P : List Nat → Prop} {n : Nat} (nvars : Nat)
    (g : GSt) (hg : GInv P n g) : GInv P n (levelStep nvars g) := by
  rcases hg with ⟨hArena, hBuckets, hEpis⟩
  simp only [levelStep]
  have h0 : LInv P n g.imps ⟨g.imps, g.cov, fun _ => 0, fun _ => [], []⟩ :=
    ⟨⟨[], by simp⟩, hArena, fun k i hi => by cases hi⟩
  have h1 := joinPhase_inv g.buckets hBuckets nvars _ h0
  rcases h1 with ⟨⟨ext, hext⟩, hArena1, hNB1⟩
  have hflds := heurPhase_fields nvars
    (joinPhase nvars g.buckets ⟨g.imps, g.cov, fun _ => 0, fun _ => [], []⟩).nextB
    (joinPhase nvars g.buckets ⟨g.imps, g.cov, fun _ => 0, fun _ => [], []⟩)
  refine ⟨?_, ?_, ?_⟩
  · intro imp himp
    dsimp only at himp
    rw [hflds.1] at himp
    exact hArena1 imp himp
  · intro k i hi
    dsimp only at hi ⊢
    rw [hflds.2] at hi
    rw [hflds.1]
    exact hNB1 k i hi
  · intro i hi
    dsimp only at hi ⊢
    rw [hflds.1]
    rcases emitEpis_mem nvars g.buckets _ g.epis i hi with h2 | ⟨k, h3⟩
    · have := hEpis i h2
      rw [hext, List.length_append]
      omega
    · have := (hBuckets k i h3).1
      rw [hext, List.length_append]
      omega

/-- Every implicant returned by the join engine is cube-correct: its
  cube contains only assignments with property P, provided every input
  minterm is an n-long boolean vector whose assignment has property P. -/
theorem fastBucketedJoin_cube (minterms : List (List Nat × Bool)) (nvars : Nat)
    (P : List Nat → Prop)
    (hmint : ∀ p ∈ minterms, p.1.length = nvars ∧
      (∀ x ∈ p.1, x = 0 ∨ x = 1) ∧ P p.1) :
    ∀ imp ∈ fastBucketedJoin minterms nvars, CubeOK P nvars imp := by
  intro imp himp
  simp only [fastBucketedJoin] at himp
  rcases List.mem_map.mp himp with ⟨i, hi, heq⟩
  have harena : ArenaOK P nvars (initArena minterms) := by
    intro imp2 himp2
    rcases List.mem_map.mp himp2 with ⟨q, hq, heq2⟩
    have hqm : q.2 ∈ minterms := by
      rw [List.enum_eq_zip_range] at hq
      exact (List.of_mem_zip hq).2
    rcases hmint q.2 hqm with ⟨hlen, hbool, hP⟩
    subst heq2
    refine ⟨hlen, ?_, ?_⟩
    · intro x hx
      rcases hbool x hx with rfl | rfl
      · exact Or.inl rfl
      · exact Or.inr (Or.inl rfl)
    · intro v _ _ hsat
      rw [satL_noEither q.2.1 v hbool hsat]
      exact hP
  have hInit : GInv P nvars
      ⟨initArena minterms, fun _ => false,
        initBuckets (initArena minterms), []⟩ := by
    refine ⟨harena, ?_, ?_⟩
    · intro k j hj
      have h1 := List.mem_filter.mp hj
      exact ⟨List.mem_range.mp h1.1, of_decide_eq_true h1.2⟩
    · intro j hj
      cases hj
  have hGN : GInv P nvars
      ((List.range (nvars + 1)).foldl (fun g _ => levelStep nvars g)
        ⟨initArena minterms, fun _ => false,
          initBuckets (initArena minterms), []⟩) :=
    foldl_preserve _ _ _ hInit (fun g2 _ _ h2 => levelStep_inv nvars g2 h2)
  rcases heq with rfl
  exact hGN.1 _ (getD_mem_of_lt _ i (hGN.2.2 i hi))

/-- C2, counterexample: the non-contradiction property fails as stated.
  The table [[0,1],[1,2],[1,0]] over the single free-variable column 0
  with target column 1 has only 0/1 free-variable entries and is
  consistent in the sense that no two rows with the same free-variable
  assignment carry conflicting (one ONE, one strictly ZERO) target bits:
  the two x=1 rows carry DONT_CARE and ZERO.  Yet solve_and_or joins the
  ONE minterm x=0 with the optional DONT_CARE minterm x=1 into the
  non-optional all-DONT_CARE implicant, which is returned as an EPI and
  has no non-DONT_CARE literal disagreeing with the strictly-ZERO row
  x=1. -/
theorem claim_C2_counterexample :
    (∀ row ∈ ([[0,1],[1,2],[1,0]] : List (List Nat)),
      row.getD 0 0 = 0 ∨ row.getD 0 0 = 1) ∧
    (∀ r1 ∈ ([[0,1],[1,2],[1,0]] : List (List Nat)),
      ∀ r2 ∈ ([[0,1],[1,2],[1,0]] : List (List Nat)),
      [0].map (fun j => r1.getD j 0) = [0].map (fun j => r2.getD j 0) →
      ¬(r1.getD 1 0 = ONE ∧ r2.getD 1 0 = ZERO)) ∧
    ([1, 0] : List Nat).getD 1 0 = ZERO ∧
    ∃ imp ∈ solve_and_or [[0,1],[1,2],[1,0]] 1 [0],
      satL imp.Values ([0].map (fun j => ([1, 0] : List Nat).getD j 0)) := by
  refine ⟨by decide, by decide, rfl, ⟨⟨[2], false, [0, 1]⟩, by decide, ?_⟩⟩
  exact ⟨Or.inl rfl, trivial⟩

/-- C2 (amended): non-contradiction of the returned cover holds under the
  strengthened consistency hypothesis that no row with a strictly ZERO
  target shares its free-variable assignment with any row whose target is
  ONE or DONT_CARE.  Then for every implicant returned by solve_and_or
  and every strictly-ZERO row, at least one non-DONT_CARE literal of the
  implicant disagrees with the row's free-variable assignment. -/
theorem claim_C2_amended (m : List (List Nat)) (oi : Nat) (iil : List Nat)
    (hbits : ∀ row ∈ m, ∀ j ∈ iil, row.getD j 0 = 0 ∨ row.getD j 0 = 1)
    (hcons : ∀ r1 ∈ m, ∀ r2 ∈ m,
      iil.map (fun j => r1.getD j 0) = iil.map (fun j => r2.getD j 0) →
      r1.getD oi 0 = ZERO →
      ¬(r2.getD oi 0 = ONE ∨ r2.getD oi 0 = EITHER))
    (row : List Nat) (hrow : row ∈ m) (hz : row.getD oi 0 = ZERO) :
    ∀ imp ∈ solve_and_or m oi iil,
      ¬ satL imp.Values (iil.map (fun j => row.getD j 0)) := by
  intro imp himp hsat
  simp only [solve_and_or] at himp
  have hm : ∀ p ∈ (m.filterMap (fun r =>
      if r.getD oi 0 = ONE ∨ r.getD oi 0 = EITHER then
        some (iil.map (fun i => r.getD i 0),
              decide (r.getD oi 0 = EITHER))
      else none)),
      p.1.length = iil.length ∧ (∀ x ∈ p.1, x = 0 ∨ x = 1) ∧
      (∃ r ∈ m, (r.getD oi 0 = ONE ∨ r.getD oi 0 = EITHER) ∧
        p.1 = iil.map (fun j => r.getD j 0)) := by
    intro p hp
    rcases List.mem_filterMap.mp hp with ⟨r, hr, hfr⟩
    by_cases hc : r.getD oi 0 = ONE ∨ r.getD oi 0 = EITHER
    · rw [if_pos hc] at hfr
      obtain rfl := Option.some.inj hfr
      refine ⟨by simp, ?_, ⟨r, hr, hc, rfl⟩⟩
      intro x hx
      rcases List.mem_map.mp hx with ⟨j, hj, rfl⟩
      exact hbits r hr j hj
    · rw [if_neg hc] at hfr
      cases hfr
  have hcube := fastBucketedJoin_cube
    (m.filterMap (fun r =>
      if r.getD oi 0 = ONE ∨ r.getD oi 0 = EITHER then
        some (iil.map (fun i => r.getD i 0),
              decide (r.getD oi 0 = EITHER))
      else none))
    iil.length
    (fun v => ∃ r ∈ m, (r.getD oi 0 = ONE ∨ r.getD oi 0 = EITHER) ∧
      v = iil.map (fun j => r.getD j 0))
    hm imp himp
  rcases hcube with ⟨_, _, hP⟩
  have hb0 : ∀ y ∈ iil.map (fun j => row.getD j 0), y = 0 ∨ y = 1 := by
    intro y hy
    rcases List.mem_map.mp hy with ⟨j, hj, rfl⟩
    exact hbits row hrow j hj
  have hv := hP (iil.map (fun j => row.getD j 0)) (by simp) hb0 hsat
  rcases hv with ⟨r1, hr1, htar, heq⟩
  exact hcons row hrow r1 hr1 heq hz htar

/-- Witness for the amended C2 on a two-row table: the single returned
  EPI for target column 1 over free variable 0 does not cover the
  strictly-ZERO row x=1. -/
theorem claim_C2_amended_witness :
    ¬ satL (⟨[0], false, [0]⟩ : ImpData).Values
        ([0].map (fun j => ([1, 0] : List Nat).getD j 0)) :=
  claim_C2_amended [[0, 1], [1, 0]] 1 [0] (by decide) (by decide)
    [1, 0] (by decide) rfl ⟨[0], false, [0]⟩ (by decide)

/-! #### Shape of simplifier outputs (towards C9) -/

/-- Every successful output of the simplifier loop is either a non-Sum
  node or a sum on which a full candidate scan selects no candidate:
  the loop only returns from its fixpoint branch or its non-Sum branch
  (solver.py lines 507-512 and 585-587). -/
theorem simpSum_some_shape :
    ∀ (fuel : Nat) (t r : Ast), simpSum fuel t = some r →
      (∀ l, r ≠ Ast.Sum l) ∨
      (∃ l cands, r = Ast.Sum l ∧ scanCands l = some cands ∧
        (bestFold cands).best = none) := by
  intro fuel
  induction fuel with
  | zero => intro t r h; simp [simpSum] at h
  | succ fuel ih =>
      intro t r h
      cases t with
      | V n =>
          simp only [simpSum, Option.pure_def, Option.some_inj] at h
          subst h; exact Or.inl (fun l hl => by cases hl)
      | K b =>
          simp only [simpSum, Option.pure_def, Option.some_inj] at h
          subst h; exact Or.inl (fun l hl => by cases hl)
      | Neg x =>
          simp only [simpSum, Option.pure_def, Option.some_inj] at h
          subst h; exact Or.inl (fun l hl => by cases hl)
      | Prod l =>
          simp only [simpSum, Option.pure_def, Option.some_inj] at h
          subst h; exact Or.inl (fun l hl => by cases hl)
      | Sum ts =>
          simp only [simpSum, Option.bind_eq_bind] at h
          rcases hsc : scanCands ts with _ | cands
          · rw [hsc] at h; cases h
          · rw [hsc] at h
            rcases Option.bind_eq_some.mp h with ⟨cands2, hc2, h2⟩
            obtain rfl := Option.some.inj hc2
            rcases hbest : (bestFold cands).best with _ | c
            · rw [hbest] at h2
              simp only [Option.pure_def, Option.some_inj] at h2
              subst h2
              exact Or.inr ⟨ts, cands, rfl, hsc, hbest⟩
            · rw [hbest] at h2
              simp only [Option.bind_eq_bind] at h2
              rcases Option.bind_eq_some.mp h2 with ⟨reduced, _, h3⟩
              rcases Option.bind_eq_some.mp h3 with ⟨innerS, _, h4⟩
              exact ih _ r h4

/-- A node of the shape returned by the simplifier loop is one of its
  fixpoints: running the loop on it returns it unchanged. -/
theorem simpSum_fixpoint (fuel : Nat) (r : Ast)
    (hshape : (∀ l, r ≠ Ast.Sum l) ∨
      (∃ l cands, r = Ast.Sum l ∧ scanCands l = some cands ∧
        (bestFold cands).best = none))
    (hf : 1 ≤ fuel) : simpSum fuel r = some r := by
  cases fuel with
  | zero => cases hf
  | succ fuel =>
      rcases hshape with hns | ⟨l, cands, rfl, hsc, hbest⟩
      · cases r with
        | V n => simp [simpSum]
        | K b => simp [simpSum]
        | Neg x => simp [simpSum]
        | Prod l => simp [simpSum]
        | Sum l => exact absurd rfl (hns l)
      · simp only [simpSum, Option.bind_eq_bind, hsc, Option.some_bind, hbest,
          Option.pure_def]

/-- C9: idempotence of the simplifier.  Whenever simplify_ast returns a
  result, running simplify_ast on that result returns it unchanged, so
  in particular the total literal count is unchanged.  This holds for
  every input tree, hence for every sum-of-products tree. -/
theorem claim_C9_idempotence (t r : Ast) (h : simplify_ast t = some r) :
    ∃ r2, simplify_ast r = some r2 ∧ litCount r2 = litCount r := by
  refine ⟨r, ?_, rfl⟩
  unfold simplify_ast at h ⊢
  exact simpSum_fixpoint _ r (simpSum_some_shape _ t r h) (by omega)

/-- Witness for C9: factoring ab + ac yields a(b + c), on which a second
  simplifier run is the identity. -/
theorem claim_C9_idempotence_witness :
    ∃ r2, simplify_ast (Ast.Prod [Ast.V 0, Ast.Sum [Ast.V 1, Ast.V 2]])
        = some r2 ∧
      litCount r2 = litCount (Ast.Prod [Ast.V 0, Ast.Sum [Ast.V 1, Ast.V 2]]) :=
  claim_C9_idempotence
    (Ast.Sum [Ast.Prod [Ast.V 0, Ast.V 1], Ast.Prod [Ast.V 0, Ast.V 2]])
    (Ast.Prod [Ast.V 0, Ast.Sum [Ast.V 1, Ast.V 2]]) (by rfl)

/-! #### Weight and selection lemmas (towards C8) -/

theorem muA_pos (t : Ast) : 1 ≤ muA t := by
  have := sizeA_pos t
  unfold muA
  omega

theorem muL_nil : muL [] = 0 := rfl

theorem muL_cons (x : Ast) (l : List Ast) : muL (x :: l) = muA x + muL l := by
  unfold muL muA
  simp only [litCountList, sizeListA]
  omega

theorem muL_append : ∀ (a b : List Ast), muL (a ++ b) = muL a + muL b := by
  intro a b
  induction a with
  | nil => simp [muL_nil]
  | cons x xs ih =>
      rw [List.cons_append, muL_cons, muL_cons, ih]
      omega

theorem muA_sum (l : List Ast) : muA (Ast.Sum l) = 1 + muL l := by
  unfold muA muL
  simp only [litCount, sizeA]
  omega

theorem muA_prod (l : List Ast) : muA (Ast.Prod l) = 1 + muL l := by
  unfold muA muL
  simp only [litCount, sizeA]
  omega

theorem filterMap_enumFrom_eq_gsel :
    ∀ (l : List Ast) (s : Nat) (q : Nat → Bool),
      (List.enumFrom s l).filterMap
        (fun p => if q p.1 then some p.2 else none) =
      gsel (fun i => q (s + i)) l := by
  intro l
  induction l with
  | nil => intro s q; rfl
  | cons a l ih =>
      intro s q
      show List.filterMap _ ((s, a) :: List.enumFrom (s + 1) l) = _
      rw [List.filterMap_cons, ih (s + 1) q]
      have hsh : gsel (fun i => q (s + 1 + i)) l =
          gsel (fun i => q (s + (i + 1))) l := by
        have : (fun i => q (s + 1 + i)) = (fun i => q (s + (i + 1))) := by
          funext i
          have : s + 1 + i = s + (i + 1) := by omega
          rw [this]
        rw [this]
      by_cases h : q s = true
      · have h0 : q (s + 0) = true := h
        simp only [h, if_pos]
        show a :: gsel (fun i => q (s + 1 + i)) l =
          (if q (s + 0) then [a] else []) ++ gsel (fun i => q (s + (i + 1))) l
        rw [if_pos h0, hsh]
        rfl
      · have h0 : ¬ q (s + 0) = true := h
        simp only [h, if_neg, Bool.false_eq_true]
        show gsel (fun i => q (s + 1 + i)) l =
          (if q (s + 0) then [a] else []) ++ gsel (fun i => q (s + (i + 1))) l
        rw [if_neg h0, hsh]
        rfl

theorem filterMap_enumFrom_eq_gselN :
    ∀ (l : List Ast) (s : Nat) (q : Nat → Bool),
      (List.enumFrom s l).filterMap
        (fun p => if q p.1 then none else some p.2) =
      gselN (fun i => q (s + i)) l := by
  intro l
  induction l with
  | nil => intro s q; rfl
  | cons a l ih =>
      intro s q
      show List.filterMap _ ((s, a) :: List.enumFrom (s + 1) l) = _
      rw [List.filterMap_cons, ih (s + 1) q]
      have hsh : gselN (fun i => q (s + 1 + i)) l =
          gselN (fun i => q (s + (i + 1))) l := by
        have : (fun i => q (s + 1 + i)) = (fun i => q (s + (i + 1))) := by
          funext i
          have : s + 1 + i = s + (i + 1) := by omega
          rw [this]
        rw [this]
      by_cases h : q s = true
      · have h0 : q (s + 0) = true := h
        simp only [h, if_pos]
        show gselN (fun i => q (s + 1 + i)) l =
          (if q (s + 0) then [] else [a]) ++ gselN (fun i => q (s + (i + 1))) l
        rw [if_pos h0, hsh]
        rfl
      · have h0 : ¬ q (s + 0) = true := h
        simp only [h, if_neg, Bool.false_eq_true]
        show a :: gselN (fun i => q (s + 1 + i)) l =
          (if q (s + 0) then [] else [a]) ++ gselN (fun i => q (s + (i + 1))) l
        rw [if_neg h0, hsh]
        rfl

theorem selIn_eq_gsel (jw : List Nat) (l : List Ast) :
    selIn jw l = gsel (fun i => jw.contains i) l := by
  unfold selIn
  have h0 : l.enum = List.enumFrom 0 l := rfl
  rw [h0, filterMap_enumFrom_eq_gsel]
  have : (fun i => jw.contains (0 + i)) = (fun i => jw.contains i) := by
    funext i
    rw [Nat.zero_add]
  rw [this]

theorem selOut_eq_gselN (jw : List Nat) (l : List Ast) :
    selOut jw l = gselN (fun i => jw.contains i) l := by
  unfold selOut
  have h0 : l.enum = List.enumFrom 0 l := rfl
  rw [h0, filterMap_enumFrom_eq_gselN]
  have : (fun i => jw.contains (0 + i)) = (fun i => jw.contains i) := by
    funext i
    rw [Nat.zero_add]
  rw [this]

theorem gsel_gselN_partition :
    ∀ (l : List Ast) (q : Nat → Bool),
      (gsel q l).length + (gselN q l).length = l.length := by
  intro l
  induction l with
  | nil => intro q; rfl
  | cons a l ih =>
      intro q
      simp only [gsel, gselN, List.length_append, List.length_cons]
      by_cases h : q 0 = true
      · rw [if_pos h, if_pos h]
        have := ih (fun i => q (i + 1))
        simp only [List.length_cons, List.length_nil]
        omega
      · rw [if_neg h, if_neg h]
        have := ih (fun i => q (i + 1))
        simp only [List.length_cons, List.length_nil]
        omega

theorem gsel_length_le (l : List Ast) (q : Nat → Bool) :
    (gsel q l).length ≤ l.length := by
  have := gsel_gselN_partition l q
  omega

theorem gsel_one :
    ∀ (l : List Ast) (q : Nat → Bool) (i : Nat),
      i < l.length → q i = true → 1 ≤ (gsel q l).length := by
  intro l
  induction l with
  | nil => intro q i hi _; cases hi
  | cons a l ih =>
      intro q i hi hq
      simp only [gsel, List.length_append]
      cases i with
      | zero =>
          rw [if_pos hq]
          simp
      | succ j =>
          have := ih (fun i => q (i + 1)) j (by simpa using hi) hq
          omega

theorem gsel_two :
    ∀ (l : List Ast) (q : Nat → Bool) (i j : Nat),
      i < j → j < l.length → q i = true → q j = true →
      2 ≤ (gsel q l).length := by
  intro l
  induction l with
  | nil => intro q i j _ hj _ _; cases hj
  | cons a l ih =>
      intro q i j hij hj hqi hqj
      simp only [gsel, List.length_append]
      cases i with
      | zero =>
          rw [if_pos hqi]
          cases j with
          | zero => cases hij
          | succ j2 =>
              have := gsel_one l (fun i => q (i + 1)) j2
                (by simpa using hj) hqj
              simp only [List.length_cons, List.length_nil]
              omega
      | succ i2 =>
          cases j with
          | zero => cases hij
          | succ j2 =>
              have := ih (fun i => q (i + 1)) i2 j2 (by omega)
                (by simpa using hj) hqi hqj
              omega

theorem gsel_muL_le_whole :
    ∀ (l : List Ast) (q : Nat → Bool), muL (gsel q l) ≤ muL l := by
  intro l
  induction l with
  | nil => intro q; exact le_refl _
  | cons a l ih =>
      intro q
      simp only [gsel]
      rw [muL_append, muL_cons]
      have := ih (fun i => q (i + 1))
      by_cases h : q 0 = true
      · rw [if_pos h, muL_cons, muL_nil]
        omega
      · rw [if_neg h, muL_nil]
        omega

theorem gsel_muL_pointwise :
    ∀ (l l2 : List Ast) (q : Nat → Bool), l.length = l2.length →
      (∀ i, i < l.length → muA (l2.getD i default) ≤ muA (l.getD i default)) →
      muL (gsel q l2) ≤ muL (gsel q l) := by
  intro l
  induction l with
  | nil =>
      intro l2 q hlen _
      cases l2 with
      | nil => exact le_refl _
      | cons b l2 => simp at hlen
  | cons a l ih =>
      intro l2 q hlen hp
      cases l2 with
      | nil => simp at hlen
      | cons b l2 =>
          simp only [List.length_cons, Nat.succ.injEq] at hlen
          have hhead : muA b ≤ muA a := by
            have := hp 0 (by simp)
            simpa [List.getD_cons_zero] using this
          have htail : ∀ i, i < l.length →
              muA (l2.getD i default) ≤ muA (l.getD i default) := by
            intro i hi
            have := hp (i + 1) (by simpa using Nat.succ_lt_succ hi)
            simpa [List.getD_cons_succ] using this
          simp only [gsel]
          rw [muL_append, muL_append]
          have := ih l2 (fun i => q (i + 1)) hlen htail
          by_cases h : q 0 = true
          · simp only [if_pos h, muL_cons, muL_nil]
            omega
          · simp only [if_neg h, muL_nil]
            omega

theorem gsel_muL_strict :
    ∀ (l l2 : List Ast) (q : Nat → Bool) (i0 : Nat), l.length = l2.length →
      (∀ i, i < l.length → muA (l2.getD i default) ≤ muA (l.getD i default)) →
      i0 < l.length → q i0 = true →
      muA (l2.getD i0 default) + 1 ≤ muA (l.getD i0 default) →
      muL (gsel q l2) + 1 ≤ muL (gsel q l) := by
  intro l
  induction l with
  | nil => intro l2 q i0 _ _ hi0 _ _; cases hi0
  | cons a l ih =>
      intro l2 q i0 hlen hp hi0 hq0 hstrict
      cases l2 with
      | nil => simp at hlen
      | cons b l2 =>
          simp only [List.length_cons, Nat.succ.injEq] at hlen
          have hhead : muA b ≤ muA a := by
            have := hp 0 (by simp)
            simpa [List.getD_cons_zero] using this
          have htail : ∀ i, i < l.length →
              muA (l2.getD i default) ≤ muA (l.getD i default) := by
            intro i hi
            have := hp (i + 1) (by simpa using Nat.succ_lt_succ hi)
            simpa [List.getD_cons_succ] using this
          simp only [gsel]
          rw [muL_append, muL_append]
          cases i0 with
          | zero =>
              have hsb : muA b + 1 ≤ muA a := by
                simpa [List.getD_cons_zero] using hstrict
              simp only [if_pos hq0, muL_cons, muL_nil]
              have := gsel_muL_pointwise l l2 (fun i => q (i + 1)) hlen htail
              omega
          | succ j =>
              have hsj : muA (l2.getD j default) + 1 ≤ muA (l.getD j default) := by
                simpa [List.getD_cons_succ] using hstrict
              have := ih l2 (fun i => q (i + 1)) j hlen htail
                (by simpa using hi0) hq0 hsj
              by_cases h : q 0 = true
              · simp only [if_pos h, muL_cons, muL_nil]
                omega
              · simp only [if_neg h, muL_nil]
                omega

/-! #### Self-comparison and reduction-weight lemmas (towards C8) -/

/-- _ast_equiv on a node and itself yields true or raises (constant
  nodes raise); it never yields false. -/
theorem astEquivF_refl_or (f : Nat) :
    (∀ a, astEquivF f a a = some true ∨ astEquivF f a a = none) ∧
    (∀ l, astEquivListF f l l = some true ∨ astEquivListF f l l = none) := by
  induction f with
  | zero => exact ⟨fun _ => Or.inr rfl, fun _ => Or.inr rfl⟩
  | succ f ih =>
      constructor
      · intro a
        cases a with
        | V n => left; simp [astEquivF]
        | K b => right; rfl
        | Neg x => simpa [astEquivF] using ih.1 x
        | Sum l =>
            simp only [astEquivF, if_pos rfl]
            exact ih.2 (pySorted l)
        | Prod l =>
            simp only [astEquivF, if_pos rfl]
            exact ih.2 (pySorted l)
      · intro l
        cases l with
        | nil => left; rfl
        | cons x xs =>
            simp only [astEquivListF, Option.bind_eq_bind]
            rcases ih.1 x with h | h
            · rw [h, Option.some_bind]
              simpa using ih.2 xs
            · rw [h]
              right
              rfl

theorem astEquiv_refl_or (a : Ast) :
    astEquiv a a = some true ∨ astEquiv a a = none :=
  (astEquivF_refl_or _).1 a

/-- If a child that is itself one of the pulled factors survives the
  pulled-factor comparisons without raising, the hit flag is true. -/
theorem hitsPulled_mem_true (a : Ast) :
    ∀ (pulled : List Ast), a ∈ pulled →
      hitsPulled (PyVal.node a) pulled ≠ none →
      hitsPulled (PyVal.node a) pulled = some true := by
  intro pulled
  induction pulled with
  | nil => intro h; cases h
  | cons g gs ih =>
      intro hmem hnn
      simp only [hitsPulled, equivValNode, Option.bind_eq_bind] at hnn ⊢
      rcases he : astEquiv a g with _ | e
      · rw [he] at hnn
        simp at hnn
      · rw [he] at hnn
        cases e with
        | true => simp
        | false =>
            simp only [Option.some_bind] at hnn ⊢
            rcases List.mem_cons.mp hmem with rfl | hmem2
            · rcases astEquiv_refl_or a with h2 | h2 <;> rw [he] at h2 <;> cases h2
            · simp only [Bool.false_eq_true, if_false]
              exact ih hmem2 (by simpa using hnn)

theorem ofilter_not_none {α : Type} {p : α → Option Bool} :
    ∀ {l out : List α}, ofilter p l = some out → ∀ x ∈ l, p x ≠ none := by
  intro l
  induction l with
  | nil => intro out _ x hx; cases hx
  | cons a l ih =>
      intro out h x hx
      simp only [ofilter, Option.bind_eq_bind] at h
      rcases Option.bind_eq_some.mp h with ⟨b, hb, h2⟩
      rcases Option.bind_eq_some.mp h2 with ⟨rest, hrest, _⟩
      rcases List.mem_cons.mp hx with rfl | hx2
      · rw [hb]; simp
      · exact ih hrest x hx2

theorem ofilter_muVL_le {p : PyVal → Option Bool} :
    ∀ {l out : List PyVal}, ofilter p l = some out → muVL out ≤ muVL l := by
  intro l
  induction l with
  | nil =>
      intro out h
      simp only [ofilter, Option.some_inj] at h
      subst h
      exact le_refl _
  | cons a l ih =>
      intro out h
      simp only [ofilter, Option.bind_eq_bind] at h
      rcases Option.bind_eq_some.mp h with ⟨b, _, h2⟩
      rcases Option.bind_eq_some.mp h2 with ⟨rest, hrest, h3⟩
      simp only [Option.pure_def, Option.some_inj] at h3
      subst h3
      have := ih hrest
      cases b with
      | true => simp only [if_pos, muVL]; omega
      | false => simp only [Bool.false_eq_true, if_false, muVL]; omega

theorem ofilter_muVL_drop {p : PyVal → Option Bool} :
    ∀ {l out : List PyVal}, ofilter p l = some out →
      ∀ x ∈ l, p x = some false → muVL out + muV x ≤ muVL l := by
  intro l
  induction l with
  | nil => intro out _ x hx; cases hx
  | cons a l ih =>
      intro out h x hx hpx
      simp only [ofilter, Option.bind_eq_bind] at h
      rcases Option.bind_eq_some.mp h with ⟨b, hb, h2⟩
      rcases Option.bind_eq_some.mp h2 with ⟨rest, hrest, h3⟩
      simp only [Option.pure_def, Option.some_inj] at h3
      subst h3
      rcases List.mem_cons.mp hx with rfl | hx2
      · rw [hpx] at hb
        obtain rfl := (Option.some.inj hb).symm
        simp only [Bool.false_eq_true, if_false, muVL]
        have := ofilter_muVL_le hrest
        omega
      · have := ih hrest x hx2 hpx
        cases b with
        | true => simp only [if_pos, muVL]; omega
        | false => simp only [Bool.false_eq_true, if_false, muVL]; omega

theorem muVL_map_node : ∀ (l : List Ast), muVL (l.map PyVal.node) = muL l := by
  intro l
  induction l with
  | nil => rfl
  | cons a l ih =>
      simp only [List.map_cons, muVL, muV, muL_cons]
      omega

/-- The raw children of a node weigh strictly less than the node. -/
theorem muVL_children (t : Ast) : muVL (astChildren t) + 1 ≤ muA t := by
  cases t with
  | V n => simp [astChildren, muVL, muV, muA, litCount, sizeA]
  | K b => simp [astChildren, muVL, muV, muA, litCount, sizeA]
  | Neg x =>
      simp only [astChildren, muVL, muV, muA, litCount, sizeA]
      omega
  | Sum l =>
      rw [muA_sum]
      simp only [astChildren, muVL_map_node]
      omega
  | Prod l =>
      rw [muA_prod]
      simp only [astChildren, muVL_map_node]
      omega

/-- Unwrapping kept node children preserves total weight. -/
theorem muL_unwrap :
    ∀ {kept : List PyVal} {keptN : List Ast},
      omap (fun v => match v with
        | PyVal.node a => some a
        | PyVal.int _ => none) kept = some keptN →
      muL keptN = muVL kept := by
  intro kept
  induction kept with
  | nil =>
      intro keptN h
      simp only [omap, Option.some_inj] at h
      subst h
      rfl
  | cons v vs ih =>
      intro keptN h
      simp only [omap, Option.bind_eq_bind] at h
      rcases Option.bind_eq_some.mp h with ⟨y, hy, h2⟩
      rcases Option.bind_eq_some.mp h2 with ⟨ys, hys, h3⟩
      simp only [Option.pure_def, Option.some_inj] at h3
      subst h3
      cases v with
      | node a =>
          obtain rfl := Option.some.inj hy
          rw [muL_cons, ih hys]
          simp [muVL, muV]
      | int k => cases hy

/-- A successfully reduced term weighs at most the original term. -/
theorem reduceTerm_mu_le {t : Ast} {pulled : List Ast} {r : Ast}
    (h : reduceTerm t pulled = some r) : muA r ≤ muA t := by
  unfold reduceTerm at h
  simp only [Option.bind_eq_bind] at h
  rcases Option.bind_eq_some.mp h with ⟨kept, hkept, h2⟩
  rcases Option.bind_eq_some.mp h2 with ⟨keptN, hkeptN, h3⟩
  have hle : muA r ≤ muVL kept + 1 := by
    rcases hk : keptN with _ | ⟨x, rest⟩
    · rw [hk] at h3
      simp only [Option.pure_def, Option.some_inj] at h3
      subst h3
      rw [muA_prod]
      rw [hk] at hkeptN
      rw [← muL_unwrap hkeptN]
      omega
    · rcases hr : rest with _ | _
      · rw [hk, hr] at h3
        simp only [Option.pure_def, Option.some_inj] at h3
        subst h3
        rw [hk, hr] at hkeptN
        have := muL_unwrap hkeptN
        rw [muL_cons, muL_nil] at this
        omega
      · rw [hk, hr] at h3
        simp only [Option.pure_def, Option.some_inj] at h3
        subst h3
        rw [muA_prod, ← muL_unwrap (hr ▸ hk ▸ hkeptN)]
        omega
  have := ofilter_muVL_le hkept
  have := muVL_children t
  omega

/-- Reducing a term that contains one of the pulled factors as a child
  strictly decreases its weight, provided the reduction succeeds. -/
theorem reduceTerm_mu_drop {t : Ast} {pulled : List Ast} {r : Ast} {a : Ast}
    (h : reduceTerm t pulled = some r) (hmem : a ∈ pulled)
    (hch : PyVal.node a ∈ astChildren t) : muA r + 1 ≤ muA t := by
  unfold reduceTerm at h
  simp only [Option.bind_eq_bind] at h
  rcases Option.bind_eq_some.mp h with ⟨kept, hkept, h2⟩
  rcases Option.bind_eq_some.mp h2 with ⟨keptN, hkeptN, h3⟩
  have hpnn := ofilter_not_none hkept (PyVal.node a) hch
  have hhit : hitsPulled (PyVal.node a) pulled = some true := by
    apply hitsPulled_mem_true a pulled hmem
    intro hn
    apply hpnn
    simp only [Option.bind_eq_bind, hn, Option.none_bind]
  have hpx : (fun ch => do
      let hit ← hitsPulled ch pulled
      pure (!hit)) (PyVal.node a) = some false := by
    simp only [Option.bind_eq_bind, hhit, Option.some_bind]
    rfl
  have hdrop := ofilter_muVL_drop hkept (PyVal.node a) hch hpx
  have hle : muA r ≤ muVL kept + 1 := by
    rcases hk : keptN with _ | ⟨x, rest⟩
    · rw [hk] at h3
      simp only [Option.pure_def, Option.some_inj] at h3
      subst h3
      rw [muA_prod]
      rw [hk] at hkeptN
      rw [← muL_unwrap hkeptN]
      omega
    · rcases hr : rest with _ | _
      · rw [hk, hr] at h3
        simp only [Option.pure_def, Option.some_inj] at h3
        subst h3
        rw [hk, hr] at hkeptN
        have := muL_unwrap hkeptN
        rw [muL_cons, muL_nil] at this
        omega
      · rw [hk, hr] at h3
        simp only [Option.pure_def, Option.some_inj] at h3
        subst h3
        rw [muA_prod, ← muL_unwrap (hr ▸ hk ▸ hkeptN)]
        omega
  have hmv : muV (PyVal.node a) = muA a := rfl
  have := muA_pos a
  have := muVL_children t
  omega

/-! #### Structure of scanned candidates (towards C8) -/

theorem fst_lt_of_mem_enum {α : Type} {l : List α} {p : Nat × α}
    (h : p ∈ l.enum) : p.1 < l.length := by
  rw [List.enum_eq_zip_range] at h
  exact List.mem_range.mp (List.of_mem_zip h).1

theorem enum_get?_eq {α : Type} (l : List α) (k : Nat) (x : α)
    (h : l.get? k = some x) : l.enum.get? k = some (k, x) := by
  show (List.enumFrom 0 l).get? k = _
  rw [List.get?_enumFrom, h]
  simp

theorem get?_getD {α : Type} [Inhabited α] (l : List α) (i : Nat)
    (hi : i < l.length) : l.get? i = some (l.getD i default) := by
  rw [List.getD_eq_get l default hi, List.get?_eq_get hi]

theorem mem_enum_of_get? {α : Type} {l : List α} {i : Nat} {x : α}
    (h : l.get? i = some x) : (i, x) ∈ l.enum :=
  List.get?_mem (enum_get?_eq l i x h)

theorem pulledOf_mem {base : Ast} {fi : List Nat} {a : Ast}
    (h : a ∈ pulledOf base fi) : PyVal.node a ∈ astChildren base := by
  unfold pulledOf at h
  rcases List.mem_filterMap.mp h with ⟨p, hp, hf⟩
  by_cases hc : fi.contains p.1 = true
  · rw [if_pos hc] at hf
    have hsnd : p.2 ∈ astChildren base := by
      rw [List.enum_eq_zip_range] at hp
      exact (List.of_mem_zip hp).2
    cases hv : p.2 with
    | node y =>
        rw [hv] at hf
        obtain rfl := Option.some.inj hf
        rw [hv] at hsnd
        exact hsnd
    | int k => rw [hv] at hf; cases hf
  · rw [if_neg hc] at hf; cases hf

theorem pulledOf_ne_nil {fs : List Ast} {fi : List Nat} {i : Nat}
    (hi : i ∈ fi) (hlen : i < fs.length) :
    pulledOf (Ast.Prod fs) fi ≠ [] := by
  have hget : (astChildren (Ast.Prod fs)).get? i
      = some (PyVal.node (fs.getD i default)) := by
    show (fs.map PyVal.node).get? i = _
    rw [List.get?_map, get?_getD fs i hlen]
    rfl
  have henum := mem_enum_of_get? hget
  have hmem : fs.getD i default ∈ pulledOf (Ast.Prod fs) fi := by
    unfold pulledOf
    refine List.mem_filterMap.mpr ⟨(i, PyVal.node (fs.getD i default)), henum, ?_⟩
    rw [if_pos (show fi.contains i = true from List.elem_iff.mpr hi)]
  intro hnil
  rw [hnil] at hmem
  cases hmem

theorem sharesPerFactor_struct (ts : List Ast) (ti : Nat)
    (shares : List (Nat × List Nat))
    (h : sharesPerFactor ts ti = some shares) :
    ∀ p ∈ shares,
      (∃ fs, ts.getD ti default = Ast.Prod fs ∧ p.1 < fs.length) ∧
      ∀ j ∈ p.2, ti < j ∧ j < ts.length := by
  unfold sharesPerFactor at h
  rcases hterm : ts.getD ti default with v | k | x | l | fs <;> rw [hterm] at h
  case V => cases h; intro p hp; cases hp
  case K => cases h; intro p hp; cases hp
  case Neg => cases h; intro p hp; cases hp
  case Sum => cases h; intro p hp; cases hp
  case Prod =>
    intro p hp
    have := ofoldl_acc_mem
      (Q := fun p : Nat × List Nat =>
        p.1 < fs.length ∧ ∀ j ∈ p.2, ti < j ∧ j < ts.length) h ?_ p hp
    · rcases this with h2 | h2
      · cases h2
      · exact ⟨⟨fs, rfl, h2.1⟩, h2.2⟩
    · intro acc2 q out2 hq hstep c hc
      simp only [Option.bind_eq_bind] at hstep
      rcases Option.bind_eq_some.mp hstep with ⟨sharing, hsh, hout⟩
      simp only [Option.pure_def, Option.some_inj] at hout
      subst hout
      by_cases hpos : 0 < sharing.length
      · rw [if_pos hpos] at hc
        rcases List.mem_append.mp hc with h3 | h3
        · exact Or.inl h3
        · rcases List.mem_singleton.mp h3 with rfl
          refine Or.inr ⟨fst_lt_of_mem_enum hq, ?_⟩
          intro j hj
          have := ofoldl_acc_mem
            (Q := fun j : Nat => ti < j ∧ j < ts.length) hsh ?_ j hj
          · rcases this with h4 | h4
            · cases h4
            · exact h4
          · intro s oi out3 hoi hstep2 j2 hj2
            simp only [Option.bind_eq_bind] at hstep2
            rcases Option.bind_eq_some.mp hstep2 with ⟨hit, _, hout3⟩
            simp only [Option.pure_def, Option.some_inj] at hout3
            subst hout3
            by_cases hh : hit = true
            · rw [if_pos hh] at hj2
              rcases List.mem_append.mp hj2 with h5 | h5
              · exact Or.inl h5
              · rcases List.mem_singleton.mp h5 with rfl
                have := List.mem_range'_1.mp hoi
                exact Or.inr ⟨by omega, by omega⟩
            · rw [if_neg hh] at hj2
              exact Or.inl hj2
      · rw [if_neg hpos] at hc
        exact Or.inl hc

theorem foldl_append_eq_acc {α β : Type} (h : α → List β) :
    ∀ (l : List α) (acc : List β), (∀ i ∈ l, h i = []) →
      l.foldl (fun a i => a ++ h i) acc = acc := by
  intro l
  induction l with
  | nil => intro acc _; rfl
  | cons x xs ih =>
      intro acc hall
      simp only [List.foldl_cons]
      rw [hall x (List.mem_cons_self x xs), List.append_nil]
      exact ih acc (fun i hi => hall i (List.mem_cons_of_mem x hi))

theorem termCands_nil (ts : List Ast) (ti : Nat) : termCands ts ti [] = [] := by
  unfold termCands
  apply foldl_append_eq_acc
  intro i hi
  have h1 : 1 ≤ i := (List.mem_range'_1.mp hi).1
  cases i with
  | zero => cases h1
  | succ j => rfl

theorem termCands_struct (ts : List Ast) (ti : Nat)
    (shares : List (Nat × List Nat)) (B : Nat)
    (hw : ∀ p ∈ shares, p.1 < B ∧ ∀ j ∈ p.2, ti < j ∧ j < ts.length) :
    ∀ c ∈ termCands ts ti shares,
      c.termIdx = ti ∧ c.facIdxs ≠ [] ∧ (∀ i ∈ c.facIdxs, i < B) ∧
      c.inter ≠ [] ∧ (∀ j ∈ c.inter, ti < j ∧ j < ts.length) := by
  intro c hc
  unfold termCands at hc
  rcases foldl_append_mem _ _ _ _ hc with h2 | ⟨i, _, h3⟩
  · cases h2
  · rcases List.mem_filterMap.mp h3 with ⟨comb, hcomb, hf⟩
    cases comb with
    | nil => simp at hf
    | cons c0 rest =>
        by_cases hpos :
            0 < ((c0 :: rest).foldl (fun acc2 p => interSets acc2 p.2) c0.2).length
        · dsimp only at hf
          rw [if_pos hpos] at hf
          obtain rfl := Option.some.inj hf
          refine ⟨rfl, by simp, ?_, ?_, ?_⟩
          · intro i2 hi2
            rcases List.mem_map.mp hi2 with ⟨p, hp, rfl⟩
            exact (hw p (combinations_mem shares i (c0 :: rest) hcomb p hp)).1
          · intro hnil
            dsimp only at hnil
            rw [hnil] at hpos
            simp at hpos
          · intro j hj
            have hj0 := interFold_subset (c0 :: rest) c0.2 j hj
            exact (hw c0 (combinations_mem shares i (c0 :: rest) hcomb c0
              (List.mem_cons_self c0 rest))).2 j hj0
        · dsimp only at hf
          rw [if_neg hpos] at hf
          cases hf

theorem scanCands_struct (ts : List Ast) (cands : List Cand)
    (h : scanCands ts = some cands) :
    ∀ c ∈ cands, c.termIdx < ts.length ∧ c.facIdxs ≠ [] ∧ c.inter ≠ [] ∧
      (∀ j ∈ c.inter, c.termIdx < j ∧ j < ts.length) ∧
      ∃ fs, ts.getD c.termIdx default = Ast.Prod fs ∧
        ∀ i ∈ c.facIdxs, i < fs.length := by
  unfold scanCands at h
  intro c hc
  have := ofoldl_acc_mem
    (Q := fun c : Cand => c.termIdx < ts.length ∧ c.facIdxs ≠ [] ∧
      c.inter ≠ [] ∧ (∀ j ∈ c.inter, c.termIdx < j ∧ j < ts.length) ∧
      ∃ fs, ts.getD c.termIdx default = Ast.Prod fs ∧
        ∀ i ∈ c.facIdxs, i < fs.length) h ?_ c hc
  · rcases this with h2 | h2
    · cases h2
    · exact h2
  · intro acc2 ti out2 hti hstep c2 hc2
    simp only [Option.bind_eq_bind] at hstep
    rcases Option.bind_eq_some.mp hstep with ⟨shares, hsh, hout⟩
    simp only [Option.pure_def, Option.some_inj] at hout
    subst hout
    rcases List.mem_append.mp hc2 with h3 | h3
    · exact Or.inl h3
    · right
      rcases hterm : ts.getD ti default with v | k | x | l | fs
      · rw [show sharesPerFactor ts ti = some [] by
            unfold sharesPerFactor; rw [hterm]; rfl] at hsh
        obtain rfl := (Option.some.inj hsh).symm
        rw [termCands_nil] at h3
        cases h3
      · rw [show sharesPerFactor ts ti = some [] by
            unfold sharesPerFactor; rw [hterm]; rfl] at hsh
        obtain rfl := (Option.some.inj hsh).symm
        rw [termCands_nil] at h3
        cases h3
      · rw [show sharesPerFactor ts ti = some [] by
            unfold sharesPerFactor; rw [hterm]; rfl] at hsh
        obtain rfl := (Option.some.inj hsh).symm
        rw [termCands_nil] at h3
        cases h3
      · rw [show sharesPerFactor ts ti = some [] by
            unfold sharesPerFactor; rw [hterm]; rfl] at hsh
        obtain rfl := (Option.some.inj hsh).symm
        rw [termCands_nil] at h3
        cases h3
      · have hw : ∀ p ∈ shares, p.1 < fs.length ∧
            ∀ j ∈ p.2, ti < j ∧ j < ts.length := by
          intro p hp
          rcases sharesPerFactor_struct ts ti shares hsh p hp with ⟨⟨fs2, hfs2, hb⟩, hj⟩
          rw [hterm] at hfs2
          cases hfs2
          exact ⟨hb, hj⟩
        have := termCands_struct ts ti shares fs.length hw c2 h3
        rcases this with ⟨hid, hfne, hfb, hine, hib⟩
        rw [hid]
        exact ⟨List.mem_range.mp hti, hfne, hine, hib, fs, hterm, hfb⟩

theorem selInOut_partition (jw : List Nat) (l : List Ast) :
    (selIn jw l).length + (selOut jw l).length = l.length := by
  rw [selIn_eq_gsel, selOut_eq_gselN]
  exact gsel_gselN_partition l _

/-- The key decrease facts of one selected factoring pass: the reduced
  arena keeps its length, the inner factored sum weighs strictly less
  than the original sum, and at least two terms are factored. -/
theorem factored_mu_lt (ts : List Ast) (cands : List Cand) (c : Cand)
    (reduced : List Ast)
    (hsc : scanCands ts = some cands) (hbest : (bestFold cands).best = some c)
    (hred : omap (fun p =>
        if (c.inter ++ [c.termIdx]).contains p.1 then
          reduceTerm p.2 (pulledOf (ts.getD c.termIdx default) c.facIdxs)
        else pure p.2) ts.enum = some reduced) :
    reduced.length = ts.length ∧
    muA (Ast.Sum (selIn (c.inter ++ [c.termIdx]) reduced)) + 1
      ≤ muA (Ast.Sum ts) ∧
    2 ≤ (selIn (c.inter ++ [c.termIdx]) reduced).length := by
  have hcmem := (bestFold_best_score cands c hbest).2
  obtain ⟨hti, hFne, hIne, hIb, fs, hfs, hFb⟩ :=
    scanCands_struct ts cands hsc c hcmem
  have hlen : reduced.length = ts.length := by
    have := omap_length hred
    simpa [List.enum_length] using this
  have hpoint : ∀ i, i < ts.length →
      muA (reduced.getD i default) ≤ muA (ts.getD i default) ∧
      ((c.inter ++ [c.termIdx]).contains i = true →
        reduceTerm (ts.getD i default)
          (pulledOf (ts.getD c.termIdx default) c.facIdxs)
          = some (reduced.getD i default)) := by
    intro i hi
    have hEg := enum_get?_eq ts i (ts.getD i default) (get?_getD ts i hi)
    have h2 := omap_get hred hEg
    dsimp only at h2
    have hri : i < reduced.length := by omega
    rw [get?_getD reduced i hri] at h2
    by_cases hcont : (c.inter ++ [c.termIdx]).contains i = true
    · rw [if_pos hcont] at h2
      exact ⟨reduceTerm_mu_le h2.symm, fun _ => h2.symm⟩
    · rw [if_neg hcont] at h2
      simp only [Option.pure_def, Option.some_inj] at h2
      constructor
      · rw [h2]
      · intro hcc
        exact absurd hcc hcont
  have hconTi : (c.inter ++ [c.termIdx]).contains c.termIdx = true :=
    List.elem_iff.mpr (List.mem_append.mpr (Or.inr (List.mem_singleton_self _)))
  have hbase := (hpoint c.termIdx hti).2 hconTi
  obtain ⟨i0, hi0⟩ := List.exists_mem_of_ne_nil _ hFne
  have hpl_ne : pulledOf (ts.getD c.termIdx default) c.facIdxs ≠ [] := by
    rw [hfs]
    exact pulledOf_ne_nil hi0 (hFb i0 hi0)
  obtain ⟨a, ha⟩ := List.exists_mem_of_ne_nil _ hpl_ne
  have hchild : PyVal.node a ∈ astChildren (ts.getD c.termIdx default) :=
    pulledOf_mem ha
  have hstrict : muA (reduced.getD c.termIdx default) + 1
      ≤ muA (ts.getD c.termIdx default) :=
    reduceTerm_mu_drop hbase ha hchild
  have hmuls : muL (selIn (c.inter ++ [c.termIdx]) reduced) + 1
      ≤ muL (selIn (c.inter ++ [c.termIdx]) ts) := by
    rw [selIn_eq_gsel, selIn_eq_gsel]
    exact gsel_muL_strict ts reduced _ c.termIdx hlen.symm
      (fun i hi => (hpoint i hi).1) hti hconTi hstrict
  have hwhole : muL (selIn (c.inter ++ [c.termIdx]) ts) ≤ muL ts := by
    rw [selIn_eq_gsel]
    exact gsel_muL_le_whole ts _
  refine ⟨hlen, ?_, ?_⟩
  · rw [muA_sum, muA_sum]
    omega
  · obtain ⟨j0, hj0⟩ := List.exists_mem_of_ne_nil _ hIne
    have hj0b := hIb j0 hj0
    have hconJ : (c.inter ++ [c.termIdx]).contains j0 = true :=
      List.elem_iff.mpr (List.mem_append.mpr (Or.inl hj0))
    rw [selIn_eq_gsel]
    exact gsel_two reduced _ c.termIdx j0 hj0b.1 (by omega) hconTi hconJ

/-- Fuel stability of the simplifier loop, by strong induction on the
  lexicographic pair (top-level term count, weight): the inner recursive
  call strictly decreases the weight without increasing the term count,
  and the outer recursive call strictly decreases the term count because
  at least two matched terms are merged into the single factored term. -/
theorem simpSum_stabAux :
    ∀ (n w : Nat) (t : Ast), countT t ≤ n → muA t ≤ w →
      ∃ N, 0 < N ∧ ∀ f, N ≤ f → simpSum f t = simpSum N t := by
  intro n
  induction n with
  | zero =>
      intro w t hc _
      refine ⟨1, Nat.one_pos, ?_⟩
      intro f hf
      cases f with
      | zero => cases hf
      | succ f =>
          cases t with
          | V k => rfl
          | K k => rfl
          | Neg x => rfl
          | Prod l => rfl
          | Sum ts =>
              have hts : ts = [] := List.length_eq_zero.mp (Nat.le_zero.mp hc)
              subst hts
              rfl
  | succ n ihn =>
      intro w
      induction w with
      | zero =>
          intro t _ hm
          exact absurd (le_trans (muA_pos t) hm) (Nat.not_succ_le_zero 0)
      | succ w ihw =>
          intro t hc hm
          cases t with
          | V k =>
              exact ⟨1, Nat.one_pos, fun f hf => by
                cases f with
                | zero => cases hf
                | succ f => rfl⟩
          | K k =>
              exact ⟨1, Nat.one_pos, fun f hf => by
                cases f with
                | zero => cases hf
                | succ f => rfl⟩
          | Neg x =>
              exact ⟨1, Nat.one_pos, fun f hf => by
                cases f with
                | zero => cases hf
                | succ f => rfl⟩
          | Prod l =>
              exact ⟨1, Nat.one_pos, fun f hf => by
                cases f with
                | zero => cases hf
                | succ f => rfl⟩
          | Sum ts =>
              rcases hsc : scanCands ts with _ | cands
              · refine ⟨1, Nat.one_pos, ?_⟩
                intro f hf
                cases f with
                | zero => cases hf
                | succ f =>
                    show simpSum (f + 1) (Ast.Sum ts) = simpSum 1 (Ast.Sum ts)
                    simp only [simpSum, Option.bind_eq_bind, hsc,
                      Option.none_bind]
              · rcases hbest : (bestFold cands).best with _ | c
                · refine ⟨1, Nat.one_pos, ?_⟩
                  intro f hf
                  cases f with
                  | zero => cases hf
                  | succ f =>
                      show simpSum (f + 1) (Ast.Sum ts) = simpSum 1 (Ast.Sum ts)
                      simp only [simpSum, Option.bind_eq_bind, hsc,
                        Option.some_bind, hbest]
                · rcases hred : omap (fun p =>
                      if (c.inter ++ [c.termIdx]).contains p.1 then
                        reduceTerm p.2
                          (pulledOf (ts.getD c.termIdx default) c.facIdxs)
                      else pure p.2) ts.enum with _ | reduced
                  · refine ⟨1, Nat.one_pos, ?_⟩
                    intro f hf
                    cases f with
                    | zero => cases hf
                    | succ f =>
                        show simpSum (f + 1) (Ast.Sum ts)
                          = simpSum 1 (Ast.Sum ts)
                        simp only [simpSum, Option.bind_eq_bind, hsc,
                          Option.some_bind, hbest, hred, Option.none_bind]
                  · obtain ⟨hlenred, hmu, hsel2⟩ :=
                      factored_mu_lt ts cands c reduced hsc hbest hred
                    have hcX : countT (Ast.Sum
                        (selIn (c.inter ++ [c.termIdx]) reduced)) ≤ n + 1 := by
                      show (selIn (c.inter ++ [c.termIdx]) reduced).length ≤ n + 1
                      rw [selIn_eq_gsel]
                      have := gsel_length_le reduced
                        (fun i => (c.inter ++ [c.termIdx]).contains i)
                      have hcts : ts.length ≤ n + 1 := hc
                      omega
                    have hmX : muA (Ast.Sum
                        (selIn (c.inter ++ [c.termIdx]) reduced)) ≤ w := by
                      omega
                    obtain ⟨Ni, hNi0, hNi⟩ := ihw _ hcX hmX
                    rcases hInn : simpSum Ni (Ast.Sum
                        (selIn (c.inter ++ [c.termIdx]) reduced)) with _ | innerS
                    · refine ⟨Ni + 1, by omega, ?_⟩
                      intro f hf
                      cases f with
                      | zero => exact absurd hf (by omega)
                      | succ f =>
                          have e1 : simpSum f (Ast.Sum
                              (selIn (c.inter ++ [c.termIdx]) reduced)) = none := by
                            rw [hNi f (by omega), hInn]
                          show simpSum (f + 1) (Ast.Sum ts)
                            = simpSum (Ni + 1) (Ast.Sum ts)
                          simp only [simpSum, Option.bind_eq_bind, hsc,
                            Option.some_bind, hbest, hred, e1, hInn,
                            Option.none_bind]
                    · have hpart := selInOut_partition
                        (c.inter ++ [c.termIdx]) reduced
                      rcases hout : selOut (c.inter ++ [c.termIdx]) reduced
                          with _ | ⟨o, os⟩
                      · -- all terms matched: the result is the product itself
                        have hcR : countT (Ast.Prod
                            (pulledOf (ts.getD c.termIdx default) c.facIdxs
                              ++ [innerS])) ≤ n := by
                          show (0 : Nat) ≤ n
                          omega
                        obtain ⟨Nr, hNr0, hNr⟩ := ihn (muA _) _ hcR (le_refl _)
                        refine ⟨max Ni Nr + 1, by omega, ?_⟩
                        intro f hf
                        cases f with
                        | zero => exact absurd hf (by omega)
                        | succ f =>
                            have e1 : simpSum f (Ast.Sum
                                (selIn (c.inter ++ [c.termIdx]) reduced))
                                = some innerS := by
                              rw [hNi f (by omega), hInn]
                            have e2 : simpSum (max Ni Nr) (Ast.Sum
                                (selIn (c.inter ++ [c.termIdx]) reduced))
                                = some innerS := by
                              rw [hNi (max Ni Nr) (le_max_left _ _), hInn]
                            have e3 := hNr f (by omega)
                            have e4 := hNr (max Ni Nr) (le_max_right _ _)
                            show simpSum (f + 1) (Ast.Sum ts)
                              = simpSum (max Ni Nr + 1) (Ast.Sum ts)
                            simp only [simpSum, Option.bind_eq_bind, hsc,
                              Option.some_bind, hbest, hred, e1, e2, hout]
                            rw [e3, e4]
                      · -- some terms left out: the result is a shorter sum
                        have hcR : countT (Ast.Sum
                            (Ast.Prod (pulledOf (ts.getD c.termIdx default)
                                c.facIdxs ++ [innerS])
                              :: o :: os)) ≤ n := by
                          show (o :: os).length + 1 ≤ n
                          have hoos : (o :: os).length
                              = (selOut (c.inter ++ [c.termIdx]) reduced).length := by
                            rw [hout]
                          have hcts : ts.length ≤ n + 1 := hc
                          omega
                        obtain ⟨Nr, hNr0, hNr⟩ := ihn (muA _) _ hcR (le_refl _)
                        refine ⟨max Ni Nr + 1, by omega, ?_⟩
                        intro f hf
                        cases f with
                        | zero => exact absurd hf (by omega)
                        | succ f =>
                            have e1 : simpSum f (Ast.Sum
                                (selIn (c.inter ++ [c.termIdx]) reduced))
                                = some innerS := by
                              rw [hNi f (by omega), hInn]
                            have e2 : simpSum (max Ni Nr) (Ast.Sum
                                (selIn (c.inter ++ [c.termIdx]) reduced))
                                = some innerS := by
                              rw [hNi (max Ni Nr) (le_max_left _ _), hInn]
                            have e3 := hNr f (by omega)
                            have e4 := hNr (max Ni Nr) (le_max_right _ _)
                            show simpSum (f + 1) (Ast.Sum ts)
                              = simpSum (max Ni Nr + 1) (Ast.Sum ts)
                            simp only [simpSum, Option.bind_eq_bind, hsc,
                              Option.some_bind, hbest, hred, e1, e2, hout]
                            rw [e3, e4]

/-- Once simpSumE reaches a verdict (a normal return or a raised
  TypeError), more fuel does not change it. -/
theorem simpSumE_mono :
    ∀ (f : Nat) (t : Ast) (r : Option Ast), simpSumE f t = some r →
      ∀ g, f ≤ g → simpSumE g t = some r := by
  intro f
  induction f with
  | zero =>
      intro t r h
      rw [show simpSumE 0 t = none from rfl] at h
      cases h
  | succ f ih =>
      intro t r h g hg
      cases g with
      | zero => exact absurd hg (by omega)
      | succ g =>
          have hfg : f ≤ g := by omega
          cases t with
          | V k => exact h
          | K k => exact h
          | Neg x => exact h
          | Prod l => exact h
          | Sum ts =>
              rcases hsc : scanCands ts with _ | cands
              · have e : ∀ m : Nat, simpSumE (m + 1) (Ast.Sum ts)
                    = some none := fun m => by
                  simp only [simpSumE, hsc]
                rw [e f] at h
                rw [e g]
                exact h
              · rcases hbest : (bestFold cands).best with _ | c
                · have e : ∀ m : Nat, simpSumE (m + 1) (Ast.Sum ts)
                      = some (some (Ast.Sum ts)) := fun m => by
                    simp only [simpSumE, hsc, hbest]
                  rw [e f] at h
                  rw [e g]
                  exact h
                · rcases hred : omap (fun p =>
                      if (c.inter ++ [c.termIdx]).contains p.1 then
                        reduceTerm p.2
                          (pulledOf (ts.getD c.termIdx default) c.facIdxs)
                      else pure p.2) ts.enum with _ | reduced
                  · have e : ∀ m : Nat, simpSumE (m + 1) (Ast.Sum ts)
                        = some none := fun m => by
                      simp only [simpSumE, hsc, hbest, hred]
                    rw [e f] at h
                    rw [e g]
                    exact h
                  · rcases hE : simpSumE f (Ast.Sum
                        (selIn (c.inter ++ [c.termIdx]) reduced))
                        with _ | (_ | innerS)
                    · have e : simpSumE (f + 1) (Ast.Sum ts) = none := by
                        simp only [simpSumE, hsc, hbest, hred, hE]
                      rw [e] at h
                      cases h
                    · have hgE := ih _ _ hE g hfg
                      have e : simpSumE (f + 1) (Ast.Sum ts) = some none := by
                        simp only [simpSumE, hsc, hbest, hred, hE]
                      have e2 : simpSumE (g + 1) (Ast.Sum ts) = some none := by
                        simp only [simpSumE, hsc, hbest, hred, hgE]
                      rw [e] at h
                      rw [e2]
                      exact h
                    · have hgE := ih _ _ hE g hfg
                      have e : simpSumE (f + 1) (Ast.Sum ts)
                          = simpSumE f
                            (match selOut (c.inter ++ [c.termIdx]) reduced with
                             | [] => Ast.Prod
                                 (pulledOf (ts.getD c.termIdx default) c.facIdxs
                                   ++ [innerS])
                             | _ => Ast.Sum (Ast.Prod
                                 (pulledOf (ts.getD c.termIdx default) c.facIdxs
                                   ++ [innerS])
                                 :: selOut (c.inter ++ [c.termIdx]) reduced)) := by
                        simp only [simpSumE, hsc, hbest, hred, hE]
                      have e2 : simpSumE (g + 1) (Ast.Sum ts)
                          = simpSumE g
                            (match selOut (c.inter ++ [c.termIdx]) reduced with
                             | [] => Ast.Prod
                                 (pulledOf (ts.getD c.termIdx default) c.facIdxs
                                   ++ [innerS])
                             | _ => Ast.Sum (Ast.Prod
                                 (pulledOf (ts.getD c.termIdx default) c.facIdxs
                                   ++ [innerS])
                                 :: selOut (c.inter ++ [c.termIdx]) reduced)) := by
                        simp only [simpSumE, hsc, hbest, hred, hgE]
                      rw [e] at h
                      rw [e2]
                      exact ih _ _ h g hfg

/-- Collapsing simpSumE's two error levels (fuel exhaustion and raised
  TypeError) recovers simpSum: the two definitions embed the same
  source function. -/
theorem simpSum_eq_join :
    ∀ (f : Nat) (t : Ast), simpSum f t = (simpSumE f t).join := by
  intro f
  induction f with
  | zero => intro t; rfl
  | succ f ih =>
      intro t
      cases t with
      | V k => rfl
      | K k => rfl
      | Neg x => rfl
      | Prod l => rfl
      | Sum ts =>
          rcases hsc : scanCands ts with _ | cands
          · show simpSum (f + 1) (Ast.Sum ts) = _
            simp only [simpSum, simpSumE, Option.bind_eq_bind, hsc,
              Option.none_bind, Option.join]
            rfl
          · rcases hbest : (bestFold cands).best with _ | c
            · show simpSum (f + 1) (Ast.Sum ts) = _
              simp only [simpSum, simpSumE, Option.bind_eq_bind, hsc,
                Option.some_bind, hbest, Option.join]
              rfl
            · rcases hred : omap (fun p =>
                  if (c.inter ++ [c.termIdx]).contains p.1 then
                    reduceTerm p.2
                      (pulledOf (ts.getD c.termIdx default) c.facIdxs)
                  else pure p.2) ts.enum with _ | reduced
              · show simpSum (f + 1) (Ast.Sum ts) = _
                simp only [simpSum, simpSumE, Option.bind_eq_bind, hsc,
                  Option.some_bind, hbest, hred, Option.none_bind, Option.join]
                rfl
              · rcases hE : simpSumE f (Ast.Sum
                    (selIn (c.inter ++ [c.termIdx]) reduced))
                    with _ | (_ | innerS)
                · have e1 : simpSum f (Ast.Sum
                      (selIn (c.inter ++ [c.termIdx]) reduced)) = none := by
                    rw [ih, hE]
                    rfl
                  show simpSum (f + 1) (Ast.Sum ts) = _
                  simp only [simpSum, simpSumE, Option.bind_eq_bind, hsc,
                    Option.some_bind, hbest, hred, e1, hE, Option.none_bind,
                    Option.join]
                · have e1 : simpSum f (Ast.Sum
                      (selIn (c.inter ++ [c.termIdx]) reduced)) = none := by
                    rw [ih, hE]
                    rfl
                  show simpSum (f + 1) (Ast.Sum ts) = _
                  simp only [simpSum, simpSumE, Option.bind_eq_bind, hsc,
                    Option.some_bind, hbest, hred, e1, hE, Option.none_bind,
                    Option.join]
                  rfl
                · have e1 : simpSum f (Ast.Sum
                      (selIn (c.inter ++ [c.termIdx]) reduced))
                      = some innerS := by
                    rw [ih, hE]
                    rfl
                  show simpSum (f + 1) (Ast.Sum ts) = _
                  simp only [simpSum, simpSumE, Option.bind_eq_bind, hsc,
                    Option.some_bind, hbest, hred, e1, hE]
                  exact ih _

/-- With enough fuel simpSumE reaches a verdict: the nested strong
  induction on (top-level term count, 2 * literals + size) shows the
  self-recursion of _simplify_sum finishes on every input tree. -/
theorem simpSumE_termAux :
    ∀ (n w : Nat) (t : Ast), countT t ≤ n → muA t ≤ w →
      ∃ N r, simpSumE N t = some r := by
  intro n
  induction n with
  | zero =>
      intro w t hc _
      cases t with
      | V k => exact ⟨1, some (Ast.V k), rfl⟩
      | K k => exact ⟨1, some (Ast.K k), rfl⟩
      | Neg x => exact ⟨1, some (Ast.Neg x), rfl⟩
      | Prod l => exact ⟨1, some (Ast.Prod l), rfl⟩
      | Sum ts =>
          have hts : ts = [] := List.length_eq_zero.mp (Nat.le_zero.mp hc)
          subst hts
          exact ⟨1, some (Ast.Sum []), rfl⟩
  | succ n ihn =>
      intro w
      induction w with
      | zero =>
          intro t _ hm
          exact absurd (le_trans (muA_pos t) hm) (Nat.not_succ_le_zero 0)
      | succ w ihw =>
          intro t hc hm
          cases t with
          | V k => exact ⟨1, some (Ast.V k), rfl⟩
          | K k => exact ⟨1, some (Ast.K k), rfl⟩
          | Neg x => exact ⟨1, some (Ast.Neg x), rfl⟩
          | Prod l => exact ⟨1, some (Ast.Prod l), rfl⟩
          | Sum ts =>
              rcases hsc : scanCands ts with _ | cands
              · exact ⟨1, none, by simp only [simpSumE, hsc]⟩
              · rcases hbest : (bestFold cands).best with _ | c
                · exact ⟨1, some (Ast.Sum ts), by
                    simp only [simpSumE, hsc, hbest]⟩
                · rcases hred : omap (fun p =>
                      if (c.inter ++ [c.termIdx]).contains p.1 then
                        reduceTerm p.2
                          (pulledOf (ts.getD c.termIdx default) c.facIdxs)
                      else pure p.2) ts.enum with _ | reduced
                  · exact ⟨1, none, by simp only [simpSumE, hsc, hbest, hred]⟩
                  · obtain ⟨hlenred, hmu, hsel2⟩ :=
                      factored_mu_lt ts cands c reduced hsc hbest hred
                    have hcX : countT (Ast.Sum
                        (selIn (c.inter ++ [c.termIdx]) reduced)) ≤ n + 1 := by
                      show (selIn (c.inter ++ [c.termIdx]) reduced).length ≤ n + 1
                      rw [selIn_eq_gsel]
                      have := gsel_length_le reduced
                        (fun i => (c.inter ++ [c.termIdx]).contains i)
                      have hcts : ts.length ≤ n + 1 := hc
                      omega
                    have hmX : muA (Ast.Sum
                        (selIn (c.inter ++ [c.termIdx]) reduced)) ≤ w := by
                      omega
                    obtain ⟨Ni, ri, hInn⟩ := ihw _ hcX hmX
                    rcases ri with _ | innerS
                    · refine ⟨Ni + 1, none, ?_⟩
                      have e1 := simpSumE_mono Ni _ _ hInn Ni (le_refl _)
                      simp only [simpSumE, hsc, hbest, hred, hInn]
                    · have hpart := selInOut_partition
                        (c.inter ++ [c.termIdx]) reduced
                      rcases hout : selOut (c.inter ++ [c.termIdx]) reduced
                          with _ | ⟨o, os⟩
                      · have hcR : countT (Ast.Prod
                            (pulledOf (ts.getD c.termIdx default) c.facIdxs
                              ++ [innerS])) ≤ n := by
                          show (0 : Nat) ≤ n
                          omega
                        obtain ⟨Nr, rr, hNr⟩ := ihn (muA _) _ hcR (le_refl _)
                        refine ⟨max Ni Nr + 1, rr, ?_⟩
                        have e1 : simpSumE (max Ni Nr) (Ast.Sum
                            (selIn (c.inter ++ [c.termIdx]) reduced))
                            = some (some innerS) :=
                          simpSumE_mono Ni _ _ hInn _ (le_max_left _ _)
                        have e2 : simpSumE (max Ni Nr) (Ast.Prod
                            (pulledOf (ts.getD c.termIdx default) c.facIdxs
                              ++ [innerS])) = some rr :=
                          simpSumE_mono Nr _ _ hNr _ (le_max_right _ _)
                        simp only [simpSumE, hsc, hbest, hred, e1, hout]
                        exact e2
                      · have hcR : countT (Ast.Sum
                            (Ast.Prod (pulledOf (ts.getD c.termIdx default)
                                c.facIdxs ++ [innerS])
                              :: o :: os)) ≤ n := by
                          show (o :: os).length + 1 ≤ n
                          have hoos : (o :: os).length
                              = (selOut (c.inter ++ [c.termIdx])
                                  reduced).length := by
                            rw [hout]
                          have hcts : ts.length ≤ n + 1 := hc
                          omega
                        obtain ⟨Nr, rr, hNr⟩ := ihn (muA _) _ hcR (le_refl _)
                        refine ⟨max Ni Nr + 1, rr, ?_⟩
                        have e1 : simpSumE (max Ni Nr) (Ast.Sum
                            (selIn (c.inter ++ [c.termIdx]) reduced))
                            = some (some innerS) :=
                          simpSumE_mono Ni _ _ hInn _ (le_max_left _ _)
                        have e2 : simpSumE (max Ni Nr) (Ast.Sum
                            (Ast.Prod (pulledOf (ts.getD c.termIdx default)
                                c.facIdxs ++ [innerS])
                              :: o :: os)) = some rr :=
                          simpSumE_mono Nr _ _ hNr _ (le_max_right _ _)
                        simp only [simpSumE, hsc, hbest, hred, e1, hout]
                        exact e2

/-- C8: termination of the simplifier.  simpSumE separates the
  embedding artifact from the source's outcomes: none means the fuel ran
  out with no verdict, some none means the source raises a TypeError,
  and some (some r) is a normal return; collapsing the two error levels
  with Option.join recovers simpSum, so both embed the same source
  function.  For every input tree (in particular every sum-of-products
  tree) some positive fuel yields a definite verdict, which no further
  fuel changes: the unbounded self-recursion of _simplify_sum reaches
  its no-candidate fixpoint or an exception after finitely many passes
  and cannot run forever, so _simplify_sum and hence simplify_ast
  terminate. -/
theorem claim_C8_termination (t : Ast) :
    (∀ f, simpSum f t = (simpSumE f t).join) ∧
    ∃ N, 0 < N ∧ simpSumE N t ≠ none ∧
      ∀ f, N ≤ f → simpSumE f t = simpSumE N t := by
  refine ⟨fun f => simpSum_eq_join f t, ?_⟩
  obtain ⟨N, r, hN⟩ := simpSumE_termAux (countT t) (muA t) t
    (le_refl _) (le_refl _)
  have hN0 : 0 < N := by
    cases hNn : N with
    | zero =>
        rw [hNn] at hN
        rw [show simpSumE 0 t = none from rfl] at hN
        cases hN
    | succ n => omega
  refine ⟨N, hN0, ?_, ?_⟩
  · rw [hN]
    exact Option.some_ne_none r
  · intro f hf
    rw [hN, simpSumE_mono N t r hN f hf]

/-- C1, counterexample: soundness of the returned cover fails as stated.
  The table [[0,0,2],[0,0,1],[0,1,2],[1,0,2],[1,1,2]] over free-variable
  columns 0,1 with target column 2 has only 0/1 free-variable entries
  and no two rows with the same assignment and conflicting target bits
  (there is no strictly ZERO row at all).  Yet the ONE row [0,0,1] is
  covered by no returned implicant: the duplicated assignment 00 appears
  first as a DONT_CARE row, so the optional initial implicant joins
  first, the later non-optional joins are discarded as hash duplicates
  while still marking their parents Covered, and every surviving
  implicant is optional; the returned EPI list is empty. -/
theorem claim_C1_counterexample :
    (∀ row ∈ ([[0,0,2],[0,0,1],[0,1,2],[1,0,2],[1,1,2]] : List (List Nat)),
      ∀ j ∈ [0, 1], row.getD j 0 = 0 ∨ row.getD j 0 = 1) ∧
    (∀ r1 ∈ ([[0,0,2],[0,0,1],[0,1,2],[1,0,2],[1,1,2]] : List (List Nat)),
      ∀ r2 ∈ ([[0,0,2],[0,0,1],[0,1,2],[1,0,2],[1,1,2]] : List (List Nat)),
      [0, 1].map (fun j => r1.getD j 0) = [0, 1].map (fun j => r2.getD j 0) →
      ¬(r1.getD 2 0 = ONE ∧ r2.getD 2 0 = ZERO)) ∧
    ([0, 0, 1] : List Nat).getD 2 0 = ONE ∧
    ∀ imp ∈ solve_and_or [[0,0,2],[0,0,1],[0,1,2],[1,0,2],[1,1,2]] 2 [0, 1],
      ¬ satL imp.Values ([0, 1].map (fun j => ([0, 0, 1] : List Nat).getD j 0)) := by
  refine ⟨by decide, by decide, rfl, ?_⟩
  intro imp himp
  rw [show solve_and_or [[0,0,2],[0,0,1],[0,1,2],[1,0,2],[1,1,2]] 2 [0, 1]
      = [] from rfl] at himp
  cases himp

/-! #### Basic cover-soundness lemmas (towards C1) -/

theorem satL_refl : ∀ (vs : List Nat), satL vs vs := by
  intro vs
  induction vs with
  | nil => trivial
  | cons x xs ih => exact ⟨Or.inr rfl, ih⟩

theorem satL_joinL :
    ∀ (a b v : List Nat), a.length = b.length → joinableVals a b = true →
      satL a v → satL (joinVals a b) v := by
  intro a
  induction a with
  | nil =>
      intro b v hlen _ hs
      cases b with
      | nil => exact hs
      | cons y ys => simp at hlen
  | cons x xs ih =>
      intro b v hlen hj hs
      cases b with
      | nil => simp at hlen
      | cons y ys =>
          cases v with
          | nil => cases hs
          | cons w ws =>
              simp only [List.length_cons, Nat.succ.injEq] at hlen
              simp only [joinableVals, List.zip_cons_cons, List.all_cons,
                Bool.and_eq_true] at hj
              rcases hs with ⟨hh, ht⟩
              constructor
              · show (if x ≠ y then EITHER else x) = EITHER ∨
                  w = (if x ≠ y then EITHER else x)
                by_cases hxy : x = y
                · rw [if_neg (by simpa using hxy)]
                  exact hh
                · rw [if_pos (by simpa using hxy)]
                  exact Or.inl rfl
              · exact ih ys ws hlen hj.2 ht

theorem satL_joinR :
    ∀ (a b v : List Nat), a.length = b.length → joinableVals a b = true →
      satL b v → satL (joinVals a b) v := by
  intro a
  induction a with
  | nil =>
      intro b v hlen _ hs
      cases b with
      | nil => exact hs
      | cons y ys => simp at hlen
  | cons x xs ih =>
      intro b v hlen hj hs
      cases b with
      | nil => simp at hlen
      | cons y ys =>
          cases v with
          | nil => cases hs
          | cons w ws =>
              simp only [List.length_cons, Nat.succ.injEq] at hlen
              simp only [joinableVals, List.zip_cons_cons, List.all_cons,
                Bool.and_eq_true] at hj
              rcases hs with ⟨hh, ht⟩
              constructor
              · show (if x ≠ y then EITHER else x) = EITHER ∨
                  w = (if x ≠ y then EITHER else x)
                by_cases hxy : x = y
                · rw [if_neg (by simpa using hxy)]
                  rw [hxy]
                  exact hh
                · rw [if_pos (by simpa using hxy)]
                  exact Or.inl rfl
              · exact ih ys ws hlen hj.2 ht

theorem eitherCount_cons (x : Nat) (xs : List Nat) :
    eitherCount (x :: xs) = (if x = 2 then 1 else 0) + eitherCount xs := by
  unfold eitherCount EITHER
  rw [List.countP_cons]
  simp only [decide_eq_true_eq]
  split_ifs <;> omega

theorem eitherCount_joinVals :
    ∀ (a b : List Nat), a.length = b.length → joinableVals a b = true →
      eitherCount (joinVals a b) = eitherCount a + countDiffL a b := by
  intro a
  induction a with
  | nil =>
      intro b hlen _
      cases b with
      | nil => rfl
      | cons y ys => simp at hlen
  | cons x xs ih =>
      intro b hlen hj
      cases b with
      | nil => simp at hlen
      | cons y ys =>
          simp only [List.length_cons, Nat.succ.injEq] at hlen
          simp only [joinableVals, List.zip_cons_cons, List.all_cons,
            Bool.and_eq_true] at hj
          show eitherCount ((if x ≠ y then EITHER else x) :: joinVals xs ys)
            = eitherCount (x :: xs) + countDiffL (x :: xs) (y :: ys)
          by_cases hxy : x = y
          · rw [show (if x ≠ y then EITHER else x) = x by simp [hxy]]
            rw [show countDiffL (x :: xs) (y :: ys) = countDiffL xs ys by
              simp [countDiffL, hxy]]
            rw [eitherCount_cons, eitherCount_cons, ih ys hlen hj.2]
            omega
          · rw [show (if x ≠ y then EITHER else x) = EITHER by simp [hxy]]
            have hx0 : x = ZERO ∧ y = ONE := by
              rcases Bool.or_eq_true_iff.mp hj.1 with h2 | h2
              · exact absurd (by simpa using h2) hxy
              · simpa using Bool.and_eq_true_iff.mp h2
            rw [show countDiffL (x :: xs) (y :: ys) = 1 + countDiffL xs ys by
              simp [countDiffL, hxy]]
            rw [eitherCount_cons, eitherCount_cons, ih ys hlen hj.2]
            rw [show (if (EITHER : Nat) = 2 then 1 else 0) = 1 by decide]
            rw [show (if x = 2 then 1 else 0) = 0 by rw [hx0.1]; decide]
            omega

theorem oneCount_le_length (vs : List Nat) : oneCount vs ≤ vs.length :=
  List.countP_le_length _

theorem eitherCount_le_length (vs : List Nat) : eitherCount vs ≤ vs.length :=
  List.countP_le_length _

theorem eitherCount_zero_of_bool (vs : List Nat)
    (h : ∀ x ∈ vs, x = 0 ∨ x = 1) : eitherCount vs = 0 := by
  unfold eitherCount
  rw [List.countP_eq_zero]
  intro a ha
  rcases h a ha with rfl | rfl <;> simp [EITHER]

theorem cube_disjoint0 :
    ∀ (a b w : List Nat), a.length = b.length → joinableVals a b = true →
      1 ≤ countDiffL a b → satL a w → satL b w → False := by
  intro a
  induction a with
  | nil =>
      intro b w hlen _ hd _ _
      cases b with
      | nil => simp [countDiffL] at hd
      | cons y ys => simp at hlen
  | cons x xs ih =>
      intro b w hlen hj hd hsa hsb
      cases b with
      | nil => simp at hlen
      | cons y ys =>
          cases w with
          | nil => cases hsa
          | cons ww ws =>
              simp only [List.length_cons, Nat.succ.injEq] at hlen
              simp only [joinableVals, List.zip_cons_cons, List.all_cons,
                Bool.and_eq_true] at hj
              rcases hsa with ⟨hha, hta⟩
              rcases hsb with ⟨hhb, htb⟩
              by_cases hxy : x = y
              · have hd2 : 1 ≤ countDiffL xs ys := by
                  simp only [countDiffL, if_pos hxy] at hd
                  omega
                exact ih ys ws hlen hj.2 hd2 hta htb
              · have hx0 : x = ZERO ∧ y = ONE := by
                  rcases Bool.or_eq_true_iff.mp hj.1 with h2 | h2
                  · exact absurd (by simpa using h2) hxy
                  · simpa using Bool.and_eq_true_iff.mp h2
                rcases hha with h2 | h2
                · rw [hx0.1] at h2; cases h2
                · rcases hhb with h3 | h3
                  · rw [hx0.2] at h3; cases h3
                  · rw [hx0.1] at h2
                    rw [hx0.2] at h3
                    rw [h2] at h3
                    cases h3

theorem cube_disjoint (a b w : List Nat) (hlen : a.length = b.length)
    (hj : joinableVals a b = true) (hcnt : oneCount b = oneCount a + 1)
    (hsa : satL a w) (hsb : satL b w) : False := by
  have hd := joinable_count a b hlen hj
  exact cube_disjoint0 a b w hlen hj (by omega) hsa hsb

theorem hash_fold_linear :
    ∀ (l : List Nat) (h : Nat),
      l.foldl (fun h v => (h + v) * 4) h =
        h * 4 ^ l.length + l.foldl (fun h v => (h + v) * 4) 0 := by
  intro l
  induction l with
  | nil => intro h; simp
  | cons v l ih =>
      intro h
      show l.foldl _ ((h + v) * 4) = h * 4 ^ (l.length + 1) + l.foldl _ ((0 + v) * 4)
      rw [ih ((h + v) * 4), ih ((0 + v) * 4), pow_succ]
      ring

theorem hash_fold_bound :
    ∀ (l : List Nat), (∀ x ∈ l, x = 0 ∨ x = 1 ∨ x = 2) →
      l.foldl (fun h v => (h + v) * 4) 0 < 4 ^ (l.length + 1) := by
  intro l
  induction l with
  | nil => intro _; simp
  | cons v l ih =>
      intro hb
      show l.foldl _ ((0 + v) * 4) < 4 ^ (l.length + 1 + 1)
      rw [hash_fold_linear l ((0 + v) * 4)]
      have h1 := ih (fun x hx => hb x (List.mem_cons_of_mem v hx))
      have hv : v ≤ 2 := by
        rcases hb v (List.mem_cons_self v l) with rfl | rfl | rfl <;> omega
      have h2 : (4 : Nat) ^ (l.length + 1) = 4 * 4 ^ l.length := by
        rw [pow_succ]; ring
      have h3 : (4 : Nat) ^ (l.length + 1 + 1) = 4 * (4 * 4 ^ l.length) := by
        rw [pow_succ, pow_succ]; ring
      rw [h2] at h1
      rw [h3]
      have h4 : (0 + v) * 4 * 4 ^ l.length ≤ 2 * 4 * 4 ^ l.length := by
        have h5 : (0 : Nat) < 4 ^ l.length := Nat.pow_pos (by decide)
        nlinarith
      omega

theorem hash_fold_inj :
    ∀ (l1 l2 : List Nat), l1.length = l2.length →
      (∀ x ∈ l1, x = 0 ∨ x = 1 ∨ x = 2) → (∀ x ∈ l2, x = 0 ∨ x = 1 ∨ x = 2) →
      l1.foldl (fun h v => (h + v) * 4) 0 = l2.foldl (fun h v => (h + v) * 4) 0 →
      l1 = l2 := by
  intro l1
  induction l1 with
  | nil =>
      intro l2 hlen _ _ _
      cases l2 with
      | nil => rfl
      | cons y ys => simp at hlen
  | cons v l ih =>
      intro l2 hlen hb1 hb2 he
      cases l2 with
      | nil => simp at hlen
      | cons w m =>
          simp only [List.length_cons, Nat.succ.injEq] at hlen
          have e1 : (v :: l).foldl (fun h v => (h + v) * 4) 0
              = l.foldl (fun h v => (h + v) * 4) 0 + 4 ^ (l.length + 1) * v := by
            show l.foldl _ ((0 + v) * 4) = _
            rw [hash_fold_linear l ((0 + v) * 4), pow_succ]
            ring
          have e2 : (w :: m).foldl (fun h v => (h + v) * 4) 0
              = m.foldl (fun h v => (h + v) * 4) 0 + 4 ^ (m.length + 1) * w := by
            show m.foldl _ ((0 + w) * 4) = _
            rw [hash_fold_linear m ((0 + w) * 4), pow_succ]
            ring
          have hb1t := fun x hx => hb1 x (List.mem_cons_of_mem v hx)
          have hb2t := fun x hx => hb2 x (List.mem_cons_of_mem w hx)
          have bd1 := hash_fold_bound l hb1t
          have bd2 := hash_fold_bound m hb2t
          rw [e1, e2] at he
          have hAeq : (4 : Nat) ^ (l.length + 1) = 4 ^ (m.length + 1) := by
            rw [hlen]
          rw [← hAeq] at he bd2
          have hA : 0 < (4 : Nat) ^ (l.length + 1) := Nat.pow_pos (by decide)
          have hvw : v = w := by
            have d1 : (l.foldl (fun h v => (h + v) * 4) 0
                + 4 ^ (l.length + 1) * v) / 4 ^ (l.length + 1) = v := by
              rw [Nat.add_mul_div_left _ _ hA, Nat.div_eq_of_lt bd1]
              omega
            have d2 : (m.foldl (fun h v => (h + v) * 4) 0
                + 4 ^ (l.length + 1) * w) / 4 ^ (l.length + 1) = w := by
              rw [Nat.add_mul_div_left _ _ hA, Nat.div_eq_of_lt bd2]
              omega
            rw [← d1, ← d2, he]
          subst hvw
          have htails : l.foldl (fun h v => (h + v) * 4) 0
              = m.foldl (fun h v => (h + v) * 4) 0 := by
            omega
          rw [ih m hlen hb1t hb2t htails]

theorem hashOf_inj (a b : List Nat) (hlen : a.length = b.length)
    (ha : ∀ x ∈ a, x = 0 ∨ x = 1 ∨ x = 2)
    (hb : ∀ x ∈ b, x = 0 ∨ x = 1 ∨ x = 2)
    (he : hashOf a = hashOf b) : a = b := by
  unfold hashOf at he
  rw [hash_fold_linear a 2, hash_fold_linear b 2, hlen] at he
  have : a.foldl (fun h v => (h + v) * 4) 0
      = b.foldl (fun h v => (h + v) * 4) 0 := by
    omega
  exact hash_fold_inj a b hlen ha hb this

/-! #### List utilities for the C1 liveness argument -/

theorem mem_foldl_append {α β : Type} (h : α → List β) :
    ∀ (l : List α) (acc : List β) (c : β),
      c ∈ acc ∨ (∃ i ∈ l, c ∈ h i) →
      c ∈ l.foldl (fun acc2 i => acc2 ++ h i) acc := by
  intro l
  induction l with
  | nil =>
      intro acc c hc
      rcases hc with h2 | ⟨i, hi, _⟩
      · exact h2
      · cases hi
  | cons x xs ih =>
      intro acc c hc
      simp only [List.foldl_cons]
      apply ih
      rcases hc with h2 | ⟨i, hi, h3⟩
      · exact Or.inl (List.mem_append.mpr (Or.inl h2))
      · rcases List.mem_cons.mp hi with rfl | h4
        · exact Or.inl (List.mem_append.mpr (Or.inr h3))
        · exact Or.inr ⟨i, h4, h3⟩

theorem countP_ext {p q : Nat → Bool} :
    ∀ {l : List Nat}, (∀ j ∈ l, p j = q j) → l.countP p = l.countP q := by
  intro l
  induction l with
  | nil => intro h2; rfl
  | cons a l ih =>
      intro h
      rw [List.countP_cons, List.countP_cons, h a (List.mem_cons_self a l),
        ih (fun j hj => h j (List.mem_cons_of_mem a hj))]

theorem countP_singleton (p : Nat → Bool) (x : Nat) :
    [x].countP p = if p x = true then 1 else 0 := by
  rw [List.countP_cons, List.countP_nil]
  split_ifs <;> omega

theorem countP_two_exists {p : Nat → Bool} :
    ∀ {l : List Nat}, l.Nodup → 2 ≤ l.countP p →
      ∃ j1 ∈ l, ∃ j2 ∈ l, j1 ≠ j2 ∧ p j1 = true ∧ p j2 = true := by
  intro l
  induction l with
  | nil => intro h2 h3; simp [List.countP_nil] at h3
  | cons a l ih =>
      intro hnd h2
      rw [List.countP_cons] at h2
      by_cases hpa : p a = true
      · have h1 : 0 < l.countP p := by
          rw [if_pos hpa] at h2
          omega
        rcases List.countP_pos_iff.mp h1 with ⟨j2, hj2, hpj2⟩
        refine ⟨a, List.mem_cons_self a l, j2, List.mem_cons_of_mem a hj2,
          ?_, hpa, hpj2⟩
        intro he
        exact (List.nodup_cons.mp hnd).1 (he ▸ hj2)
      · have h3 : 2 ≤ l.countP p := by
          rw [if_neg hpa] at h2
          omega
        rcases ih (List.nodup_cons.mp hnd).2 h3 with
          ⟨j1, hm1, j2, hm2, hne, hp1, hp2⟩
        exact ⟨j1, List.mem_cons_of_mem a hm1, j2, List.mem_cons_of_mem a hm2,
          hne, hp1, hp2⟩

theorem count_nodup (lin : List Nat) (hnd : lin.Nodup) (m : Nat) :
    lin.count m = if m ∈ lin then 1 else 0 := by
  by_cases hm : m ∈ lin
  · rw [if_pos hm]
    exact List.count_eq_one_of_mem hnd hm
  · rw [if_neg hm]
    exact List.count_eq_zero_of_not_mem hm

theorem bumpAll_eval :
    ∀ (lin : List Nat) (cnt : Nat → Nat) (m : Nat),
      bumpAll cnt lin m = cnt m + lin.count m := by
  intro lin
  induction lin with
  | nil => intro cnt m; simp [bumpAll]
  | cons a lin ih =>
      intro cnt m
      show bumpAll (fun j => if j = a then cnt j + 1 else cnt j) lin m = _
      rw [ih, List.count_cons]
      by_cases hma : m = a
      · rw [if_pos hma, if_pos (by simp [hma])]
        omega
      · rw [if_neg hma, if_neg (by simp; omega)]
        omega

theorem dropAll_eval :
    ∀ (lin : List Nat) (cnt : Nat → Nat) (m : Nat),
      dropAll cnt lin m = cnt m - lin.count m := by
  intro lin
  induction lin with
  | nil => intro cnt m; simp [dropAll]
  | cons a lin ih =>
      intro cnt m
      show dropAll (fun j => if j = a then cnt j - 1 else cnt j) lin m = _
      rw [ih, List.count_cons]
      by_cases hma : m = a
      · rw [if_pos hma, if_pos (by simp [hma])]
        omega
      · rw [if_neg hma, if_neg (by simp; omega)]
        omega

theorem mem_pendingList {n : Nat} {nb : Nat → List Nat} {j : Nat} :
    j ∈ pendingList n nb ↔ ∃ k, k < n + 1 ∧ j ∈ nb k := by
  unfold pendingList
  rw [List.mem_flatMap]
  constructor
  · rintro ⟨k, hk, hj⟩
    exact ⟨k, List.mem_range.mp hk, hj⟩
  · rintro ⟨k, hk, hj⟩
    exact ⟨k, List.mem_range.mpr hk, hj⟩

theorem flatMap_nodup (f : Nat → List Nat) :
    ∀ (l : List Nat), l.Nodup → (∀ k ∈ l, (f k).Nodup) →
      (∀ k1 ∈ l, ∀ k2 ∈ l, ∀ j, j ∈ f k1 → j ∈ f k2 → k1 = k2) →
      (l.flatMap f).Nodup := by
  intro l
  induction l with
  | nil => intro h1 h2 h3; simp
  | cons a l ih =>
      intro hnd hper hdisj
      rw [List.flatMap_cons]
      refine List.Nodup.append (hper a (List.mem_cons_self a l))
        (ih (List.nodup_cons.mp hnd).2
          (fun k hk => hper k (List.mem_cons_of_mem a hk))
          (fun k1 h1 k2 h2 => hdisj k1 (List.mem_cons_of_mem a h1)
            k2 (List.mem_cons_of_mem a h2))) ?_
      intro j hja hjl
      rcases List.mem_flatMap.mp hjl with ⟨k, hk, hjk⟩
      have hak : a = k := hdisj a (List.mem_cons_self a l)
        k (List.mem_cons_of_mem a hk) j hja hjk
      exact (List.nodup_cons.mp hnd).1 (hak ▸ hk)

theorem pendingList_nodup {n base lvl : Nat} {imps : List ImpData}
    {nb : Nat → List Nat} (h : BOK2 base lvl imps nb) :
    (pendingList n nb).Nodup := by
  unfold pendingList
  refine flatMap_nodup nb _ (List.nodup_range _) (fun k _ => h.2 k) ?_
  intro k1 _ k2 _ j h1 h2
  have e1 := (h.1 k1 j h1).2.2.1
  have e2 := (h.1 k2 j h2).2.2.1
  rw [← e1, ← e2]

theorem countP_flatMap_update (p : Nat → Bool) (nb nb2 : Nat → List Nat)
    (K : Nat) (add : List Nat)
    (hupd : ∀ k, nb2 k = if k = K then nb k ++ add else nb k) :
    ∀ (l : List Nat),
      (l.flatMap nb2).countP p
        = (l.flatMap nb).countP p + l.count K * add.countP p := by
  intro l
  induction l with
  | nil => simp
  | cons a l ih =>
      rw [List.flatMap_cons, List.flatMap_cons, List.countP_append,
        List.countP_append, ih, hupd a, List.count_cons]
      by_cases ha : a = K
      · rw [if_pos ha, List.countP_append, if_pos (by simp [ha]), Nat.add_mul]
        omega
      · rw [if_neg ha, if_neg (by simp [ha]), Nat.add_zero]
        omega

theorem countP_cover_one (p p2 : Nat → Bool) (i : Nat) :
    ∀ {l : List Nat}, l.Nodup → i ∈ l →
      (∀ j ∈ l, j ≠ i → p2 j = p j) → p2 i = false →
      l.countP p = l.countP p2 + (if p i = true then 1 else 0) := by
  intro l
  induction l with
  | nil => intro h1 h2; cases h2
  | cons a l ih =>
      intro hnd hi hcong hp2i
      rw [List.countP_cons, List.countP_cons]
      rcases List.mem_cons.mp hi with rfl | hi2
      · have hrest : l.countP p2 = l.countP p :=
          countP_ext (fun j hj => hcong j (List.mem_cons_of_mem i hj)
            (fun he => (List.nodup_cons.mp hnd).1 (he ▸ hj)))
        rw [hrest, hp2i, show (if false = true then 1 else 0) = 0 from rfl]
        split_ifs <;> omega
      · have ha : a ≠ i :=
          fun he => (List.nodup_cons.mp hnd).1 (by rw [he]; exact hi2)
        rw [hcong a (List.mem_cons_self a l) ha,
          ih (List.nodup_cons.mp hnd).2 hi2
            (fun j hj hji => hcong j (List.mem_cons_of_mem a hj) hji) hp2i]
        split_ifs <;> omega

theorem emitEpis_complete (nvars : Nat) (curB : Nat → List Nat) (st : LSt)
    (epis : List Nat) (i k : Nat) (hk : k < nvars + 1) (hik : i ∈ curB k)
    (hc : st.cov i = false)
    (ho : (st.imps.getD i default).Optional = false) :
    i ∈ emitEpis nvars curB st epis := by
  unfold emitEpis
  apply mem_foldl_append
  refine Or.inr ⟨k, List.mem_range.mpr hk, List.mem_filter.mpr ⟨hik, ?_⟩⟩
  simp only [hc, ho]
  rfl

theorem emitEpis_base (nvars : Nat) (curB : Nat → List Nat) (st : LSt)
    (epis : List Nat) (i : Nat) (hi : i ∈ epis) :
    i ∈ emitEpis nvars curB st epis := by
  unfold emitEpis
  exact mem_foldl_append _ _ _ _ (Or.inl hi)

theorem getD_eq_of_get? {α : Type} [Inhabited α] {l : List α} {i : Nat} {a : α}
    (h : l.get? i = some a) : l.getD i default = a := by
  have hi : i < l.length := by
    by_contra hge
    rw [List.get?_eq_none.mpr (by omega)] at h
    cases h
  have h2 := get?_getD l i hi
  rw [h2] at h
  exact Option.some.inj h

theorem mem_getD_exists {α : Type} [Inhabited α] {l : List α} {a : α}
    (h : a ∈ l) : ∃ i, i < l.length ∧ l.getD i default = a := by
  rcases List.mem_iff_get.mp h with ⟨⟨i, hi⟩, hget⟩
  exact ⟨i, hi, getD_eq_of_get? (by rw [List.get?_eq_get hi, hget])⟩

theorem initArena_length (mt : List (List Nat × Bool)) :
    (initArena mt).length = mt.length := by
  unfold initArena
  rw [List.length_map, List.enum_length]

theorem initArena_getD (mt : List (List Nat × Bool)) (i : Nat)
    (hi : i < mt.length) :
    (initArena mt).getD i default
      = ⟨(mt.getD i default).1, (mt.getD i default).2, [i]⟩ := by
  apply getD_eq_of_get?
  unfold initArena
  rw [List.get?_map, enum_get?_eq mt i (mt.getD i default) (get?_getD mt i hi)]
  rfl

theorem initArena_mem {mt : List (List Nat × Bool)} {imp : ImpData}
    (h : imp ∈ initArena mt) :
    ∃ i, i < mt.length ∧
      imp = ⟨(mt.getD i default).1, (mt.getD i default).2, [i]⟩ := by
  rcases mem_getD_exists h with ⟨i, hi, hg⟩
  have hlen : i < mt.length := by
    rw [initArena_length] at hi
    exact hi
  exact ⟨i, hlen, by rw [← hg, initArena_getD mt i hlen]⟩

theorem initBuckets_mem {arena : List ImpData} {k i : Nat}
    (h : i ∈ initBuckets arena k) :
    i < arena.length ∧ oneCount ((arena.getD i default).Values) = k := by
  unfold initBuckets at h
  have h1 := List.mem_filter.mp h
  exact ⟨List.mem_range.mp h1.1, by simpa using h1.2⟩

theorem initBuckets_complete {arena : List ImpData} {i : Nat}
    (hi : i < arena.length) :
    i ∈ initBuckets arena (oneCount ((arena.getD i default).Values)) := by
  unfold initBuckets
  exact List.mem_filter.mpr ⟨List.mem_range.mpr hi, by simp⟩

/-! #### Preservation of the C1 liveness invariant through one join attempt -/

theorem tryJoin_inv1 {mt : List (List Nat × Bool)} {n lvl : Nat} {v : List Nat}
    {E : Prop} {base : List ImpData} {curB : Nat → List Nat}
    (hvm : ∀ p ∈ mt, p.2 = true → p.1 ≠ v)
    (hvlen : v.length = n) (hvbool : ∀ y ∈ v, y = 0 ∨ y = 1)
    (hcur : CurOK base lvl curB)
    (st : LSt) (ia ib na : Nat)
    (hia : ia ∈ curB na) (hib : ib ∈ curB (na + 1))
    (hinv : LInv1 mt n lvl v E base curB st) :
    LInv1 mt n lvl v E base curB (tryJoin st ia ib) := by
  rcases hinv with ⟨⟨ext, hext⟩, hAN, hB2, hCF, hNU, hHK, hCL, hW⟩
  have hiaF := hcur na ia hia
  have hibF := hcur (na + 1) ib hib
  have hA : ia < base.length := hiaF.1
  have hB : ib < base.length := hibF.1
  have hlenbase : base.length ≤ st.imps.length := by
    rw [hext, List.length_append]; omega
  have hbaseA : st.imps.getD ia default = base.getD ia default := by
    rw [hext]; exact getD_append_left base ext ia hA
  have hbaseB : st.imps.getD ib default = base.getD ib default := by
    rw [hext]; exact getD_append_left base ext ib hB
  have hOkA : NodeOK mt n (st.imps.getD ia default) :=
    hAN _ (getD_mem_of_lt st.imps ia (by omega))
  have hOkB : NodeOK mt n (st.imps.getD ib default) :=
    hAN _ (getD_mem_of_lt st.imps ib (by omega))
  have hlenA : (st.imps.getD ia default).Values.length = n := hOkA.1
  have hlenB : (st.imps.getD ib default).Values.length = n := hOkB.1
  have hcntA : oneCount ((st.imps.getD ia default).Values) = na := by
    rw [hbaseA]; exact hiaF.2.1
  have hcntB : oneCount ((st.imps.getD ib default).Values) = na + 1 := by
    rw [hbaseB]; exact hibF.2.1
  have hlvlA : eitherCount ((st.imps.getD ia default).Values) = lvl := by
    rw [hbaseA]; exact hiaF.2.2
  unfold tryJoin
  by_cases hjoin : joinableVals (st.imps.getD ia default).Values
      (st.imps.getD ib default).Values = true
  swap
  · rw [if_neg hjoin]
    exact ⟨⟨ext, hext⟩, hAN, hB2, hCF, hNU, hHK, hCL, hW⟩
  rw [if_pos hjoin]
  have hABlen : (st.imps.getD ia default).Values.length
      = (st.imps.getD ib default).Values.length := by
    rw [hlenA, hlenB]
  have hdiff1 : countDiffL (st.imps.getD ia default).Values
      (st.imps.getD ib default).Values = 1 := by
    have := joinable_count _ _ hABlen hjoin
    omega
  have hnvlen : (joinVals (st.imps.getD ia default).Values
      (st.imps.getD ib default).Values).length = n := by
    rw [joinVals_length _ _ hABlen]; exact hlenA
  have hnvrange : ∀ x ∈ joinVals (st.imps.getD ia default).Values
      (st.imps.getD ib default).Values, x = 0 ∨ x = 1 ∨ x = 2 := by
    intro x hx
    rcases joinVals_mem _ _ x hx with rfl | hx2
    · right; right; rfl
    · exact hOkA.2.1 x hx2
  have hecnv : eitherCount (joinVals (st.imps.getD ia default).Values
      (st.imps.getD ib default).Values) = lvl + 1 := by
    rw [eitherCount_joinVals _ _ hABlen hjoin, hlvlA, hdiff1]
  have hND : ((st.imps.getD ia default).Minterms ++
      (st.imps.getD ib default).Minterms).Nodup := by
    refine List.Nodup.append hOkA.2.2.1 hOkB.2.2.1 ?_
    intro mi hma hmb
    have h1 := hOkA.2.2.2.1 mi hma
    have h2 := hOkB.2.2.2.1 mi hmb
    exact cube_disjoint _ _ _ hABlen hjoin (by omega) h1.2.1 h2.2.1
  have hNewOK : NodeOK mt n
      ⟨joinVals (st.imps.getD ia default).Values
          (st.imps.getD ib default).Values,
        (st.imps.getD ia default).Optional &&
          (st.imps.getD ib default).Optional,
        (st.imps.getD ia default).Minterms ++
          (st.imps.getD ib default).Minterms⟩ := by
    refine ⟨hnvlen, hnvrange, hND, ?_, ?_⟩
    · intro mi hmi
      rcases List.mem_append.mp hmi with h2 | h2
      · have h3 := hOkA.2.2.2.1 mi h2
        refine ⟨h3.1, satL_joinL _ _ _ hABlen hjoin h3.2.1, ?_⟩
        intro hop
        have hop2 : ((st.imps.getD ia default).Optional &&
            (st.imps.getD ib default).Optional) = true := hop
        exact h3.2.2 (Bool.and_eq_true_iff.mp hop2).1
      · have h3 := hOkB.2.2.2.1 mi h2
        refine ⟨h3.1, satL_joinR _ _ _ hABlen hjoin h3.2.1, ?_⟩
        intro hop
        have hop2 : ((st.imps.getD ia default).Optional &&
            (st.imps.getD ib default).Optional) = true := hop
        exact h3.2.2 (Bool.and_eq_true_iff.mp hop2).2
    · intro w hwlen hwbool hws
      rcases cube_union _ _ w hABlen hjoin (by omega) hwbool hws with h2 | h2
      · rcases hOkA.2.2.2.2 w hwlen hwbool h2 with ⟨mi, hmi, hmeq⟩
        exact ⟨mi, List.mem_append.mpr (Or.inl hmi), hmeq⟩
      · rcases hOkB.2.2.2.2 w hwlen hwbool h2 with ⟨mi, hmi, hmeq⟩
        exact ⟨mi, List.mem_append.mpr (Or.inr hmi), hmeq⟩
  by_cases hdup : st.hashes.contains
      (hashOf (joinVals (st.imps.getD ia default).Values
        (st.imps.getD ib default).Values)) = true
  · simp only [if_pos hdup]
    refine ⟨⟨ext, hext⟩, hAN, hB2, ?_, ?_, hHK, ?_, ?_⟩
    · intro j hj
      have hj2 : st.imps.length ≤ j := hj
      show (if j = ia ∨ j = ib then true else st.cov j) = false
      rw [if_neg (by omega)]
      exact hCF j hj2
    · intro k j hj
      have hj2 : j ∈ st.nextB k := hj
      have hge : base.length ≤ j := (hB2.1 k j hj2).1
      show (if j = ia ∨ j = ib then true else st.cov j) = false
      rw [if_neg (by omega)]
      exact hNU k j hj2
    · intro m
      show st.cnt m ≤ pendingOcc st.imps
        (fun j => if j = ia ∨ j = ib then true else st.cov j)
        (pendingList n st.nextB) m
      refine le_trans (hCL m) (le_of_eq ?_)
      unfold pendingOcc
      refine countP_ext ?_
      intro j hj
      rcases mem_pendingList.mp hj with ⟨k, hk, hjk⟩
      have hge : base.length ≤ j := (hB2.1 k j hjk).1
      have he : (if j = ia ∨ j = ib then true else st.cov j) = st.cov j :=
        if_neg (by omega)
      simp only [he]
    · rcases hW with hE | ⟨k, i, hik, hcov, hopt, hsat⟩ | ⟨k, i, hik, hcov, hopt, hsat⟩
      · exact Or.inl hE
      · by_cases hii : i = ia ∨ i = ib
        · right
          right
          have hmemh : hashOf (joinVals (st.imps.getD ia default).Values
              (st.imps.getD ib default).Values) ∈ st.hashes := by
            simpa using hdup
          rcases hHK _ hmemh with ⟨k2, j, hjn, hhash⟩
          have hjF := hB2.1 k2 j hjn
          have hOkJ : NodeOK mt n (st.imps.getD j default) :=
            hAN _ (getD_mem_of_lt st.imps j hjF.2.1)
          have hveq : (st.imps.getD j default).Values
              = joinVals (st.imps.getD ia default).Values
                  (st.imps.getD ib default).Values :=
            hashOf_inj _ _ (by rw [hOkJ.1, hnvlen]) hOkJ.2.1 hnvrange hhash
          have hsatnv : satL (joinVals (st.imps.getD ia default).Values
              (st.imps.getD ib default).Values) v := by
            rcases hii with rfl | rfl
            · exact satL_joinL _ _ _ hABlen hjoin hsat
            · exact satL_joinR _ _ _ hABlen hjoin hsat
          have hoptj : (st.imps.getD j default).Optional = false := by
            cases hb : (st.imps.getD j default).Optional
            · rfl
            · exfalso
              rcases hOkJ.2.2.2.2 v hvlen hvbool
                (by rw [hveq]; exact hsatnv) with ⟨mi, hmi, hmeq⟩
              have h5 := hOkJ.2.2.2.1 mi hmi
              exact hvm _ (getD_mem_of_lt mt mi h5.1) (h5.2.2 hb) hmeq
          refine ⟨k2, j, hjn, ?_, hoptj, ?_⟩
          · show (if j = ia ∨ j = ib then true else st.cov j) = false
            have hge : base.length ≤ j := hjF.1
            rw [if_neg (by omega)]
            exact hNU k2 j hjn
          · show satL ((st.imps.getD j default).Values) v
            rw [hveq]
            exact hsatnv
        · right
          left
          refine ⟨k, i, hik, ?_, hopt, hsat⟩
          show (if i = ia ∨ i = ib then true else st.cov i) = false
          rw [if_neg hii]
          exact hcov
      · right
        right
        have hge : base.length ≤ i := (hB2.1 k i hik).1
        refine ⟨k, i, hik, ?_, hopt, hsat⟩
        show (if i = ia ∨ i = ib then true else st.cov i) = false
        rw [if_neg (by omega)]
        exact hcov
  · simp only [if_neg hdup]
    refine ⟨?_, ?_, ?_, ?_, ?_, ?_, ?_, ?_⟩
    · exact ⟨ext ++ [_], by rw [hext, List.append_assoc]⟩
    · intro imp himp
      have himp2 : imp ∈ st.imps ++
          [⟨joinVals (st.imps.getD ia default).Values
              (st.imps.getD ib default).Values,
            (st.imps.getD ia default).Optional &&
              (st.imps.getD ib default).Optional,
            (st.imps.getD ia default).Minterms ++
              (st.imps.getD ib default).Minterms⟩] := himp
      rcases List.mem_append.mp himp2 with h2 | h2
      · exact hAN imp h2
      · rcases List.mem_singleton.mp h2 with rfl
        exact hNewOK
    · constructor
      · intro k j hj
        dsimp only at hj ⊢
        by_cases hk : k = oneCount (joinVals (st.imps.getD ia default).Values
            (st.imps.getD ib default).Values)
        · rw [if_pos hk] at hj
          rcases List.mem_append.mp hj with h2 | h2
          · have h3 := hB2.1 k j h2
            refine ⟨h3.1, ?_, ?_, ?_⟩
            · rw [List.length_append, List.length_singleton]; omega
            · rw [getD_append_left st.imps _ j h3.2.1]; exact h3.2.2.1
            · rw [getD_append_left st.imps _ j h3.2.1]; exact h3.2.2.2
          · rcases List.mem_singleton.mp h2 with rfl
            refine ⟨hlenbase, ?_, ?_, ?_⟩
            · rw [List.length_append, List.length_singleton]; omega
            · rw [getD_append_last]; exact hk.symm
            · rw [getD_append_last]; exact hecnv
        · rw [if_neg hk] at hj
          have h3 := hB2.1 k j hj
          refine ⟨h3.1, ?_, ?_, ?_⟩
          · rw [List.length_append, List.length_singleton]; omega
          · rw [getD_append_left st.imps _ j h3.2.1]; exact h3.2.2.1
          · rw [getD_append_left st.imps _ j h3.2.1]; exact h3.2.2.2
      · intro k
        dsimp only
        by_cases hk : k = oneCount (joinVals (st.imps.getD ia default).Values
            (st.imps.getD ib default).Values)
        · rw [if_pos hk]
          refine List.Nodup.append (hB2.2 k) (List.nodup_singleton _) ?_
          intro j hj hj2
          rcases List.mem_singleton.mp hj2 with rfl
          have := (hB2.1 k _ hj).2.1
          omega
        · rw [if_neg hk]
          exact hB2.2 k
    · intro j hj
      have hj2 : st.imps.length + 1 ≤ j := by
        have : (st.imps ++ [(⟨joinVals (st.imps.getD ia default).Values
            (st.imps.getD ib default).Values,
          (st.imps.getD ia default).Optional &&
            (st.imps.getD ib default).Optional,
          (st.imps.getD ia default).Minterms ++
            (st.imps.getD ib default).Minterms⟩ : ImpData)]).length ≤ j := hj
        rw [List.length_append, List.length_singleton] at this
        omega
      show (if j = ia ∨ j = ib then true else st.cov j) = false
      rw [if_neg (by omega)]
      exact hCF j (by omega)
    · intro k j hj
      dsimp only at hj
      by_cases hk : k = oneCount (joinVals (st.imps.getD ia default).Values
          (st.imps.getD ib default).Values)
      · rw [if_pos hk] at hj
        rcases List.mem_append.mp hj with h2 | h2
        · have hge : base.length ≤ j := (hB2.1 k j h2).1
          show (if j = ia ∨ j = ib then true else st.cov j) = false
          rw [if_neg (by omega)]
          exact hNU k j h2
        · rcases List.mem_singleton.mp h2 with rfl
          show (if st.imps.length = ia ∨ st.imps.length = ib then true
            else st.cov st.imps.length) = false
          rw [if_neg (by omega)]
          exact hCF _ (le_refl _)
      · rw [if_neg hk] at hj
        have hge : base.length ≤ j := (hB2.1 k j hj).1
        show (if j = ia ∨ j = ib then true else st.cov j) = false
        rw [if_neg (by omega)]
        exact hNU k j hj
    · intro h2 hh2
      have hh3 : h2 ∈ st.hashes ++
          [hashOf (joinVals (st.imps.getD ia default).Values
            (st.imps.getD ib default).Values)] := hh2
      rcases List.mem_append.mp hh3 with h3 | h3
      · rcases hHK _ h3 with ⟨k2, j, hjn, hhash⟩
        have hjlt : j < st.imps.length := (hB2.1 k2 j hjn).2.1
        refine ⟨k2, j, ?_, ?_⟩
        · dsimp only
          by_cases hk : k2 = oneCount (joinVals
              (st.imps.getD ia default).Values
              (st.imps.getD ib default).Values)
          · rw [if_pos hk]
            exact List.mem_append.mpr (Or.inl hjn)
          · rw [if_neg hk]
            exact hjn
        · rw [getD_append_left st.imps _ j hjlt]
          exact hhash
      · rcases List.mem_singleton.mp h3 with rfl
        refine ⟨oneCount (joinVals (st.imps.getD ia default).Values
            (st.imps.getD ib default).Values), st.imps.length, ?_, ?_⟩
        · dsimp only
          rw [if_pos rfl]
          exact List.mem_append.mpr (Or.inr (List.mem_singleton.mpr rfl))
        · rw [getD_append_last]
    · intro m
      have hCLm := hCL m
      unfold pendingOcc pendingList at hCLm
      have hKlt : oneCount (joinVals (st.imps.getD ia default).Values
          (st.imps.getD ib default).Values) < n + 1 := by
        have h4 := oneCount_le_length (joinVals
          (st.imps.getD ia default).Values
          (st.imps.getD ib default).Values)
        rw [hnvlen] at h4
        omega
      show bumpAll st.cnt ((st.imps.getD ia default).Minterms ++
          (st.imps.getD ib default).Minterms) m ≤ _
      rw [bumpAll_eval, count_nodup _ hND m]
      unfold pendingOcc pendingList
      rw [countP_flatMap_update _ st.nextB _
        (oneCount (joinVals (st.imps.getD ia default).Values
          (st.imps.getD ib default).Values))
        [st.imps.length] (fun k => rfl) (List.range (n + 1))]
      rw [List.count_eq_one_of_mem (List.nodup_range _)
        (List.mem_range.mpr hKlt), Nat.one_mul]
      rw [countP_singleton]
      have hcovidx : (if st.imps.length = ia ∨ st.imps.length = ib then true
          else st.cov st.imps.length) = false := by
        rw [if_neg (by omega)]
        exact hCF _ (le_refl _)
      have hpidx : (!(if st.imps.length = ia ∨ st.imps.length = ib then true
            else st.cov st.imps.length) &&
          decide (m ∈ (((st.imps ++
            [(⟨joinVals (st.imps.getD ia default).Values
                (st.imps.getD ib default).Values,
              (st.imps.getD ia default).Optional &&
                (st.imps.getD ib default).Optional,
              (st.imps.getD ia default).Minterms ++
                (st.imps.getD ib default).Minterms⟩ : ImpData)]).getD
            st.imps.length default)).Minterms)) = true
          ↔ m ∈ (st.imps.getD ia default).Minterms ++
              (st.imps.getD ib default).Minterms := by
        rw [hcovidx, getD_append_last]
        simp
      have hold : ((List.range (n + 1)).flatMap st.nextB).countP
          (fun j => !(if j = ia ∨ j = ib then true else st.cov j) &&
            decide (m ∈ (((st.imps ++
              [(⟨joinVals (st.imps.getD ia default).Values
                  (st.imps.getD ib default).Values,
                (st.imps.getD ia default).Optional &&
                  (st.imps.getD ib default).Optional,
                (st.imps.getD ia default).Minterms ++
                  (st.imps.getD ib default).Minterms⟩ : ImpData)]).getD
              j default)).Minterms))
          = ((List.range (n + 1)).flatMap st.nextB).countP
            (fun j => !st.cov j &&
              decide (m ∈ ((st.imps.getD j default)).Minterms)) := by
        refine countP_ext ?_
        intro j hj
        have hj2 : j ∈ pendingList n st.nextB := hj
        rcases mem_pendingList.mp hj2 with ⟨k, hk, hjk⟩
        have hge : base.length ≤ j := (hB2.1 k j hjk).1
        have hlt : j < st.imps.length := (hB2.1 k j hjk).2.1
        have he : (if j = ia ∨ j = ib then true else st.cov j) = st.cov j :=
          if_neg (by omega)
        simp only [he, getD_append_left st.imps _ j hlt]
      rw [hold]
      by_cases hm : m ∈ (st.imps.getD ia default).Minterms ++
          (st.imps.getD ib default).Minterms
      · rw [if_pos hm, if_pos (hpidx.mpr hm)]
        omega
      · rw [if_neg hm, if_neg (fun h4 => hm (hpidx.mp h4))]
        omega
    · rcases hW with hE | ⟨k, i, hik, hcov, hopt, hsat⟩ | ⟨k, i, hik, hcov, hopt, hsat⟩
      · exact Or.inl hE
      · by_cases hii : i = ia ∨ i = ib
        · right
          right
          refine ⟨oneCount (joinVals (st.imps.getD ia default).Values
              (st.imps.getD ib default).Values), st.imps.length, ?_, ?_, ?_, ?_⟩
          · dsimp only
            rw [if_pos rfl]
            exact List.mem_append.mpr (Or.inr (List.mem_singleton.mpr rfl))
          · show (if st.imps.length = ia ∨ st.imps.length = ib then true
              else st.cov st.imps.length) = false
            rw [if_neg (by omega)]
            exact hCF _ (le_refl _)
          · show ((st.imps ++
                [(⟨joinVals (st.imps.getD ia default).Values
                    (st.imps.getD ib default).Values,
                  (st.imps.getD ia default).Optional &&
                    (st.imps.getD ib default).Optional,
                  (st.imps.getD ia default).Minterms ++
                    (st.imps.getD ib default).Minterms⟩ : ImpData)]).getD
              st.imps.length default).Optional = false
            rw [getD_append_last]
            show ((st.imps.getD ia default).Optional &&
              (st.imps.getD ib default).Optional) = false
            rcases hii with rfl | rfl
            · rw [hopt]
              rfl
            · rw [hopt, Bool.and_false]
          · show satL (((st.imps ++
                [(⟨joinVals (st.imps.getD ia default).Values
                    (st.imps.getD ib default).Values,
                  (st.imps.getD ia default).Optional &&
                    (st.imps.getD ib default).Optional,
                  (st.imps.getD ia default).Minterms ++
                    (st.imps.getD ib default).Minterms⟩ : ImpData)]).getD
              st.imps.length default).Values) v
            rw [getD_append_last]
            show satL (joinVals (st.imps.getD ia default).Values
              (st.imps.getD ib default).Values) v
            rcases hii with rfl | rfl
            · exact satL_joinL _ _ _ hABlen hjoin hsat
            · exact satL_joinR _ _ _ hABlen hjoin hsat
        · right
          left
          have hilt : i < base.length := (hcur k i hik).1
          refine ⟨k, i, hik, ?_, ?_, ?_⟩
          · show (if i = ia ∨ i = ib then true else st.cov i) = false
            rw [if_neg hii]
            exact hcov
          · show ((st.imps ++ [_]).getD i default).Optional = false
            rw [getD_append_left st.imps _ i (by omega)]
            exact hopt
          · show satL (((st.imps ++ [_]).getD i default).Values) v
            rw [getD_append_left st.imps _ i (by omega)]
            exact hsat
      · right
        right
        have hge : base.length ≤ i := (hB2.1 k i hik).1
        have hlt : i < st.imps.length := (hB2.1 k i hik).2.1
        refine ⟨k, i, ?_, ?_, ?_, ?_⟩
        · dsimp only
          by_cases hk : k = oneCount (joinVals
              (st.imps.getD ia default).Values
              (st.imps.getD ib default).Values)
          · rw [if_pos hk]
            exact List.mem_append.mpr (Or.inl hik)
          · rw [if_neg hk]
            exact hik
        · show (if i = ia ∨ i = ib then true else st.cov i) = false
          rw [if_neg (by omega)]
          exact hcov
        · show ((st.imps ++ [_]).getD i default).Optional = false
          rw [getD_append_left st.imps _ i hlt]
          exact hopt
        · show satL (((st.imps ++ [_]).getD i default).Values) v
          rw [getD_append_left st.imps _ i hlt]
          exact hsat

theorem joinPhase_inv1 {mt : List (List Nat × Bool)} {n lvl : Nat}
    {v : List Nat} {E : Prop} {base : List ImpData} {curB : Nat → List Nat}
    (hvm : ∀ p ∈ mt, p.2 = true → p.1 ≠ v)
    (hvlen : v.length = n) (hvbool : ∀ y ∈ v, y = 0 ∨ y = 1)
    (hcur : CurOK base lvl curB) (nvars : Nat)
    (st : LSt) (hinv : LInv1 mt n lvl v E base curB st) :
    LInv1 mt n lvl v E base curB (joinPhase nvars curB st) := by
  unfold joinPhase
  refine foldl_preserve _ _ _ hinv ?_
  intro st2 na _ h2
  refine foldl_preserve _ _ _ h2 ?_
  intro st3 ia hia h3
  refine foldl_preserve _ _ _ h3 ?_
  intro st4 ib hib h4
  exact tryJoin_inv1 hvm hvlen hvbool hcur st4 ia ib na hia hib h4

/-! #### Preservation through the false-EPI heuristic -/

theorem heurImp_inv1 {mt : List (List Nat × Bool)} {n lvl : Nat} {v : List Nat}
    {E2 : Prop} {base : Nat}
    (hvm : ∀ p ∈ mt, p.2 = true → p.1 ≠ v)
    (st : LSt) (i : Nat)
    (hi : i ∈ pendingList n st.nextB)
    (hAN : ANodeOK mt n st.imps)
    (hB2 : BOK2 base lvl st.imps st.nextB)
    (hCF : CovFresh st.imps.length st.cov)
    (hCL : CntLe n st)
    (hHW : E2 ∨ HWit v mt st) :
    CntLe n (heurImp st i) ∧ (E2 ∨ HWit v mt (heurImp st i)) ∧
      CovFresh (heurImp st i).imps.length (heurImp st i).cov := by
  rcases mem_pendingList.mp hi with ⟨ki, hki, hiki⟩
  have hilt : i < st.imps.length := (hB2.1 ki i hiki).2.1
  have hndp : (pendingList n st.nextB).Nodup := pendingList_nodup hB2
  have hOkI : NodeOK mt n (st.imps.getD i default) :=
    hAN _ (getD_mem_of_lt st.imps i hilt)
  have hndlin : (st.imps.getD i default).Minterms.Nodup := hOkI.2.2.1
  unfold heurImp
  by_cases hall : ((st.imps.getD i default).Minterms).all
      (fun m => decide (1 < st.cnt m)) = true
  swap
  · rw [if_neg hall]
    exact ⟨hCL, hHW, hCF⟩
  rw [if_pos hall]
  by_cases hcovi : st.cov i = true
  · refine ⟨?_, ?_, ?_⟩
    · intro m
      show dropAll st.cnt (st.imps.getD i default).Minterms m ≤
        pendingOcc st.imps (fun j => if j = i then true else st.cov j)
          (pendingList n st.nextB) m
      rw [dropAll_eval]
      refine le_trans (Nat.sub_le _ _) (le_trans (hCL m) (le_of_eq ?_))
      unfold pendingOcc
      refine countP_ext ?_
      intro j hj
      by_cases hji : j = i
      · subst hji
        simp [hcovi]
      · have he : (if j = i then true else st.cov j) = st.cov j := if_neg hji
        simp only [he]
    · rcases hHW with hE | ⟨k, j, hjn, hcov, hopt, mi, hmi, hmeq⟩
      · exact Or.inl hE
      · right
        have hji : j ≠ i := by
          intro he
          rw [he, hcovi] at hcov
          cases hcov
        refine ⟨k, j, hjn, ?_, hopt, mi, hmi, hmeq⟩
        show (if j = i then true else st.cov j) = false
        rw [if_neg hji]
        exact hcov
    · intro j hj
      have hj2 : st.imps.length ≤ j := hj
      show (if j = i then true else st.cov j) = false
      rw [if_neg (by omega)]
      exact hCF j hj2
  · have hcovi2 : st.cov i = false := by
      cases hb : st.cov i
      · rfl
      · exact absurd hb hcovi
    refine ⟨?_, ?_, ?_⟩
    · intro m
      show dropAll st.cnt (st.imps.getD i default).Minterms m ≤
        pendingOcc st.imps (fun j => if j = i then true else st.cov j)
          (pendingList n st.nextB) m
      rw [dropAll_eval, count_nodup _ hndlin m]
      unfold pendingOcc pendingList
      beta_reduce
      have hCLm := hCL m
      unfold pendingOcc pendingList at hCLm
      have hi2 : i ∈ (List.range (n + 1)).flatMap st.nextB := hi
      have hndp2 : ((List.range (n + 1)).flatMap st.nextB).Nodup := hndp
      have hkey := countP_cover_one
        (fun j => !st.cov j && decide (m ∈ (st.imps.getD j default).Minterms))
        (fun j => !(if j = i then true else st.cov j) &&
          decide (m ∈ (st.imps.getD j default).Minterms))
        i hndp2 hi2 ?_ ?_
      · have hpi : ((fun j => !st.cov j &&
            decide (m ∈ (st.imps.getD j default).Minterms)) i = true)
            ↔ m ∈ (st.imps.getD i default).Minterms := by
          simp [hcovi2]
        by_cases hm : m ∈ (st.imps.getD i default).Minterms
        · rw [if_pos hm]
          rw [if_pos (hpi.mpr hm)] at hkey
          omega
        · rw [if_neg hm]
          rw [if_neg (fun h5 => hm (hpi.mp h5))] at hkey
          omega
      · intro j hj hji
        have he : (if j = i then true else st.cov j) = st.cov j := if_neg hji
        simp only [he]
      · simp
    · rcases hHW with hE | ⟨k, j, hjn, hcov, hopt, mi, hmi, hmeq⟩
      · exact Or.inl hE
      · right
        by_cases hji : j = i
        · rw [hji] at hjn hcov hopt hmi
          have hmi2 : 2 ≤ st.cnt mi := by
            have h5 := List.all_eq_true.mp hall mi hmi
            simp at h5
            omega
          have hocc2 : 2 ≤ ((List.range (n + 1)).flatMap st.nextB).countP
              (fun j2 => !st.cov j2 &&
                decide (mi ∈ (st.imps.getD j2 default).Minterms)) := by
            have h6 := hCL mi
            unfold pendingOcc pendingList at h6
            omega
          have hndp2 : ((List.range (n + 1)).flatMap st.nextB).Nodup := hndp
          rcases countP_two_exists hndp2 hocc2 with
            ⟨j1, hm1, j2, hm2, hne, hp1, hp2⟩
          have hpick : ∃ jw, jw ∈ (List.range (n + 1)).flatMap st.nextB ∧
              jw ≠ i ∧ (!st.cov jw &&
                decide (mi ∈ (st.imps.getD jw default).Minterms)) = true := by
            by_cases h1i : j1 = i
            · exact ⟨j2, hm2, fun he => hne (h1i.trans he.symm), hp2⟩
            · exact ⟨j1, hm1, h1i, hp1⟩
          rcases hpick with ⟨jw, hjw, hjwi, hpjw⟩
          have hcovw : st.cov jw = false := by
            rcases Bool.and_eq_true_iff.mp hpjw with ⟨h5, _⟩
            cases hb : st.cov jw
            · rfl
            · rw [hb] at h5
              cases h5
          have hmiw : mi ∈ (st.imps.getD jw default).Minterms := by
            rcases Bool.and_eq_true_iff.mp hpjw with ⟨_, h6⟩
            simpa using h6
          have hjw2 : jw ∈ pendingList n st.nextB := hjw
          rcases mem_pendingList.mp hjw2 with ⟨kw, hkw, hjkw⟩
          have hwlt : jw < st.imps.length := (hB2.1 kw jw hjkw).2.1
          have hOkW : NodeOK mt n (st.imps.getD jw default) :=
            hAN _ (getD_mem_of_lt st.imps jw hwlt)
          have hoptw : (st.imps.getD jw default).Optional = false := by
            cases hb : (st.imps.getD jw default).Optional
            · rfl
            · exfalso
              have h5 := hOkW.2.2.2.1 mi hmiw
              exact hvm _ (getD_mem_of_lt mt mi h5.1) (h5.2.2 hb) hmeq
          refine ⟨kw, jw, hjkw, ?_, hoptw, mi, hmiw, hmeq⟩
          show (if jw = i then true else st.cov jw) = false
          rw [if_neg hjwi]
          exact hcovw
        · refine ⟨k, j, hjn, ?_, hopt, mi, hmi, hmeq⟩
          show (if j = i then true else st.cov j) = false
          rw [if_neg hji]
          exact hcov
    · intro j hj
      have hj2 : st.imps.length ≤ j := hj
      show (if j = i then true else st.cov j) = false
      rw [if_neg (by omega)]
      exact hCF j hj2

theorem heurPhase_inv1 {mt : List (List Nat × Bool)} {n lvl : Nat}
    {v : List Nat} {E2 : Prop} {base : Nat}
    (hvm : ∀ p ∈ mt, p.2 = true → p.1 ≠ v)
    (st1 : LSt)
    (hAN : ANodeOK mt n st1.imps)
    (hB2 : BOK2 base lvl st1.imps st1.nextB)
    (hCF : CovFresh st1.imps.length st1.cov)
    (hCL : CntLe n st1)
    (hHW : E2 ∨ HWit v mt st1) :
    (heurPhase n st1.nextB st1).imps = st1.imps ∧
    (heurPhase n st1.nextB st1).nextB = st1.nextB ∧
    CovFresh (heurPhase n st1.nextB st1).imps.length
      (heurPhase n st1.nextB st1).cov ∧
    CntLe n (heurPhase n st1.nextB st1) ∧
    (E2 ∨ HWit v mt (heurPhase n st1.nextB st1)) := by
  unfold heurPhase
  refine foldl_preserve
    (P := fun st : LSt => st.imps = st1.imps ∧ st.nextB = st1.nextB ∧
      CovFresh st.imps.length st.cov ∧ CntLe n st ∧ (E2 ∨ HWit v mt st))
    _ _ _ ⟨rfl, rfl, hCF, hCL, hHW⟩ ?_
  intro st2 k hk h2
  refine foldl_preserve
    (P := fun st : LSt => st.imps = st1.imps ∧ st.nextB = st1.nextB ∧
      CovFresh st.imps.length st.cov ∧ CntLe n st ∧ (E2 ∨ HWit v mt st))
    _ _ _ h2 ?_
  intro st3 i hii h3
  rcases h3 with ⟨he1, he2, h3CF, h3CL, h3HW⟩
  have hflds := heurImp_fields st3 i
  have hi3 : i ∈ pendingList n st3.nextB := by
    rw [he2]
    exact mem_pendingList.mpr ⟨k, List.mem_range.mp hk, hii⟩
  have hres := heurImp_inv1 hvm st3 i hi3 (by rw [he1]; exact hAN)
    (by rw [he1, he2]; exact hB2) h3CF h3CL h3HW
  exact ⟨hflds.1.trans he1, hflds.2.trans he2, hres.2.2, hres.1, hres.2.1⟩

/-! #### One level of the join engine preserves well-formedness and
  liveness for C1 -/

theorem levelStep_inv1 {mt : List (List Nat × Bool)} {n lvl : Nat}
    {v : List Nat}
    (hvm : ∀ p ∈ mt, p.2 = true → p.1 ≠ v)
    (hvlen : v.length = n) (hvbool : ∀ y ∈ v, y = 0 ∨ y = 1)
    (g : GSt) (hg : GOK mt n lvl g) (hl : LiveG v g) :
    GOK mt n (lvl + 1) (levelStep n g) ∧ LiveG v (levelStep n g) := by
  rcases hg with ⟨hAN, hCur, hCF, hEpi⟩
  have h0 : LInv1 mt n lvl v (EWit v g.imps g.epis) g.imps g.buckets
      ⟨g.imps, g.cov, fun _ => 0, fun _ => [], []⟩ := by
    refine ⟨⟨[], by simp⟩, hAN, ⟨?_, ?_⟩, hCF, ?_, ?_, ?_, ?_⟩
    · intro k j hj
      cases hj
    · intro k
      exact List.nodup_nil
    · intro k j hj
      cases hj
    · intro h hh
      cases hh
    · intro m2
      exact Nat.zero_le _
    · rcases hl with hE | hB
      · exact Or.inl hE
      · exact Or.inr (Or.inl hB)
  have h1 := joinPhase_inv1 hvm hvlen hvbool hCur n _ h0
  rcases h1 with ⟨⟨ext, hext⟩, hAN1, hB21, hCF1, hNU1, hHK1, hCL1, hW1⟩
  have hlive1 : EWit v (joinPhase n g.buckets ⟨g.imps, g.cov, fun _ => 0, fun _ => [], []⟩).imps (emitEpis n g.buckets (joinPhase n g.buckets ⟨g.imps, g.cov, fun _ => 0, fun _ => [], []⟩) g.epis) ∨ HWit v mt (joinPhase n g.buckets ⟨g.imps, g.cov, fun _ => 0, fun _ => [], []⟩) := by
    rcases hW1 with hE | hBc | hBn
    · left
      rcases hE with ⟨i, hie, hsat⟩
      have hilt : i < g.imps.length := hEpi i hie
      refine ⟨i, emitEpis_base _ _ _ _ _ hie, ?_⟩
      rw [hext, getD_append_left g.imps ext i hilt]
      exact hsat
    · left
      rcases hBc with ⟨k, i, hik, hcov, hopt, hsat⟩
      have h5 := hCur k i hik
      have h6 : NodeOK mt n (g.imps.getD i default) :=
        hAN _ (getD_mem_of_lt g.imps i h5.1)
      have h7 := oneCount_le_length ((g.imps.getD i default).Values)
      have h8 := h5.2.1
      have hkn : k < n + 1 := by
        rw [h6.1] at h7
        omega
      exact ⟨i, emitEpis_complete n g.buckets _ g.epis i k hkn hik hcov hopt,
        hsat⟩
    · right
      rcases hBn with ⟨k, i, hik, hcov, hopt, hsat⟩
      have hilt := (hB21.1 k i hik).2.1
      have hOkI := hAN1 _ (getD_mem_of_lt _ i hilt)
      rcases hOkI.2.2.2.2 v hvlen hvbool hsat with ⟨mi, hmi, hmeq⟩
      exact ⟨k, i, hik, hcov, hopt, mi, hmi, hmeq⟩
  have hres := heurPhase_inv1 hvm (joinPhase n g.buckets ⟨g.imps, g.cov, fun _ => 0, fun _ => [], []⟩) hAN1 hB21 hCF1 hCL1 hlive1
  rcases hres with ⟨himps2, hnb2, hCF2, hCL2, hHW2⟩
  constructor
  · refine ⟨?_, ?_, hCF2, ?_⟩
    · show ANodeOK mt n (heurPhase n (joinPhase n g.buckets ⟨g.imps, g.cov, fun _ => 0, fun _ => [], []⟩).nextB (joinPhase n g.buckets ⟨g.imps, g.cov, fun _ => 0, fun _ => [], []⟩)).imps
      rw [himps2]
      exact hAN1
    · intro k j hj
      have hj1 : j ∈ (joinPhase n g.buckets ⟨g.imps, g.cov, fun _ => 0, fun _ => [], []⟩).nextB k := by
        have hj2 : j ∈ (heurPhase n (joinPhase n g.buckets ⟨g.imps, g.cov, fun _ => 0, fun _ => [], []⟩).nextB (joinPhase n g.buckets ⟨g.imps, g.cov, fun _ => 0, fun _ => [], []⟩)).nextB k := hj
        rw [hnb2] at hj2
        exact hj2
      have h5 := hB21.1 k j hj1
      refine ⟨?_, ?_, ?_⟩
      · show j < (heurPhase n (joinPhase n g.buckets ⟨g.imps, g.cov, fun _ => 0, fun _ => [], []⟩).nextB (joinPhase n g.buckets ⟨g.imps, g.cov, fun _ => 0, fun _ => [], []⟩)).imps.length
        rw [himps2]
        exact h5.2.1
      · show oneCount (((heurPhase n (joinPhase n g.buckets ⟨g.imps, g.cov, fun _ => 0, fun _ => [], []⟩).nextB (joinPhase n g.buckets ⟨g.imps, g.cov, fun _ => 0, fun _ => [], []⟩)).imps.getD j default).Values) = k
        rw [himps2]
        exact h5.2.2.1
      · show eitherCount (((heurPhase n (joinPhase n g.buckets ⟨g.imps, g.cov, fun _ => 0, fun _ => [], []⟩).nextB (joinPhase n g.buckets ⟨g.imps, g.cov, fun _ => 0, fun _ => [], []⟩)).imps.getD j default).Values) = lvl + 1
        rw [himps2]
        exact h5.2.2.2
    · intro i hi
      have hi2 : i ∈ emitEpis n g.buckets (joinPhase n g.buckets ⟨g.imps, g.cov, fun _ => 0, fun _ => [], []⟩) g.epis := hi
      show i < (heurPhase n (joinPhase n g.buckets ⟨g.imps, g.cov, fun _ => 0, fun _ => [], []⟩).nextB (joinPhase n g.buckets ⟨g.imps, g.cov, fun _ => 0, fun _ => [], []⟩)).imps.length
      rw [himps2, hext, List.length_append]
      rcases emitEpis_mem _ _ _ _ i hi2 with h5 | ⟨k, h5⟩
      · have h6 := hEpi i h5
        omega
      · have h6 := (hCur k i h5).1
        omega
  · rcases hHW2 with hE2 | hHW3
    · left
      rcases hE2 with ⟨i, hie, hsat⟩
      refine ⟨i, hie, ?_⟩
      show satL (((heurPhase n (joinPhase n g.buckets ⟨g.imps, g.cov, fun _ => 0, fun _ => [], []⟩).nextB (joinPhase n g.buckets ⟨g.imps, g.cov, fun _ => 0, fun _ => [], []⟩)).imps.getD i default).Values) v
      rw [himps2]
      exact hsat
    · right
      rcases hHW3 with ⟨k, j, hjn, hcov, hopt, mi, hmi, hmeq⟩
      have hjn1 : j ∈ (joinPhase n g.buckets ⟨g.imps, g.cov, fun _ => 0, fun _ => [], []⟩).nextB k := by
        rw [← hnb2]
        exact hjn
      have hjlt : j < (joinPhase n g.buckets ⟨g.imps, g.cov, fun _ => 0, fun _ => [], []⟩).imps.length := (hB21.1 k j hjn1).2.1
      have hmi1 : mi ∈ (((joinPhase n g.buckets ⟨g.imps, g.cov, fun _ => 0, fun _ => [], []⟩).imps.getD j default)).Minterms := by
        rw [← himps2]
        exact hmi
      have hOkJ := hAN1 _ (getD_mem_of_lt _ j hjlt)
      have h5 := (hOkJ.2.2.2.1 mi hmi1).2.1
      refine ⟨k, j, hjn, hcov, hopt, ?_⟩
      show satL (((heurPhase n (joinPhase n g.buckets ⟨g.imps, g.cov, fun _ => 0, fun _ => [], []⟩).nextB (joinPhase n g.buckets ⟨g.imps, g.cov, fun _ => 0, fun _ => [], []⟩)).imps.getD j default).Values) v
      rw [himps2, ← hmeq]
      exact h5

theorem levelLoop_inv1 {mt : List (List Nat × Bool)} {n : Nat}
    {v : List Nat}
    (hvm : ∀ p ∈ mt, p.2 = true → p.1 ≠ v)
    (hvlen : v.length = n) (hvbool : ∀ y ∈ v, y = 0 ∨ y = 1) :
    ∀ (L : List Nat) (lvl : Nat) (g : GSt), GOK mt n lvl g → LiveG v g →
      GOK mt n (lvl + L.length) (L.foldl (fun g2 _ => levelStep n g2) g) ∧
      LiveG v (L.foldl (fun g2 _ => levelStep n g2) g) := by
  intro L
  induction L with
  | nil =>
      intro lvl g hg hl
      exact ⟨hg, hl⟩
  | cons a L ih =>
      intro lvl g hg hl
      have h1 := levelStep_inv1 hvm hvlen hvbool g hg hl
      have h2 := ih (lvl + 1) (levelStep n g) h1.1 h1.2
      constructor
      · have he : lvl + (a :: L).length = (lvl + 1) + L.length := by
          rw [List.length_cons]
          omega
        rw [he]
        exact h2.1
      · exact h2.2

theorem fastBucketedJoin_sound (mt : List (List Nat × Bool)) (n : Nat)
    (hrows : ∀ p ∈ mt, p.1.length = n ∧ ∀ x ∈ p.1, x = 0 ∨ x = 1)
    (v : List Nat) (mi0 : Nat) (hmi0 : mi0 < mt.length)
    (hv : (mt.getD mi0 default).1 = v)
    (hopt0 : (mt.getD mi0 default).2 = false)
    (hvm : ∀ p ∈ mt, p.2 = true → p.1 ≠ v) :
    ∃ imp ∈ fastBucketedJoin mt n, satL imp.Values v := by
  have hmem0 : mt.getD mi0 default ∈ mt := getD_mem_of_lt mt mi0 hmi0
  have hvlen : v.length = n := by
    rw [← hv]
    exact (hrows _ hmem0).1
  have hvbool : ∀ y ∈ v, y = 0 ∨ y = 1 := by
    rw [← hv]
    exact (hrows _ hmem0).2
  have hAN0 : ANodeOK mt n (initArena mt) := by
    intro imp himp
    rcases initArena_mem himp with ⟨i, hilt, rfl⟩
    have hmemi : mt.getD i default ∈ mt := getD_mem_of_lt mt i hilt
    have hrowi := hrows _ hmemi
    refine ⟨hrowi.1, ?_, List.nodup_singleton i, ?_, ?_⟩
    · intro x hx
      rcases hrowi.2 x hx with rfl | rfl
      · exact Or.inl rfl
      · exact Or.inr (Or.inl rfl)
    · intro mi hmi
      rcases List.mem_singleton.mp hmi with rfl
      exact ⟨hilt, satL_refl _, fun ho => ho⟩
    · intro w hwlen hwbool hws
      have hw : w = (mt.getD i default).1 := satL_noEither _ _ hrowi.2 hws
      exact ⟨i, List.mem_singleton.mpr rfl, hw.symm⟩
  have hCur0 : CurOK (initArena mt) 0 (initBuckets (initArena mt)) := by
    intro k i hik
    rcases initBuckets_mem hik with ⟨hilt, hcnt⟩
    refine ⟨hilt, hcnt, ?_⟩
    have hilt2 : i < mt.length := by
      rw [← initArena_length mt]
      exact hilt
    rw [initArena_getD mt i hilt2]
    refine eitherCount_zero_of_bool _ ?_
    exact (hrows _ (getD_mem_of_lt mt i hilt2)).2
  have hg0 : GOK mt n 0 ⟨initArena mt, fun _ => false,
      initBuckets (initArena mt), []⟩ :=
    ⟨hAN0, hCur0, fun j hj => rfl, fun i hi => by cases hi⟩
  have hl0 : LiveG v ⟨initArena mt, fun _ => false,
      initBuckets (initArena mt), []⟩ := by
    right
    have hmi0A : mi0 < (initArena mt).length := by
      rw [initArena_length]
      exact hmi0
    refine ⟨oneCount (((initArena mt).getD mi0 default).Values), mi0,
      initBuckets_complete hmi0A, rfl, ?_, ?_⟩
    · rw [initArena_getD mt mi0 hmi0]
      exact hopt0
    · rw [initArena_getD mt mi0 hmi0]
      show satL ((mt.getD mi0 default).1) v
      rw [hv]
      exact satL_refl v
  have hres := levelLoop_inv1 hvm hvlen hvbool (List.range (n + 1)) 0 _ hg0 hl0
  rcases hres.2 with ⟨i, hie, hsat⟩ | ⟨k, i, hik, hcov, hopt, hsat⟩
  · unfold fastBucketedJoin
    exact ⟨_, List.mem_map_of_mem _ hie, hsat⟩
  · exfalso
    have hCurN := hres.1.2.1
    have h5 := hCurN k i hik
    have h6 := hres.1.1 _ (getD_mem_of_lt _ i h5.1)
    have h7 := eitherCount_le_length
      (((List.range (n + 1)).foldl (fun g2 _ => levelStep n g2)
        ⟨initArena mt, fun _ => false, initBuckets (initArena mt),
          []⟩).imps.getD i default).Values
    have h8 := h5.2.2
    rw [List.length_range] at h8
    rw [h6.1] at h7
    omega

/-- C1 (amended): soundness of the returned cover under a strengthened
  consistency hypothesis.  The free-variable columns hold only 0/1, and no
  row whose target-column bit is strictly ZERO or DONT_CARE may share its
  free-variable assignment with a row whose target bit is ONE (plain
  consistency additionally strengthened to exclude ONE/DONT_CARE
  collisions).  Then for every row whose target-column bit is ONE, the EPI
  list returned by solve_and_or contains an implicant all of whose
  non-DONT_CARE literals agree with that row's free-variable assignment. -/
theorem claim_C1_amended (m : List (List Nat)) (oi : Nat) (iil : List Nat)
    (hbits : ∀ row ∈ m, ∀ j ∈ iil, row.getD j 0 = 0 ∨ row.getD j 0 = 1)
    (hcons : ∀ r1 ∈ m, ∀ r2 ∈ m,
      (iil.map fun j => r1.getD j 0) = (iil.map fun j => r2.getD j 0) →
      r1.getD oi 0 = ONE → r2.getD oi 0 ≠ ZERO ∧ r2.getD oi 0 ≠ EITHER)
    (row0 : List Nat) (hrow0 : row0 ∈ m) (hone : row0.getD oi 0 = ONE) :
    ∃ imp ∈ solve_and_or m oi iil,
      satL imp.Values (iil.map fun j => row0.getD j 0) := by
  have hmtmem : ∀ p ∈ m.filterMap (fun row =>
      if row.getD oi 0 = ONE ∨ row.getD oi 0 = EITHER then
        some (iil.map (fun i => row.getD i 0),
              decide (row.getD oi 0 = EITHER))
      else none), ∃ row ∈ m,
      p = (iil.map (fun i => row.getD i 0),
           decide (row.getD oi 0 = EITHER)) := by
    intro p hp
    rcases List.mem_filterMap.mp hp with ⟨row, hrm, hf⟩
    split_ifs at hf with hc
    exact ⟨row, hrm, (Option.some.inj hf).symm⟩
  have hrows : ∀ p ∈ m.filterMap (fun row =>
      if row.getD oi 0 = ONE ∨ row.getD oi 0 = EITHER then
        some (iil.map (fun i => row.getD i 0),
              decide (row.getD oi 0 = EITHER))
      else none), p.1.length = iil.length ∧
      ∀ x ∈ p.1, x = 0 ∨ x = 1 := by
    intro p hp
    rcases hmtmem p hp with ⟨row, hrm, rfl⟩
    constructor
    · simp
    · intro x hx
      rcases List.mem_map.mp hx with ⟨j, hj, rfl⟩
      exact hbits row hrm j hj
  have hvmem : ((iil.map fun j => row0.getD j 0), false) ∈ m.filterMap (fun row =>
      if row.getD oi 0 = ONE ∨ row.getD oi 0 = EITHER then
        some (iil.map (fun i => row.getD i 0),
              decide (row.getD oi 0 = EITHER))
      else none) := by
    refine List.mem_filterMap.mpr ⟨row0, hrow0, ?_⟩
    rw [if_pos (Or.inl hone)]
    have hdec : decide (row0.getD oi 0 = EITHER) = false := by
      rw [hone]
      rfl
    rw [hdec]
  rcases mem_getD_exists hvmem with ⟨mi0, hmi0, hgd⟩
  have hvm2 : ∀ p ∈ m.filterMap (fun row =>
      if row.getD oi 0 = ONE ∨ row.getD oi 0 = EITHER then
        some (iil.map (fun i => row.getD i 0),
              decide (row.getD oi 0 = EITHER))
      else none), p.2 = true →
      p.1 ≠ (iil.map fun j => row0.getD j 0) := by
    intro p hp hp2 hp1
    rcases hmtmem p hp with ⟨row, hrm, rfl⟩
    have he : row.getD oi 0 = EITHER := by
      simpa using hp2
    have heq : (iil.map fun j => row0.getD j 0)
        = (iil.map fun j => row.getD j 0) := hp1.symm
    exact (hcons row0 hrow0 row hrm heq hone).2 he
  show ∃ imp ∈ fastBucketedJoin (m.filterMap (fun row =>
      if row.getD oi 0 = ONE ∨ row.getD oi 0 = EITHER then
        some (iil.map (fun i => row.getD i 0),
              decide (row.getD oi 0 = EITHER))
      else none)) iil.length,
    satL imp.Values (iil.map fun j => row0.getD j 0)
  exact fastBucketedJoin_sound _ iil.length hrows _ mi0 hmi0
    (by rw [hgd]) (by rw [hgd]) hvm2

/-- Witness for the amended C1 theorem at a concrete two-row table. -/
theorem claim_C1_amended_witness :
    ∃ imp ∈ solve_and_or [[0,1],[1,0]] 1 [0],
      satL imp.Values ([0].map fun j => ([0,1] : List Nat).getD j 0) :=
  claim_C1_amended [[0,1],[1,0]] 1 [0] (by decide) (by decide)
    [0,1] (by decide) rfl

/-- Witness for C3 at a concrete doctest row of solve.py. -/
theorem claim_C3_excitation_witness :
    transcribeRow [0,0,0,1,1,1,0,0] [0] [1,2] [4,5] [6,7] =
        some [0,0,0,1,1,0,2,0,2] ∧
    ([0,0,0,1,1,0,2,0,2] : List Nat).get? (1 + 2 + 2 + 2 * 0) = some 0 ∧
    ([0,0,0,1,1,0,2,0,2] : List Nat).get? (1 + 2 + 2 + 2 * 0 + 1) = some 2 := by
  refine ⟨by rfl, ?_⟩
  have := claim_C3_excitation [0,0,0,1,1,1,0,0] [0] [1,2] [4,5] [6,7]
    [0,0,0,1,1,0,2,0,2] 0 1 6 0 0 (by rfl) (by rfl) (by rfl) (by rfl) (by rfl)
    (Or.inl rfl) (Or.inl rfl)
  exact this

end C115
